import Mathlib

/-!
# Verification of the database-editor core against its specification

This file shallowly embeds the core algorithms of the `database-editor`
repository (diff engine, SQL generator, change orderer, ownership-tree
builder, nested/flat serializer, sync orchestrator) as executable Lean
definitions, and proves or refutes the frozen claims about them.

JavaScript data is modelled by the inductive type `JVal`: JS objects are
insertion-ordered association lists with unique keys, JS `Map`s are
association lists with `set` replacing in place, and the special JS value
`undefined` is the constructor `JVal.undef` (property reads of absent keys
yield `undef`).
-/

namespace DbEditor

/-- A JavaScript/JSON value.  `undef` is JavaScript `undefined`: it is never
produced by `JSON.parse` but arises when code reads an absent property and
stores the result. -/
inductive JVal where
  | undef : JVal
  | null : JVal
  | bool (b : Bool) : JVal
  | num (n : Int) : JVal
  | str (s : String) : JVal
  | arr (elems : List JVal) : JVal
  | obj (entries : List (String × JVal)) : JVal

/-- A flat row: a JS object mapping column names to values. -/
abbrev FlatRow := List (String × JVal)

/-- First-match lookup in an association list (JS object property read /
`Map.get`, returning `none` for an absent key). -/
def jsGet {α : Type} : List (String × α) → String → Option α
  | [], _ => none
  | (k', v) :: rest, k => if k' = k then some v else jsGet rest k

/-- JS `Map.set` / object property assignment: replace the first binding in
place if the key is present, otherwise append. -/
def jsSet {α : Type} : List (String × α) → String → α → List (String × α)
  | [], k, v => [(k, v)]
  | (k', v') :: rest, k, v =>
      if k' = k then (k, v) :: rest else (k', v') :: jsSet rest k v

/-- Reading a property of a JS object: absent keys read as `undefined`. -/
def readCol (row : FlatRow) (k : String) : JVal :=
  (jsGet row k).getD JVal.undef

/-- `Object.keys` of a JS object. -/
def rowKeys (row : FlatRow) : List String := row.map Prod.fst

/-- `new Set([...a])` iteration order: first occurrences, in order. -/
def dedupFirstAux (seen : List String) : List String → List String
  | [] => []
  | x :: xs =>
      if x ∈ seen then dedupFirstAux seen xs
      else x :: dedupFirstAux (x :: seen) xs

def dedupFirst (l : List String) : List String := dedupFirstAux [] l

/-- `Set.add` on a list-modelled JS `Set` (insertion order, no duplicates). -/
def addUnique (l : List String) (x : String) : List String :=
  if x ∈ l then l else l ++ [x]

/-- JS strict equality `===` on values.  Primitives compare by value; arrays
and objects compare by reference, which we model conservatively as `false`
(two separately obtained object values are distinct references; the
consistency side conditions of the theorems below restrict the compared
columns to primitive values, where `===` agrees with structural equality). -/
def jsStrictEq : JVal → JVal → Bool
  | .undef, .undef => true
  | .null, .null => true
  | .bool a, .bool b => a = b
  | .num a, .num b => a = b
  | .str a, .str b => a = b
  | _, _ => false

/-- A value is a JS primitive (not an object/array reference, not `undefined`). -/
def isPrimitive : JVal → Bool
  | .null => true
  | .bool _ => true
  | .num _ => true
  | .str _ => true
  | _ => false

/-- Escape the characters of a JSON string literal (`"` and `\`; other
escapes are irrelevant to the identifiers and values considered here). -/
def jsonEscape : List Char → List Char
  | [] => []
  | c :: cs =>
      if c = '"' || c = '\\' then '\\' :: c :: jsonEscape cs
      else c :: jsonEscape cs

/-- Quote a string as a JSON string literal. -/
def jsonQuote (s : String) : String :=
  "\"" ++ String.mk (jsonEscape s.toList) ++ "\""

mutual

/-- `JSON.stringify` on a value.  `undefined` stringifies to no output at all
(JS returns the value `undefined`), modelled as `none`. -/
def jsonStringify : JVal → Option String
  | .undef => none
  | .null => some "null"
  | .bool b => some (cond b "true" "false")
  | .num n => some (toString n)
  | .str s => some (jsonQuote s)
  | .arr es => some ("[" ++ String.intercalate "," (jsonStringifyElems es) ++ "]")
  | .obj kvs => some ("\x7b" ++ String.intercalate "," (jsonStringifyMembers kvs) ++ "\x7d")
termination_by structural v => v

/-- Array elements: `undefined` elements render as `null`. -/
def jsonStringifyElems : List JVal → List String
  | [] => []
  | e :: es => ((jsonStringify e).getD "null") :: jsonStringifyElems es
termination_by structural l => l

/-- Object members: `undefined`-valued keys are omitted. -/
def jsonStringifyMembers : List (String × JVal) → List String
  | [] => []
  | (k, v) :: kvs =>
      match jsonStringify v with
      | none => jsonStringifyMembers kvs
      | some sv => (jsonQuote k ++ ":" ++ sv) :: jsonStringifyMembers kvs
termination_by structural l => l

end

mutual

/-- Manual decidable equality for `JVal` (the `deriving` handler does not
support nested inductives). -/
def decEqJVal : (a b : JVal) → Decidable (a = b)
  | .undef, .undef => isTrue rfl
  | .null, .null => isTrue rfl
  | .bool a, .bool b =>
      if h : a = b then isTrue (by rw [h]) else isFalse (fun hh => h (by cases hh; rfl))
  | .num a, .num b =>
      if h : a = b then isTrue (by rw [h]) else isFalse (fun hh => h (by cases hh; rfl))
  | .str a, .str b =>
      if h : a = b then isTrue (by rw [h]) else isFalse (fun hh => h (by cases hh; rfl))
  | .arr xs, .arr ys =>
      match decEqJValList xs ys with
      | isTrue h => isTrue (by rw [h])
      | isFalse h => isFalse (fun hh => h (by cases hh; rfl))
  | .obj xs, .obj ys =>
      match decEqJValEntries xs ys with
      | isTrue h => isTrue (by rw [h])
      | isFalse h => isFalse (fun hh => h (by cases hh; rfl))
  | .undef, .null => isFalse (fun h => nomatch h)
  | .undef, .bool _ => isFalse (fun h => nomatch h)
  | .undef, .num _ => isFalse (fun h => nomatch h)
  | .undef, .str _ => isFalse (fun h => nomatch h)
  | .undef, .arr _ => isFalse (fun h => nomatch h)
  | .undef, .obj _ => isFalse (fun h => nomatch h)
  | .null, .undef => isFalse (fun h => nomatch h)
  | .null, .bool _ => isFalse (fun h => nomatch h)
  | .null, .num _ => isFalse (fun h => nomatch h)
  | .null, .str _ => isFalse (fun h => nomatch h)
  | .null, .arr _ => isFalse (fun h => nomatch h)
  | .null, .obj _ => isFalse (fun h => nomatch h)
  | .bool _, .undef => isFalse (fun h => nomatch h)
  | .bool _, .null => isFalse (fun h => nomatch h)
  | .bool _, .num _ => isFalse (fun h => nomatch h)
  | .bool _, .str _ => isFalse (fun h => nomatch h)
  | .bool _, .arr _ => isFalse (fun h => nomatch h)
  | .bool _, .obj _ => isFalse (fun h => nomatch h)
  | .num _, .undef => isFalse (fun h => nomatch h)
  | .num _, .null => isFalse (fun h => nomatch h)
  | .num _, .bool _ => isFalse (fun h => nomatch h)
  | .num _, .str _ => isFalse (fun h => nomatch h)
  | .num _, .arr _ => isFalse (fun h => nomatch h)
  | .num _, .obj _ => isFalse (fun h => nomatch h)
  | .str _, .undef => isFalse (fun h => nomatch h)
  | .str _, .null => isFalse (fun h => nomatch h)
  | .str _, .bool _ => isFalse (fun h => nomatch h)
  | .str _, .num _ => isFalse (fun h => nomatch h)
  | .str _, .arr _ => isFalse (fun h => nomatch h)
  | .str _, .obj _ => isFalse (fun h => nomatch h)
  | .arr _, .undef => isFalse (fun h => nomatch h)
  | .arr _, .null => isFalse (fun h => nomatch h)
  | .arr _, .bool _ => isFalse (fun h => nomatch h)
  | .arr _, .num _ => isFalse (fun h => nomatch h)
  | .arr _, .str _ => isFalse (fun h => nomatch h)
  | .arr _, .obj _ => isFalse (fun h => nomatch h)
  | .obj _, .undef => isFalse (fun h => nomatch h)
  | .obj _, .null => isFalse (fun h => nomatch h)
  | .obj _, .bool _ => isFalse (fun h => nomatch h)
  | .obj _, .num _ => isFalse (fun h => nomatch h)
  | .obj _, .str _ => isFalse (fun h => nomatch h)
  | .obj _, .arr _ => isFalse (fun h => nomatch h)
termination_by structural a _ => a

def decEqJValList : (a b : List JVal) → Decidable (a = b)
  | [], [] => isTrue rfl
  | [], _ :: _ => isFalse (fun h => nomatch h)
  | _ :: _, [] => isFalse (fun h => nomatch h)
  | x :: xs, y :: ys =>
      match decEqJVal x y with
      | isFalse h => isFalse (fun hh => h (by cases hh; rfl))
      | isTrue h1 =>
          match decEqJValList xs ys with
          | isTrue h2 => isTrue (by rw [h1, h2])
          | isFalse h => isFalse (fun hh => h (by cases hh; rfl))
termination_by structural a _ => a

def decEqJValEntries : (a b : List (String × JVal)) → Decidable (a = b)
  | [], [] => isTrue rfl
  | [], _ :: _ => isFalse (fun h => nomatch h)
  | _ :: _, [] => isFalse (fun h => nomatch h)
  | (k1, v1) :: xs, (k2, v2) :: ys =>
      if hk : k1 = k2 then
        match decEqJVal v1 v2 with
        | isFalse h => isFalse (fun hh => h (by cases hh; rfl))
        | isTrue h1 =>
            match decEqJValEntries xs ys with
            | isTrue h2 => isTrue (by rw [hk, h1, h2])
            | isFalse h => isFalse (fun hh => h (by cases hh; rfl))
      else isFalse (fun hh => hk (by cases hh; rfl))
termination_by structural a _ => a

end

instance : DecidableEq JVal := decEqJVal

/-! ## The core data model (`src/model.ts`) -/

/-- A column of a table (`Column` in `model.ts`). -/
structure Column where
  name : String
  type : String
  isNullable : Bool
  hasDefault : Bool
  isGenerated : Bool
  deriving DecidableEq, Repr

/-- A table (`Table` in `model.ts`). -/
structure Table where
  name : String
  columns : List Column
  primaryKey : List String
  deriving DecidableEq, Repr

/-- Referential action of a foreign key. -/
inductive RefAction where
  | cascade | setNull | setDefault | restrict | noAction
  deriving DecidableEq, Repr

/-- A foreign-key relationship (`Relationship` in `model.ts`). -/
structure Relationship where
  id : String
  fromTable : String
  fromColumns : List String
  toTable : String
  toColumns : List String
  onDelete : RefAction
  onUpdate : RefAction
  deriving DecidableEq, Repr

/-- A schema: table map (insertion-ordered, keys unique) plus relationships. -/
structure Schema where
  tables : List (String × Table)
  relationships : List Relationship

/-- A flat dataset: table name → ordered row list (`FlatDataset`). -/
abbrev FlatDataset := List (String × List FlatRow)

/-- A change produced by the diff engine (`Change` in `model.ts`). -/
inductive Change where
  | insert (table : String) (row : FlatRow)
  | update (table : String) (primaryKey oldValues newValues : FlatRow)
  | delete (table : String) (primaryKey oldRow : FlatRow)
  deriving DecidableEq

/-- The table a change applies to. -/
def Change.table : Change → String
  | .insert t _ => t
  | .update t _ _ _ => t
  | .delete t _ _ => t

def Change.isInsert : Change → Bool
  | .insert _ _ => true
  | _ => false

def Change.isUpdate : Change → Bool
  | .update _ _ _ _ => true
  | _ => false

def Change.isDelete : Change → Bool
  | .delete _ _ _ => true
  | _ => false

/-! ## The diff engine (`src/diff.ts`) -/

/-- Does a string have the shape `^\d{4}-\d{2}-\d{2}T` (the regex guard in
`toDateIfPossible`)? -/
def isoDatePrefix (s : String) : Bool :=
  match s.toList with
  | a :: b :: c :: d :: h1 :: e :: f :: h2 :: g :: h :: t :: _ =>
      a.isDigit && b.isDigit && c.isDigit && d.isDigit && h1 = '-' &&
      e.isDigit && f.isDigit && h2 = '-' && g.isDigit && h.isDigit && t = 'T'
  | _ => false

/-- Parse an unsigned decimal number from characters, `none` if any is not a
digit or the list is empty. -/
def parseDigits (cs : List Char) : Option Nat :=
  if cs = [] then none
  else cs.foldl (fun acc c =>
    acc.bind (fun n => if c.isDigit then some (n * 10 + (c.toNat - 48)) else none))
    (some 0)

/-- Model of `new Date(string).getTime()` restricted to UTC ISO-8601 strings
`YYYY-MM-DDTHH:MM(:SS(.mmm)?)?Z?`: a total injective timestamp (days are
counted in a simplified uniform calendar; only equality of instants matters
to the diff, and no claim below depends on particular parsed values).
Returns `none` for strings the ECMAScript parser would reject (`NaN`). -/
def parseIsoDate (s : String) : Option Int :=
  let cs := s.toList
  let date := cs.take 10
  let rest := cs.drop 11
  let rest := if rest.getLast? = some 'Z' then rest.dropLast else rest
  match parseDigits (date.take 4), parseDigits ((date.drop 5).take 2),
      parseDigits (date.drop 8) with
  | some y, some mo, some d =>
      let time :=
        match rest with
        | [] => some 0
        | _ =>
          let hh := parseDigits (rest.take 2)
          let mi := parseDigits ((rest.drop 3).take 2)
          let secPart := rest.drop 6
          let ss := if secPart = [] then some 0 else parseDigits (secPart.take 2)
          let msPart := secPart.drop 3
          let ms := if msPart = [] then some 0 else parseDigits msPart
          match hh, mi, ss, ms with
          | some hh, some mi, some ss, some ms =>
              some (((hh * 60 + mi) * 60 + ss) * 1000 + ms)
          | _, _, _, _ => none
      time.map (fun t => ((y * 372 + mo * 31 + d) * 86400000 + t : Int))
  | _, _, _ => none

/-- `toDateIfPossible` from `diff.ts`: a string is treated as a date iff it
parses and matches the ISO prefix regex.  (Native `Date` objects do not occur
in the parsed-JSON value domain modelled here.) -/
def toDateIfPossible : JVal → Option Int
  | .str s => if isoDatePrefix s then parseIsoDate s else none
  | _ => none

/-- `valuesEqual` from `diff.ts`.  Follows the source's branch order:
null/undefined first, then instants, then deep equality of objects and
arrays via `JSON.stringify`, then strict equality. -/
def valuesEqual (a b : JVal) : Bool :=
  match a, b with
  | .null, .null => true
  | .undef, .undef => true
  | .null, _ => false
  | _, .null => false
  | .undef, _ => false
  | _, .undef => false
  | a, b =>
    match toDateIfPossible a, toDateIfPossible b with
    | some ta, some tb => ta = tb
    | _, _ =>
      match a, b with
      | .obj _, .obj _ | .obj _, .arr _ | .arr _, .obj _ | .arr _, .arr _ =>
          jsonStringify a = jsonStringify b
      | a, b => jsStrictEq a b

/-- `findChangedColumns` from `diff.ts`: all non-PK columns appearing in
either row whose values are not `valuesEqual`. -/
def findChangedColumns (current desired : FlatRow) (primaryKey : List String) :
    List String :=
  (dedupFirst (rowKeys current ++ rowKeys desired)).filter
    (fun col => ¬ col ∈ primaryKey && ¬ valuesEqual (readCol current col) (readCol desired col))

/-- The string `JSON.stringify(row[col])` contributes to the joined primary
key; `Array.prototype.join` renders an `undefined` element as `""`. -/
def pkKeyPart (v : JVal) : String := (jsonStringify v).getD ""

/-- The index key of a row: `primaryKey.map(col => JSON.stringify(row[col])).join('|')`. -/
def pkKeyOf (primaryKey : List String) (row : FlatRow) : String :=
  String.intercalate "|" (primaryKey.map (fun col => pkKeyPart (readCol row col)))

/-- `indexByPrimaryKey` from `diff.ts`: index rows by their PK key (a JS
`Map`, so a later row with the same key replaces the earlier one in place). -/
def indexByPrimaryKey (rows : List FlatRow) (primaryKey : List String) :
    List (String × FlatRow) :=
  rows.foldl (fun m row => jsSet m (pkKeyOf primaryKey row) row) []

/-- `extractPrimaryKey` from `diff.ts`. -/
def extractPrimaryKey (row : FlatRow) (primaryKey : List String) : FlatRow :=
  primaryKey.foldl (fun pk col => jsSet pk col (readCol row col)) []

/-- `diffTable` from `diff.ts`: updates and deletes from the current-side
index, then inserts from the desired-side index. -/
def diffTable (tableName : String) (primaryKey : List String)
    (currentRows desiredRows : List FlatRow) : List Change :=
  let currentByPk := indexByPrimaryKey currentRows primaryKey
  let desiredByPk := indexByPrimaryKey desiredRows primaryKey
  (currentByPk.flatMap (fun (p : String × FlatRow) =>
    match jsGet desiredByPk p.1 with
    | none => [.delete tableName (extractPrimaryKey p.2 primaryKey) p.2]
    | some desiredRow =>
        let changed := findChangedColumns p.2 desiredRow primaryKey
        if changed.isEmpty then []
        else [.update tableName (extractPrimaryKey p.2 primaryKey)
            (changed.map (fun col => (col, readCol p.2 col)))
            (changed.map (fun col => (col, readCol desiredRow col)))]))
  ++ (desiredByPk.flatMap (fun (p : String × FlatRow) =>
    if (jsGet currentByPk p.1).isSome then []
    else [.insert tableName p.2]))

/-- `diff` from `diff.ts`: diff every table named in either dataset that
exists in the schema. -/
def diff (schema : Schema) (current desired : FlatDataset) : List Change :=
  (dedupFirst (current.map Prod.fst ++ desired.map Prod.fst)).flatMap
    (fun tableName =>
      match jsGet schema.tables tableName with
      | none => []
      | some table =>
          diffTable tableName table.primaryKey
            ((jsGet current tableName).getD [])
            ((jsGet desired tableName).getD []))

/-! ## SQL generator and dependency orderer (`src/sqlGenerator.ts`) -/

/-- A generated SQL statement with positional parameters. -/
structure SqlStatement where
  sql : String
  params : List JVal
  deriving DecidableEq

/-- Double any embedded double-quote characters of an identifier. -/
def doubleQuotes : List Char → List Char
  | [] => []
  | c :: cs => if c = '"' then '"' :: '"' :: doubleQuotes cs else c :: doubleQuotes cs

/-- `escapeIdentifier` from `sqlGenerator.ts`:
quote a PostgreSQL identifier, doubling embedded quotes. -/
def escapeIdentifier (name : String) : String :=
  "\"" ++ String.mk (doubleQuotes name.toList) ++ "\""

/-- The placeholder `$i`. -/
def placeholder (i : Nat) : String := "$" ++ toString i

/-- `generateInsert` from `sqlGenerator.ts`. -/
def generateInsert (table : String) (row : FlatRow) : SqlStatement :=
  let columns := rowKeys row
  let placeholders := (List.range columns.length).map (fun i => placeholder (i + 1))
  { sql := "INSERT INTO " ++ escapeIdentifier table ++ " (" ++
      String.intercalate ", " (columns.map escapeIdentifier) ++ ") VALUES (" ++
      String.intercalate ", " placeholders ++ ");",
    params := columns.map (readCol row) }

/-- `generateUpdate` from `sqlGenerator.ts`: SET clause first (parameters
`$1..$n`), then the WHERE clause over the PK columns (`$(n+1)..`). -/
def generateUpdate (table : String) (primaryKey newValues : FlatRow) : SqlStatement :=
  let setCols := rowKeys newValues
  let pkCols := rowKeys primaryKey
  let setClause := String.intercalate ", "
    ((setCols.enum).map (fun p => escapeIdentifier p.2 ++ " = " ++ placeholder (p.1 + 1)))
  let whereClause := String.intercalate " AND "
    ((pkCols.enum).map (fun p =>
      escapeIdentifier p.2 ++ " = " ++ placeholder (setCols.length + p.1 + 1)))
  { sql := "UPDATE " ++ escapeIdentifier table ++ " SET " ++ setClause ++
      " WHERE " ++ whereClause ++ ";",
    params := setCols.map (readCol newValues) ++ pkCols.map (readCol primaryKey) }

/-- `generateDelete` from `sqlGenerator.ts`. -/
def generateDelete (table : String) (primaryKey : FlatRow) : SqlStatement :=
  let pkCols := rowKeys primaryKey
  let whereClause := String.intercalate " AND "
    ((pkCols.enum).map (fun p => escapeIdentifier p.2 ++ " = " ++ placeholder (p.1 + 1)))
  { sql := "DELETE FROM " ++ escapeIdentifier table ++ " WHERE " ++ whereClause ++ ";",
    params := pkCols.map (readCol primaryKey) }

/-- `generateSql` from `sqlGenerator.ts`. -/
def generateSql (changes : List Change) : List SqlStatement :=
  changes.map (fun c =>
    match c with
    | .insert table row => generateInsert table row
    | .update table pk _ newValues => generateUpdate table pk newValues
    | .delete table pk _ => generateDelete table pk)

/-- The recursive `visit` of `topologicalSort` (depth-first, post-order, with
a `visiting` path set for cycle cutting).  `visited` coincides with
membership in `result` (the source pushes to both together), so only
`result` is threaded.  The fuel bounds the recursion depth; the `visiting`
check makes paths repetition-free, so any fuel exceeding the number of
distinct table names is sufficient and the zero-fuel branch is dead code. -/
def topoVisit (dependsOn : List (String × List String)) :
    Nat → String → List String → List String → List String
  | 0, _, _, result => result
  | fuel + 1, table, visiting, result =>
      if table ∈ result then result
      else if table ∈ visiting then result
      else
        let deps := (jsGet dependsOn table).getD []
        let result := deps.foldl
          (fun acc d => topoVisit dependsOn fuel d (table :: visiting) acc) result
        result ++ [table]

/-- `topologicalSort` from `sqlGenerator.ts`. -/
def topologicalSort (tables : List String) (dependsOn : List (String × List String)) :
    List String :=
  let fuel := tables.length + dependsOn.length +
    (dependsOn.map (fun p => p.2.length)).sum + 1
  tables.foldl (fun res t => topoVisit dependsOn fuel t [] res) []

/-- Stable insertion of an element into a comparator-sorted list: the element
goes before the first entry that does not compare strictly smaller.  This is
the unique stable order, which ECMAScript's `Array.prototype.sort`
guarantees for a consistent comparator. -/
def jsSortInsert (cmp : α → α → Int) (x : α) : List α → List α
  | [] => [x]
  | y :: ys => if cmp x y ≤ 0 then x :: y :: ys else y :: jsSortInsert cmp x ys

/-- Stable sort by a JS comparator (negative = `a` first). -/
def jsSortBy (cmp : α → α → Int) : List α → List α
  | [] => []
  | x :: xs => jsSortInsert cmp x (jsSortBy cmp xs)

/-- Build the `dependsOn` graph of `orderChangesByDependency`:
`T₁ → T₂` iff `T₁` has an FK to `T₂` (a `Set`, so insertion-ordered and
duplicate-free; relationships whose source table is unknown are skipped). -/
def buildDependsOn (schema : Schema) : List (String × List String) :=
  schema.relationships.foldl
    (fun m rel =>
      match jsGet m rel.fromTable with
      | none => m
      | some deps => jsSet m rel.fromTable (addUnique deps rel.toTable))
    (schema.tables.map (fun p => (p.1, ([] : List String))))

/-- The table-position map of `orderChangesByDependency` and the comparator
default `orderMap.get(t) ?? 0`. -/
def orderMapOf (sorted : List String) : List (String × Int) :=
  (sorted.enum).foldl (fun m p => jsSet m p.2 (p.1 : Int)) []

def posOf (orderMap : List (String × Int)) (t : String) : Int :=
  (jsGet orderMap t).getD 0

/-- `orderChangesByDependency` from `sqlGenerator.ts`: partition into
deletes, updates, inserts; deletes sorted children-first (descending
topological position), inserts parents-first (ascending), updates left
in input order. -/
def orderChangesByDependency (schema : Schema) (changes : List Change) : List Change :=
  let dependsOn := buildDependsOn schema
  let sorted := topologicalSort (schema.tables.map Prod.fst) dependsOn
  let orderMap := orderMapOf sorted
  let deletes := changes.filter Change.isDelete
  let updates := changes.filter Change.isUpdate
  let inserts := changes.filter Change.isInsert
  jsSortBy (fun a b => posOf orderMap b.table - posOf orderMap a.table) deletes
    ++ updates
    ++ jsSortBy (fun a b => posOf orderMap a.table - posOf orderMap b.table) inserts

/-- The table-position map that `orderChangesByDependency` computes from
the schema (named for use in theorem statements). -/
def changeOrderMap (schema : Schema) : List (String × Int) :=
  orderMapOf (topologicalSort (schema.tables.map Prod.fst) (buildDependsOn schema))

/-! ## Ownership-tree builder (`src/ownershipTree.ts`) -/

inductive RelationshipKind where
  | composition | reference
  deriving DecidableEq

structure ClassifiedRelationship where
  relationship : Relationship
  kind : RelationshipKind
  isDominant : Bool
  deriving DecidableEq

/-- An edge of the ownership tree (parent → child). -/
structure OwnershipEdge where
  parentTable : String
  childTable : String
  relationship : Relationship
  foreignKeyColumns : List String
  deriving DecidableEq

/-- The data computed by `buildOwnershipTree`; `getChildren` and
`getDominantParent` are lookups into the two maps. -/
structure OwnershipTree where
  roots : List String
  childrenMap : List (String × List OwnershipEdge)
  dominantParentMap : List (String × Relationship)
  classifiedRelationships : List ClassifiedRelationship

/-- `tree.getChildren(tableName)`. -/
def OwnershipTree.getChildren (t : OwnershipTree) (tableName : String) :
    List OwnershipEdge :=
  (jsGet t.childrenMap tableName).getD []

/-- `tree.getDominantParent(tableName)`. -/
def OwnershipTree.getDominantParent (t : OwnershipTree) (tableName : String) :
    Option OwnershipEdge :=
  (jsGet t.dominantParentMap tableName).map (fun rel =>
    { parentTable := rel.toTable, childTable := tableName,
      relationship := rel, foreignKeyColumns := rel.fromColumns })

/-- `classifyRelationship` from `ownershipTree.ts`: self-references are
always references; otherwise CASCADE means composition. -/
def classifyRelationship (rel : Relationship) : RelationshipKind :=
  if rel.fromTable = rel.toTable then .reference
  else if rel.onDelete = .cascade then .composition
  else .reference

/-- Comparison for `String.prototype.localeCompare` as used on plain ASCII
table names, modelled as lexicographic comparison of the character data. -/
def strCmpInt (a b : String) : Int :=
  if a.data < b.data then -1 else if a = b then 0 else 1

/-- The non-strict order that `strCmpInt _ _ ≤ 0` captures. -/
def strLe (a b : String) : Prop := a.data < b.data ∨ a = b

/-- The comparator of `selectDominant`: fewer FK columns first, then
alphabetically earlier parent table. -/
def dominantCmp (a b : Relationship) : Int :=
  if a.fromColumns.length ≠ b.fromColumns.length then
    (a.fromColumns.length : Int) - (b.fromColumns.length : Int)
  else strCmpInt a.toTable b.toTable

/-- `selectDominant` from `ownershipTree.ts`: first element of the stably
sorted candidate list (`none` only on an empty list, which the caller never
passes). -/
def selectDominant (compositions : List Relationship) : Option Relationship :=
  (jsSortBy dominantCmp compositions).head?

/-- Append a relationship to the incoming-compositions group of its child
table (`Map<string, Relationship[]>` with push-in-place semantics). -/
def pushComposition (m : List (String × List Relationship)) (rel : Relationship) :
    List (String × List Relationship) :=
  match jsGet m rel.fromTable with
  | none => m ++ [(rel.fromTable, [rel])]
  | some l => jsSet m rel.fromTable (l ++ [rel])

/-- Append an ownership edge to its parent's group of the children map. -/
def pushEdge (m : List (String × List OwnershipEdge)) (e : OwnershipEdge) :
    List (String × List OwnershipEdge) :=
  match jsGet m e.parentTable with
  | none => m ++ [(e.parentTable, [e])]
  | some l => jsSet m e.parentTable (l ++ [e])

/-- The ownership edge recorded for one `dominantParent` entry. -/
def edgeOfDominant (p : String × Relationship) : OwnershipEdge :=
  { parentTable := p.2.toTable, childTable := p.1,
    relationship := p.2, foreignKeyColumns := p.2.fromColumns }

/-- The relationship-classification fold of `buildOwnershipTree`:
references are recorded immediately, compositions grouped by child table. -/
def classifyStep
    (acc : List ClassifiedRelationship × List (String × List Relationship))
    (rel : Relationship) :
    List ClassifiedRelationship × List (String × List Relationship) :=
  match classifyRelationship rel with
  | .composition => (acc.1, pushComposition acc.2 rel)
  | .reference =>
      (acc.1 ++ [{ relationship := rel, kind := .reference, isDominant := false }], acc.2)

/-- The dominant-selection fold of `buildOwnershipTree`: record the selected
dominant per child table and classify the group's compositions. -/
def dominantStep
    (acc : List ClassifiedRelationship × List (String × Relationship))
    (p : String × List Relationship) :
    List ClassifiedRelationship × List (String × Relationship) :=
  match selectDominant p.2 with
  | none => acc
  | some dominant =>
      (acc.1 ++ p.2.map (fun rel =>
        { relationship := rel, kind := .composition, isDominant := rel = dominant }),
       jsSet acc.2 p.1 dominant)

/-- `buildOwnershipTree` from `ownershipTree.ts`.  Note: the builder performs
no cycle detection over the chosen dominant edges. -/
def buildOwnershipTree (schema : Schema) : OwnershipTree :=
  let step := schema.relationships.foldl classifyStep ([], [])
  let incomingCompositions := step.2
  let withDominants := incomingCompositions.foldl dominantStep (step.1, [])
  let classified := withDominants.1
  let dominantParent := withDominants.2
  let childrenMap := dominantParent.foldl
    (fun m p => pushEdge m (edgeOfDominant p)) []
  let roots := jsSortBy (fun a b => strCmpInt a b)
    ((schema.tables.map Prod.fst).filter (fun t => (jsGet dominantParent t).isNone))
  { roots := roots, childrenMap := childrenMap,
    dominantParentMap := dominantParent, classifiedRelationships := classified }

/-- All dominant edges of an ownership tree. -/
def dominantEdges (t : OwnershipTree) : List OwnershipEdge :=
  t.childrenMap.flatMap Prod.snd

/-! ## Nested ↔ flat serializer (`src/nested.ts`)

Nested data is modelled directly as `JVal`: a `NestedRow` is an object whose
entries are scalar columns or camelCase child keys holding arrays of nodes;
the sentinel markers are objects tagged `$ref` / `$partial`. -/

/-- `toCamelCase` from `nested.ts`: lowercase the first character. -/
def toCamelCase (tableName : String) : String :=
  match tableName.toList with
  | [] => tableName
  | c :: cs => String.mk (c.toLower :: cs)

/-- `isRefMarker` from `nested.ts`: an object with a `$ref` field strictly
equal to `true`. -/
def isRefMarker : JVal → Bool
  | .obj entries =>
      match jsGet entries "$ref" with
      | some (.bool true) => true
      | _ => false
  | _ => false

/-- Modelled from the spec: `isPartialMarker` lives in `model.ts`, whose
current revision is not among the sources (only its exporters and callers
are).  Per §6 of the spec, "an object is a `PartialMarker` iff it has a
`$partial` field equal to `true`". -/
def isPartialMarker : JVal → Bool
  | .obj entries =>
      match jsGet entries "$partial" with
      | some (.bool true) => true
      | _ => false
  | _ => false

/-- The partial-marker object `{ $partial: true, skipped: n }`. -/
def partialMarkerObj (skipped : Nat) : JVal :=
  .obj [("$partial", .bool true), ("skipped", .num skipped)]

/-- `removeFkColumns` from `nested.ts`. -/
def removeFkColumns (row : FlatRow) (fkColumns : List String) : FlatRow :=
  row.filter (fun p => ¬ p.1 ∈ fkColumns)

/-- Options of `toNested`. -/
structure ToNestedOptions where
  limit : Option Nat := none
  nestedLimit : Option Nat := none

/-- The per-table grouping step of `buildRowIndex`: group a table's rows by
primary-key string. -/
def pkGroups (primaryKey : List String) (rows : List FlatRow) :
    List (String × List FlatRow) :=
  rows.foldl
    (fun m row =>
      let pkKey := pkKeyOf primaryKey row
      match jsGet m pkKey with
      | none => m ++ [(pkKey, [row])]
      | some existing => jsSet m pkKey (existing ++ [row]))
    []

/-- Per-table primary-key index of `buildRowIndex` (tables absent from the
schema are skipped). -/
def buildRowIndex (flat : FlatDataset) (schema : Schema) :
    List (String × List (String × List FlatRow)) :=
  flat.foldl
    (fun index p =>
      match jsGet schema.tables p.1 with
      | none => index
      | some table => jsSet index p.1 (pkGroups table.primaryKey p.2))
    []

/-- `findChildRows` from `nested.ts`: flatten the child table's PK groups
and keep the rows whose FK columns strictly equal the parent's paired
columns.  (The source iterates `i < foreignKeyColumns.length` and reads
`toColumns[i]`; `zip` agrees with this whenever the two lists have equal
length, which the arity invariant `|fromColumns| = |toColumns|` gives.) -/
def matchEdge (edge : OwnershipEdge) (parentRow childRow : FlatRow) : Bool :=
  (edge.foreignKeyColumns.zip edge.relationship.toColumns).all
    (fun q => jsStrictEq (readCol childRow q.1) (readCol parentRow q.2))

def findChildRows (parentRow : FlatRow) (edge : OwnershipEdge)
    (rowIndex : List (String × List (String × List FlatRow))) : List FlatRow :=
  match jsGet rowIndex edge.childTable with
  | none => []
  | some childTableRows =>
      let allRows := childTableRows.flatMap Prod.snd
      allRows.filter (fun childRow => matchEdge edge parentRow childRow)

/-- `nestRow` from `nested.ts`, by fuel recursion (the source recurses along
dominant edges; fuel exceeding the ownership-chain length reproduces it
exactly, and the builder's chains are bounded by the table count whenever
the dominant edges are acyclic). -/
def nestRowF (schema : Schema) (tree : OwnershipTree)
    (rowIndex : List (String × List (String × List FlatRow)))
    (options : ToNestedOptions) :
    Nat → FlatRow → String → JVal
  | 0, row, _ => .obj row
  | fuel + 1, row, tableName =>
      let children := tree.getChildren tableName
      .obj (children.foldl
        (fun result edge =>
          let childRows := findChildRows row edge rowIndex
          let limitedRows :=
            match options.nestedLimit with
            | none => childRows
            | some l => childRows.take l
          let nestedChildren := limitedRows.map (fun childRow =>
            nestRowF schema tree rowIndex options fuel
              (removeFkColumns childRow edge.foreignKeyColumns) edge.childTable)
          let nestedChildren :=
            match options.nestedLimit with
            | none => nestedChildren
            | some l =>
                if childRows.length > l then
                  nestedChildren ++ [partialMarkerObj (childRows.length - l)]
                else nestedChildren
          jsSet result (toCamelCase edge.childTable) (.arr nestedChildren))
        row)

/-- Result of `toNested`. -/
structure NestedResult where
  data : List (String × List JVal)
  truncated : List (String × Nat)

/-- `toNested` from `nested.ts`. -/
def toNested (flat : FlatDataset) (schema : Schema) (tree : OwnershipTree)
    (options : ToNestedOptions := {}) : NestedResult :=
  let rowIndex := buildRowIndex flat schema
  let fuel := schema.tables.length + 1
  tree.roots.foldl
    (fun acc rootTable =>
      let rows := (jsGet flat rootTable).getD []
      let limitedRows :=
        match options.limit with
        | none => rows
        | some l => rows.take l
      let nestedRows := limitedRows.map
        (fun row => nestRowF schema tree rowIndex options fuel row rootTable)
      let (nestedRows, truncated) :=
        match options.limit with
        | none => (nestedRows, acc.truncated)
        | some l =>
            if rows.length > l then
              (nestedRows ++ [partialMarkerObj (rows.length - l)],
               jsSet acc.truncated rootTable (rows.length - l))
            else (nestedRows, acc.truncated)
      { data := jsSet acc.data (toCamelCase rootTable) nestedRows,
        truncated := truncated })
    ({ data := [], truncated := [] } : NestedResult)

/-- `handleRefMarker` from `nested.ts`: build a minimal row from the ref's
PK values plus the FK columns inherited from the parent context. -/
def handleRefMarker (ref : JVal) (edge : OwnershipEdge) (parentRow : FlatRow)
    (schema : Schema) (tables : FlatDataset) : FlatDataset :=
  match jsGet schema.tables edge.childTable with
  | none => tables
  | some childTable =>
      match ref with
      | .obj refEntries =>
          let flatRow := childTable.primaryKey.foldl
            (fun r pkCol =>
              if (jsGet refEntries pkCol).isSome && pkCol ≠ "$ref" then
                jsSet r pkCol (readCol refEntries pkCol)
              else r)
            []
          let flatRow := (edge.foreignKeyColumns.zip edge.relationship.toColumns).foldl
            (fun r q => jsSet r q.1 (readCol parentRow q.2)) flatRow
          match jsGet tables edge.childTable with
          | none => tables
          | some l => jsSet tables edge.childTable (l ++ [flatRow])
      | _ => tables

/-- `flattenRow` from `nested.ts`, by fuel recursion (same bound as
`nestRowF`).  Non-object nodes are skipped: parsed nested data only holds
objects at row positions. -/
def flattenRowF (schema : Schema) (tree : OwnershipTree) :
    Nat → JVal → String → Option (OwnershipEdge × FlatRow) → FlatDataset → FlatDataset
  | 0, _, _, _, tables => tables
  | fuel + 1, node, tableName, parentContext, tables =>
      match jsGet schema.tables tableName with
      | none => tables
      | some table =>
          match node with
          | .obj entries =>
              let columnNames := table.columns.map Column.name
              let flatRow := entries.foldl
                (fun r p => if p.1 ∈ columnNames then jsSet r p.1 p.2 else r) []
              let flatRow :=
                match parentContext with
                | none => flatRow
                | some (edge, parentRow) =>
                    match jsGet schema.tables edge.parentTable with
                    | none => flatRow
                    | some _ =>
                        (edge.foreignKeyColumns.zip edge.relationship.toColumns).foldl
                          (fun r q => jsSet r q.1 (readCol parentRow q.2)) flatRow
              let tables :=
                match jsGet tables tableName with
                | none => tables
                | some l => jsSet tables tableName (l ++ [flatRow])
              (tree.getChildren tableName).foldl
                (fun tables edge =>
                  match jsGet entries (toCamelCase edge.childTable) with
                  | some (.arr childNodes) =>
                      childNodes.foldl
                        (fun tables childNode =>
                          if isPartialMarker childNode then tables
                          else if isRefMarker childNode then
                            handleRefMarker childNode edge flatRow schema tables
                          else
                            flattenRowF schema tree fuel childNode edge.childTable
                              (some (edge, flatRow)) tables)
                        tables
                  | _ => tables)
                tables
          | _ => tables

/-- `fromNested` from `nested.ts`. -/
def fromNested (nested : List (String × List JVal)) (schema : Schema)
    (tree : OwnershipTree) : FlatDataset :=
  let tables := schema.tables.foldl (fun m p => jsSet m p.1 ([] : List FlatRow)) []
  let fuel := schema.tables.length + 1
  tree.roots.foldl
    (fun tables rootTable =>
      let rows := (jsGet nested (toCamelCase rootTable)).getD []
      rows.foldl
        (fun tables row =>
          if isPartialMarker row then tables
          else if isRefMarker row then tables
          else flattenRowF schema tree fuel row rootTable none tables)
        tables)
    tables

/-! ## Flat file format (`src/fileFormat.ts`, current revision) and the
orchestrator's file parsing (`src/databaseEditor.ts`) -/

/-- The `$schema` / `$connection` / `$base` metadata of a data file. -/
structure FlatFileMetadata where
  schemaRef : Option String := none
  connectionRef : Option String := none
  baseRef : Option String := none
  deriving DecidableEq

/-- `parseFlatDataset` from `fileFormat.ts` (current revision): metadata
strings are picked off, array-valued keys become tables, and any
`PartialMarker` rows are filtered out.  The function returns only the
dataset and metadata — it reports nothing about encountered markers. -/
def parseFlatDataset (obj : JVal) : FlatDataset × FlatFileMetadata :=
  match obj with
  | .obj entries =>
      entries.foldl
        (fun (acc : FlatDataset × FlatFileMetadata) p =>
          if p.1 = "$schema" then
            match p.2 with
            | .str s => (acc.1, { acc.2 with schemaRef := some s })
            | _ => acc
          else if p.1 = "$base" then
            match p.2 with
            | .str s => (acc.1, { acc.2 with baseRef := some s })
            | _ => acc
          else
            match p.2 with
            | .arr rows =>
                (jsSet acc.1 p.1 ((rows.filter (fun r => ¬ isPartialMarker r)).filterMap
                  (fun r => match r with | .obj e => some e | _ => none)),
                 acc.2)
            | _ => acc)
        ([], {})
  | _ => ([], {})

/-- `DatabaseEditor._isNestedFormat`: a file is nested iff some root table's
camelCase name appears as a key.  (The source's second loop over PascalCase
table names only ever returns `false`, the function's default, so it does
not affect the result.) -/
def isNestedFormat (entries : List (String × JVal)) (tree : OwnershipTree) : Bool :=
  tree.roots.any (fun rootTable => (jsGet entries (toCamelCase rootTable)).isSome)

/-- The nested branch of `_parseFile` detects truncation by `"$partial" in
row`: key presence, any value. -/
def hasPartialKey : JVal → Bool
  | .obj entries => (jsGet entries "$partial").isSome
  | _ => false

/-- `key.startsWith("$")` (modelled charwise). -/
def startsWithDollar (s : String) : Bool :=
  match s.toList with
  | c :: _ => c = '$'
  | [] => false

/-- Result of `DatabaseEditor._parseFile`. -/
structure ParseFileResult where
  dataset : FlatDataset
  metadata : FlatFileMetadata
  isPartial : Bool

/-- `DatabaseEditor._parseFile` on a parsed JSON object.  The nested branch
scans only the top-level arrays for `$partial` keys.  The flat branch
returns `parseFlatDataset(json)`, an object with no `isPartial` property at
all, so the destructured `isPartial` is `undefined` — falsy — modelled as
`false`. -/
def parseFile (schema : Schema) (obj : JVal) : ParseFileResult :=
  let metadata : FlatFileMetadata :=
    match obj with
    | .obj entries =>
        { schemaRef := match jsGet entries "$schema" with | some (.str s) => some s | _ => none,
          connectionRef := match jsGet entries "$connection" with | some (.str s) => some s | _ => none,
          baseRef := match jsGet entries "$base" with | some (.str s) => some s | _ => none }
    | _ => {}
  let tree := buildOwnershipTree schema
  match obj with
  | .obj entries =>
      if isNestedFormat entries tree then
        let step := entries.foldl
          (fun (acc : List (String × List JVal) × Bool) p =>
            if startsWithDollar p.1 then acc
            else
              match p.2 with
              | .arr value =>
                  (jsSet acc.1 p.1 value, acc.2 || value.any hasPartialKey)
              | _ => acc)
          ([], false)
        { dataset := fromNested step.1 schema tree, metadata := metadata,
          isPartial := step.2 }
      else
        { dataset := (parseFlatDataset obj).1, metadata := (parseFlatDataset obj).2,
          isPartial := false }
  | _ =>
      { dataset := (parseFlatDataset obj).1, metadata := (parseFlatDataset obj).2,
        isPartial := false }

/-! ## Sync engine and orchestrator entry points

`SyncEngine.preview`/`apply` are in the sources
(`jsonSchemaGenerator.test.ts`, current revision).  The three-way helpers
`diffAgainstBase`/`diffAgainstDb` that `databaseEditor.ts` calls are not
under `src/`, so they are modelled from the spec.  The database itself is an
external collaborator; its statement semantics over a dataset-valued state
is likewise modelled from the spec. -/

/-- `SyncEngine.preview` (in src): two-way diff of the fetched state against
the desired state, then dependency ordering. -/
def enginePreview (schema : Schema) (dbState desired : FlatDataset) : List Change :=
  orderChangesByDependency schema (diff schema dbState desired)

/-- Modelled from the spec: `SyncEngine.diffAgainstBase` is called by
`databaseEditor.ts` but its definition is not among the sources.  Per §4.7,
three-way preview/sync "diff the base against the edited file (this captures
user intent only)", ordered as every change set is before emission. -/
def diffAgainstBase (schema : Schema) (base edited : FlatDataset) : List Change :=
  orderChangesByDependency schema (diff schema base edited)

/-- Modelled from the spec: `SyncEngine.diffAgainstDb`, the two-way
fallback — "if no base, diff the database against the edited file". -/
def diffAgainstDb (schema : Schema) (dbState edited : FlatDataset) : List Change :=
  orderChangesByDependency schema (diff schema dbState edited)

/-- Outcome of `preview`/`sync`/`reset`: either the truncation error or a
change set (for `sync`/`reset`, the changes that get applied). -/
inductive OpResult where
  | truncatedInput
  | missingBase
  | changes (cs : List Change)
  deriving DecidableEq

/-- `DatabaseEditor.preview`: parse the file, refuse partial data, then
three-way against the base if one exists, else two-way against the live
database. -/
def previewOp (schema : Schema) (fileObj : JVal) (base : Option FlatDataset)
    (dbState : FlatDataset) : OpResult :=
  let r := parseFile schema fileObj
  if r.isPartial then .truncatedInput
  else
    match base with
    | some b => .changes (diffAgainstBase schema b r.dataset)
    | none => .changes (diffAgainstDb schema dbState r.dataset)

/-- `DatabaseEditor.sync`: refuse partial data, require a base, then apply
the three-way change set. -/
def syncOp (schema : Schema) (fileObj : JVal) (base : Option FlatDataset) : OpResult :=
  let r := parseFile schema fileObj
  if r.isPartial then .truncatedInput
  else
    match base with
    | none => .missingBase
    | some b => .changes (diffAgainstBase schema b r.dataset)

/-- `DatabaseEditor.reset`: refuse partial data, then two-way diff against
the live database (`SyncEngine.apply`'s preview). -/
def resetOp (schema : Schema) (fileObj : JVal) (dbState : FlatDataset) : OpResult :=
  let r := parseFile schema fileObj
  if r.isPartial then .truncatedInput
  else .changes (diffAgainstDb schema dbState r.dataset)

/-- Modelled from the spec: does a row agree with a primary-key record on
all of its columns (the `WHERE pk = $i AND …` clause of the emitted SQL)? -/
def rowMatchesPk (pk row : FlatRow) : Bool :=
  pk.all (fun p => readCol row p.1 = p.2)

/-- Modelled from the spec: the database's semantics of one emitted
statement over a dataset-valued state (§4.6 SQL rendering; §8 "Diff
completeness").  `INSERT` appends the row, `UPDATE` overwrites the changed
columns of the rows matching the primary key, `DELETE` removes them. -/
def applyChangeToDb (db : FlatDataset) : Change → FlatDataset
  | .insert table row =>
      match jsGet db table with
      | some rows => jsSet db table (rows ++ [row])
      | none => jsSet db table [row]
  | .update table pk _ newValues =>
      match jsGet db table with
      | some rows =>
          jsSet db table (rows.map (fun row =>
            if rowMatchesPk pk row then
              newValues.foldl (fun r p => jsSet r p.1 p.2) row
            else row))
      | none => db
  | .delete table pk _ =>
      match jsGet db table with
      | some rows => jsSet db table (rows.filter (fun row => ¬ rowMatchesPk pk row))
      | none => db

/-- Modelled from the spec: executing an ordered change set against the
database state. -/
def applyChangesToDb (db : FlatDataset) (changes : List Change) : FlatDataset :=
  changes.foldl applyChangeToDb db

/-! ## Transactional apply (`SyncEngine.apply`, current revision in src) -/

/-- One query issued to the driver during `apply`; data statements carry the
change they were generated from, so that the driver model can interpret
their effect. -/
inductive TraceItem where
  | txnBegin | txnCommit | txnRollback
  | stmt (c : Change)
  deriving DecidableEq

/-- The queries `SyncEngine.apply` issues, given that the driver fails on
the `failAt`-th data statement (0-based) if that index exists: nothing at
all for an empty change set; otherwise `BEGIN`, the generated statements in
order up to and including the failing one, then `ROLLBACK` on failure
(rethrowing) or `COMMIT` after the last statement. -/
def applyTrace (changes : List Change) (failAt : Option Nat) : List TraceItem :=
  if changes.isEmpty then []
  else
    match failAt with
    | some k =>
        if k < changes.length then
          .txnBegin :: (changes.take (k + 1)).map .stmt ++ [.txnRollback]
        else .txnBegin :: changes.map .stmt ++ [.txnCommit]
    | none => .txnBegin :: changes.map .stmt ++ [.txnCommit]

/-- Did `apply` succeed (no driver error)? -/
def applyOk (changes : List Change) (failAt : Option Nat) : Bool :=
  changes.isEmpty ||
    match failAt with
    | some k => decide (¬ k < changes.length)
    | none => true

/-- Modelled from the spec: the transactional driver.  It holds a committed
state and, inside a transaction, a pending state; statement effects apply to
the pending state, `COMMIT` publishes it, `ROLLBACK` discards it.  A data
statement outside any transaction would hit the committed state directly. -/
def runTraceAux : List TraceItem → FlatDataset → Option FlatDataset → FlatDataset
  | [], committed, _ => committed
  | .txnBegin :: rest, committed, _ => runTraceAux rest committed (some committed)
  | .stmt c :: rest, committed, none => runTraceAux rest (applyChangeToDb committed c) none
  | .stmt c :: rest, committed, some pending =>
      runTraceAux rest committed (some (applyChangeToDb pending c))
  | .txnCommit :: rest, committed, pending =>
      runTraceAux rest (pending.getD committed) none
  | .txnRollback :: rest, committed, _ => runTraceAux rest committed none

/-- The committed database state after the driver consumes a trace. -/
def runTrace (db : FlatDataset) (trace : List TraceItem) : FlatDataset :=
  runTraceAux trace db none

/-! ## Specification-side notions for the round-trip theorem (C2)

The following definitions express, over the embedded source functions, what
it means for a flat dataset to be consistent with a schema and ownership
tree (spec §3, §4.3–4.4): datasets keyed by schema tables, rows over
declared columns with unique keys and no duplicate primary keys,
referential integrity along every dominant edge, and an ownership tree
whose dominant edges form a forest spanning the tables. -/

/-- The rows of a table in a dataset (`flat.tables.get(t) ?? []`). -/
def rowsOf (D : FlatDataset) (t : String) : List FlatRow :=
  (jsGet D t).getD []

/-- The declared column names of a table. -/
def tableColumns (schema : Schema) (t : String) : List String :=
  match jsGet schema.tables t with
  | some tbl => tbl.columns.map Column.name
  | none => []

/-- The primary-key columns of a table. -/
def tablePk (schema : Schema) (t : String) : List String :=
  match jsGet schema.tables t with
  | some tbl => tbl.primaryKey
  | none => []

/-- The child rows of a parent row along an edge, read directly from the
dataset (the index-free counterpart of `findChildRows`). -/
def childRowsD (D : FlatDataset) (e : OwnershipEdge) (x : FlatRow) : List FlatRow :=
  (rowsOf D e.childTable).filter (fun y => matchEdge e x y)

/-- The flat row that `fromNested` reconstructs for an original row `x`
whose FK columns `fks` were stripped during nesting: the surviving columns
in order, then the FK columns re-appended with their original values. -/
def reconRow (x : FlatRow) (fks : List String) : FlatRow :=
  removeFkColumns x fks ++ fks.map (fun fk => (fk, readCol x fk))

/-- The unique incoming dominant edge of a table, if any. -/
def parentEdgeOf (tree : OwnershipTree) (c : String) : Option OwnershipEdge :=
  (dominantEdges tree).find? (fun e => e.childTable = c)

/-- The FK columns a table loses to nesting context. -/
def fkColsOfTable (tree : OwnershipTree) (t : String) : List String :=
  match parentEdgeOf tree t with
  | some e => e.foreignKeyColumns
  | none => []

/-- Distance to a root along dominant edges (fuel-bounded). -/
def depthOf (tree : OwnershipTree) : Nat → String → Option Nat
  | 0, _ => none
  | fuel + 1, t =>
      if t ∈ tree.roots then some 0
      else
        match parentEdgeOf tree t with
        | none => none
        | some e => (depthOf tree fuel e.parentTable).map (· + 1)

/-- The `(table, row)` pairs of the ownership subtree below a row,
fuel-bounded in step with `nestRowF`/`flattenRowF`. -/
def origPairsF (tree : OwnershipTree) (D : FlatDataset) :
    Nat → FlatRow → String → List (String × FlatRow)
  | 0, _, _ => []
  | fuel + 1, x, t =>
      (t, x) :: (tree.getChildren t).flatMap
        (fun e => (childRowsD D e x).flatMap
          (fun y => origPairsF tree D fuel y e.childTable))

/-- The direct children pairs of a pair. -/
def nextPairs (tree : OwnershipTree) (D : FlatDataset) (q : String × FlatRow) :
    List (String × FlatRow) :=
  (tree.getChildren q.1).flatMap
    (fun e => (childRowsD D e q.2).map (fun y => (e.childTable, y)))

/-- One breadth step over a front of pairs. -/
def stepPairs (tree : OwnershipTree) (D : FlatDataset)
    (P : List (String × FlatRow)) : List (String × FlatRow) :=
  P.flatMap (nextPairs tree D)

/-- The front after `l` breadth steps. -/
def levelFrom (tree : OwnershipTree) (D : FlatDataset) :
    Nat → List (String × FlatRow) → List (String × FlatRow)
  | 0, P => P
  | l + 1, P => levelFrom tree D l (stepPairs tree D P)

/-- The root front: every root table's rows. -/
def rootPairs (tree : OwnershipTree) (D : FlatDataset) : List (String × FlatRow) :=
  tree.roots.flatMap (fun r => (rowsOf D r).map (fun x => (r, x)))

/-- Push a sequence of `(table, row)` pairs onto a dataset accumulator
(appending to existing table lists only, as `flattenRow` does). -/
def pushPairs (tables : FlatDataset) (l : List (String × FlatRow)) : FlatDataset :=
  l.foldl
    (fun tb q =>
      match jsGet tb q.1 with
      | none => tb
      | some rows => jsSet tb q.1 (rows ++ [q.2]))
    tables

/-- The canonical form of a row: entries listed in sorted key order.  Two
rows with the same keys and values have the same canonical form regardless
of key order. -/
def canonRow (r : FlatRow) : FlatRow :=
  (List.insertionSort (fun a b : String => a ≤ b) (rowKeys r)).map
    (fun k => (k, readCol r k))

/-- Well-formedness of an ownership tree over a schema (spec §3: "the
dominant-edge relation is acyclic and spans every table exactly once", plus
the naming side conditions that make nesting keys unambiguous: camelCase
child keys collide neither with declared columns nor with the `$`-marker
tags, and FK columns are declared columns of the child of matching arity). -/
abbrev WfTree (schema : Schema) (tree : OwnershipTree) : Prop :=
  (schema.tables.map Prod.fst).Nodup ∧
  tree.roots.Nodup ∧
  (tree.roots.map toCamelCase).Nodup ∧
  (∀ r ∈ tree.roots, r ∈ schema.tables.map Prod.fst) ∧
  (tree.childrenMap.map Prod.fst).Nodup ∧
  (∀ p ∈ tree.childrenMap, ∀ e ∈ p.2,
     e.parentTable = p.1 ∧
     e.childTable ∈ schema.tables.map Prod.fst ∧
     e.parentTable ∈ schema.tables.map Prod.fst ∧
     e.foreignKeyColumns.length = e.relationship.toColumns.length ∧
     e.foreignKeyColumns.Nodup ∧
     ¬ e.childTable ∈ tree.roots ∧
     (∀ fk ∈ e.foreignKeyColumns, fk ∈ tableColumns schema e.childTable)) ∧
  (∀ t ∈ schema.tables.map Prod.fst,
     (t ∈ tree.roots ∧ (dominantEdges tree).countP (fun e => e.childTable = t) = 0) ∨
     (¬ t ∈ tree.roots ∧ (dominantEdges tree).countP (fun e => e.childTable = t) = 1)) ∧
  (∀ t ∈ schema.tables.map Prod.fst,
     (depthOf tree (schema.tables.length + 1) t).isSome = true) ∧
  (∀ t ∈ schema.tables.map Prod.fst,
     ¬ "$partial" ∈ tableColumns schema t ∧ ¬ "$ref" ∈ tableColumns schema t) ∧
  (∀ t ∈ schema.tables.map Prod.fst, ∀ e ∈ tree.getChildren t,
     ¬ toCamelCase e.childTable ∈ tableColumns schema t ∧
     toCamelCase e.childTable ≠ "$partial" ∧ toCamelCase e.childTable ≠ "$ref") ∧
  (∀ t ∈ schema.tables.map Prod.fst,
     ((tree.getChildren t).map (fun e => toCamelCase e.childTable)).Nodup)

/-- NOT a spec condition.  `nestRow` removes a child row's FK columns
*before* `findChildRows` runs for that row's own children, so any
parent-side column of a child edge that overlaps the FK columns the child
just lost reads as `undefined` during grandchild matching and those rows
are silently dropped.  `StripSafe` rules such schemas out; it is exactly
the hypothesis under which the round-trip law can be recovered
(`toNested_fromNested_roundtrip`), and the C2 counterexample
(`roundtrip_drops_composite_key_grandchildren`) is a spec-legal schema
that violates it. -/
abbrev StripSafe (tree : OwnershipTree) : Prop :=
  ∀ p ∈ tree.childrenMap, ∀ e ∈ p.2, ∀ e' ∈ tree.getChildren e.childTable,
    ∀ c ∈ e'.relationship.toColumns, ¬ c ∈ e.foreignKeyColumns

/-- Consistency of a flat dataset with a schema and ownership tree (spec
§3/§4.3: datasets keyed by schema tables; rows over declared columns with
unique keys, no `undefined` values, and no duplicate primary keys;
referential integrity along every dominant edge with primitive key values,
each child row matched by exactly one parent row). -/
abbrev Consistent (schema : Schema) (tree : OwnershipTree) (D : FlatDataset) : Prop :=
  (D.map Prod.fst).Nodup ∧
  (∀ t ∈ D.map Prod.fst, t ∈ schema.tables.map Prod.fst) ∧
  (∀ t ∈ schema.tables.map Prod.fst,
     (∀ y ∈ rowsOf D t,
        (rowKeys y).Nodup ∧
        (∀ p ∈ y, p.1 ∈ tableColumns schema t ∧ p.2 ≠ JVal.undef)) ∧
     ((rowsOf D t).map (pkKeyOf (tablePk schema t))).Nodup) ∧
  (∀ p ∈ tree.childrenMap, ∀ e ∈ p.2,
     (∀ y ∈ rowsOf D e.childTable,
        (∀ fk ∈ e.foreignKeyColumns,
           (jsGet y fk).isSome = true ∧ isPrimitive (readCol y fk) = true) ∧
        (rowsOf D e.parentTable).countP (fun x => matchEdge e x y) = 1) ∧
     (∀ x ∈ rowsOf D e.parentTable, ∀ tc ∈ e.relationship.toColumns,
        (jsGet x tc).isSome = true ∧ isPrimitive (readCol x tc) = true))

/-- Occurrence count via an explicit equality predicate (avoids the
`BEq`-instance ambiguity of `List.count` at concrete types). -/
def cnt {α : Type} [DecidableEq α] (a : α) (l : List α) : Nat :=
  l.countP (fun x => x = a)

/-! ## Concrete fixtures for the end-to-end scenarios -/

/-- A text column with no constraints. -/
def colText (n : String) : Column :=
  { name := n, type := "text", isNullable := true, hasDefault := false, isGenerated := false }

/-- The `User(id PK, name)` schema of scenario 6. -/
def exUserTable : Table :=
  { name := "User", columns := [colText "id", colText "name"], primaryKey := ["id"] }

def exUserSchema : Schema := { tables := [("User", exUserTable)], relationships := [] }

def exUserRow (i n : String) : FlatRow := [("id", .str i), ("name", .str n)]

/-- Scenario 6 base: `User=[u1]`. -/
def exBase : FlatDataset := [("User", [exUserRow "u1" "Alice"])]

/-- Scenario 6 edited file (flat layout): `User=[u1, u3]`. -/
def exEditedFile : JVal :=
  .obj [("$base", .str "./.db-editor/data.base.json"),
        ("User", .arr [.obj (exUserRow "u1" "Alice"), .obj (exUserRow "u3" "Charlie")])]

/-- Scenario 6 live database: `User=[u1, u2]`. -/
def exDb : FlatDataset := [("User", [exUserRow "u1" "Alice", exUserRow "u2" "Bob"])]

/-- A flat-layout file containing a `PartialMarker` in its `User` table
array (the C1 failing input). -/
def exPartialFlatFile : JVal :=
  .obj [("User", .arr [.obj (exUserRow "u1" "Alice"),
                       .obj [("$partial", .bool true), ("skipped", .num 2)]])]

/-- A nested-layout file whose `$partial` marker sits inside a child
sequence rather than a root array (the second C1 failing input). -/
def exPartialNestedFile : JVal :=
  .obj [("organization", .arr [.obj
    [("id", .str "o1"), ("name", .str "Acme"),
     ("project", .arr [.obj [("id", .str "p1"), ("name", .str "Alpha")],
                       .obj [("$partial", .bool true), ("skipped", .num 3)]])]])]

/-- A table with an empty primary-key column list (C5). -/
def exNoPkTable : Table :=
  { name := "T", columns := [colText "x"], primaryKey := [] }

def exNoPkSchema : Schema := { tables := [("T", exNoPkTable)], relationships := [] }

/-- The Organization / Project / Task schema of scenario 4. -/
def exPkTable (n : String) (cols : List String) : Table :=
  { name := n, columns := cols.map colText, primaryKey := ["id"] }

def exRelOrgProject : Relationship :=
  { id := "Project_organizationId_fkey", fromTable := "Project",
    fromColumns := ["organizationId"], toTable := "Organization", toColumns := ["id"],
    onDelete := .cascade, onUpdate := .noAction }

def exRelProjectTask : Relationship :=
  { id := "Task_projectId_fkey", fromTable := "Task", fromColumns := ["projectId"],
    toTable := "Project", toColumns := ["id"], onDelete := .cascade, onUpdate := .noAction }

def exOptSchema : Schema :=
  { tables := [("Organization", exPkTable "Organization" ["id", "name"]),
               ("Project", exPkTable "Project" ["id", "name", "organizationId"]),
               ("Task", exPkTable "Task" ["id", "name", "projectId"])],
    relationships := [exRelOrgProject, exRelProjectTask] }

/-- One insert and one delete per table plus an update, shuffled (scenario 4). -/
def exShuffledChanges : List Change :=
  [ .insert "Task" [("id", .str "t2")],
    .delete "Project" [("id", .str "p1")] [("id", .str "p1")],
    .update "Project" [("id", .str "p2")] [("name", .str "a")] [("name", .str "b")],
    .insert "Organization" [("id", .str "o2")],
    .delete "Task" [("id", .str "t1")] [("id", .str "t1")],
    .insert "Project" [("id", .str "p3")],
    .delete "Organization" [("id", .str "o1")] [("id", .str "o1")] ]

/-- The `User` / `Project` / `Membership` schema of scenario 3 (C8). -/
def exRelMembershipUser : Relationship :=
  { id := "Membership_userId_fkey", fromTable := "Membership", fromColumns := ["userId"],
    toTable := "User", toColumns := ["id"], onDelete := .cascade, onUpdate := .noAction }

def exRelMembershipProject : Relationship :=
  { id := "Membership_projectId_fkey", fromTable := "Membership",
    fromColumns := ["projectId"], toTable := "Project", toColumns := ["id"],
    onDelete := .cascade, onUpdate := .noAction }

def exMemSchema : Schema :=
  { tables := [("User", exPkTable "User" ["id"]),
               ("Project", exPkTable "Project" ["id"]),
               ("Membership", exPkTable "Membership" ["id", "userId", "projectId"])],
    relationships := [exRelMembershipUser, exRelMembershipProject] }

def exMemFlat : FlatDataset :=
  [("User", [[("id", .str "u1")]]),
   ("Project", [[("id", .str "p1")]]),
   ("Membership", [[("id", .str "m1"), ("userId", .str "u1"), ("projectId", .str "p1")]])]

/-- Two tables with mutual CASCADE foreign keys (C3 counterexample). -/
def exRelAB : Relationship :=
  { id := "A_bId_fkey", fromTable := "A", fromColumns := ["bId"],
    toTable := "B", toColumns := ["id"], onDelete := .cascade, onUpdate := .noAction }

def exRelBA : Relationship :=
  { id := "B_aId_fkey", fromTable := "B", fromColumns := ["aId"],
    toTable := "A", toColumns := ["id"], onDelete := .cascade, onUpdate := .noAction }

def exMutualSchema : Schema :=
  { tables := [("A", exPkTable "A" ["id", "bId"]), ("B", exPkTable "B" ["id", "aId"])],
    relationships := [exRelAB, exRelBA] }

/-- The Update change of scenario 5 (C9). -/
def exUpdateChange : Change :=
  .update "User" [("id", .str "u1")]
    [("name", .str "Alice"), ("email", .str "old@example.com")]
    [("name", .str "Alice Updated"), ("email", .str "new@example.com")]

/-- The statement text claimed by scenario 5 (no trailing semicolon). -/
def exClaimedUpdateSql : String :=
  "UPDATE \"User\" SET \"name\" = $1, \"email\" = $2 WHERE \"id\" = $3"

/-- The Organization / Project schema and dataset of scenario 1 (also the C2
round-trip witness). -/
def exOrgTable : Table :=
  { name := "Organization", columns := [colText "id", colText "name"], primaryKey := ["id"] }

def exProjTable : Table :=
  { name := "Project", columns := [colText "id", colText "name", colText "organizationId"],
    primaryKey := ["id"] }

def exOrgProjSchema : Schema :=
  { tables := [("Organization", exOrgTable), ("Project", exProjTable)],
    relationships := [exRelOrgProject] }

def exOrgProjFlat : FlatDataset :=
  [("Organization", [[("id", .str "o1"), ("name", .str "Acme")]]),
   ("Project", [[("id", .str "p1"), ("name", .str "Alpha"), ("organizationId", .str "o1")],
                [("id", .str "p2"), ("name", .str "Beta"), ("organizationId", .str "o1")]])]

/-- The identifying-composite-key schema refuting C2 (spec-legal per §3 and
§4.1: composite FKs are supported and `to_columns` is a key of the parent):
`B` is owned by `A` via FK `aId`, and `C` references `B`'s composite primary
key `(aId, bKey)` — whose first column is also `B`'s FK to `A`. -/
def exCompATable : Table :=
  { name := "A", columns := [colText "id"], primaryKey := ["id"] }

def exCompBTable : Table :=
  { name := "B", columns := [colText "aId", colText "bKey"],
    primaryKey := ["aId", "bKey"] }

def exCompCTable : Table :=
  { name := "C", columns := [colText "cId", colText "aId", colText "bKey"],
    primaryKey := ["cId"] }

def exRelCompBA : Relationship :=
  { id := "B_aId_fkey", fromTable := "B", fromColumns := ["aId"],
    toTable := "A", toColumns := ["id"], onDelete := .cascade, onUpdate := .noAction }

def exRelCompCB : Relationship :=
  { id := "C_aId_bKey_fkey", fromTable := "C", fromColumns := ["aId", "bKey"],
    toTable := "B", toColumns := ["aId", "bKey"],
    onDelete := .cascade, onUpdate := .noAction }

def exCompSchema : Schema :=
  { tables := [("A", exCompATable), ("B", exCompBTable), ("C", exCompCTable)],
    relationships := [exRelCompBA, exRelCompCB] }

/-- One row per table, referentially intact. -/
def exCompFlat : FlatDataset :=
  [("A", [[("id", .str "a1")]]),
   ("B", [[("aId", .str "a1"), ("bKey", .str "k1")]]),
   ("C", [[("cId", .str "c1"), ("aId", .str "a1"), ("bKey", .str "k1")]])]

/-! ## General lemmas about the JS-collection models -/

theorem jsStrictEq_eq_of_isPrimitive {a b : JVal} (ha : isPrimitive a = true) :
    jsStrictEq a b = true → a = b := by
  cases a <;> cases b <;> simp_all [jsStrictEq, isPrimitive]

theorem jsStrictEq_refl_of_isPrimitive {a : JVal} (ha : isPrimitive a = true) :
    jsStrictEq a a = true := by
  cases a <;> simp_all [jsStrictEq, isPrimitive]

theorem jsGet_eq_some_mem {α : Type} {l : List (String × α)} {k : String} {v : α}
    (h : jsGet l k = some v) : k ∈ l.map Prod.fst := by
  induction l with
  | nil => simp [jsGet] at h
  | cons p rest ih =>
      by_cases hk : p.1 = k
      · simp [hk]
      · simp only [jsGet] at h
        rw [if_neg hk] at h
        simp [ih h]

theorem jsGet_eq_none_not_mem {α : Type} {l : List (String × α)} {k : String}
    (h : jsGet l k = none) : ¬ k ∈ l.map Prod.fst := by
  induction l with
  | nil => simp
  | cons p rest ih =>
      simp only [jsGet] at h
      by_cases hk : p.1 = k
      · rw [if_pos hk] at h; exact Option.noConfusion h
      · rw [if_neg hk] at h
        simp only [List.map_cons, List.mem_cons]
        rintro (rfl | hm)
        · exact hk rfl
        · exact ih h hm

theorem jsGet_eq_none_of_not_mem {α : Type} {l : List (String × α)} {k : String}
    (h : ¬ k ∈ l.map Prod.fst) : jsGet l k = none := by
  cases hg : jsGet l k with
  | none => rfl
  | some v => exact absurd (jsGet_eq_some_mem hg) h

theorem jsGet_isSome_iff_mem {α : Type} {l : List (String × α)} {k : String} :
    (jsGet l k).isSome = true ↔ k ∈ l.map Prod.fst := by
  constructor
  · intro h
    cases hg : jsGet l k with
    | none => rw [hg] at h; simp at h
    | some v => exact jsGet_eq_some_mem hg
  · intro h
    cases hg : jsGet l k with
    | none => exact absurd h (jsGet_eq_none_not_mem hg)
    | some v => simp

theorem dedupFirstAux_mem {l : List String} {x : String} :
    ∀ {seen : List String}, (x ∈ dedupFirstAux seen l ↔ x ∈ l ∧ ¬ x ∈ seen) := by
  induction l with
  | nil => intro seen; simp [dedupFirstAux]
  | cons y ys ih =>
      intro seen
      simp only [dedupFirstAux]
      by_cases hy : y ∈ seen
      · rw [if_pos hy, ih]
        constructor
        · rintro ⟨hx, hs⟩
          exact ⟨List.mem_cons_of_mem _ hx, hs⟩
        · rintro ⟨hx, hs⟩
          rcases List.mem_cons.mp hx with rfl | hx
          · exact absurd hy hs
          · exact ⟨hx, hs⟩
      · rw [if_neg hy]
        simp only [List.mem_cons, ih]
        constructor
        · rintro (rfl | ⟨hx, hs⟩)
          · exact ⟨Or.inl rfl, hy⟩
          · constructor
            · exact Or.inr hx
            · intro hc
              exact hs (Or.inr hc)
        · rintro ⟨rfl | hx, hs⟩
          · exact Or.inl rfl
          · by_cases hxy : x = y
            · exact Or.inl hxy
            · refine Or.inr ⟨hx, ?_⟩
              intro hc
              rcases hc with h | h
              · exact hxy h
              · exact hs h

theorem dedupFirst_mem {l : List String} {x : String} :
    x ∈ dedupFirst l ↔ x ∈ l := by
  simp [dedupFirst, dedupFirstAux_mem]

theorem dedupFirstAux_nodup (seen l : List String) :
    (dedupFirstAux seen l).Nodup := by
  induction l generalizing seen with
  | nil => simp [dedupFirstAux]
  | cons y ys ih =>
      simp only [dedupFirstAux]
      by_cases hy : y ∈ seen
      · rw [if_pos hy]; exact ih seen
      · rw [if_neg hy]
        refine List.nodup_cons.mpr ⟨fun hc => ?_, ih (y :: seen)⟩
        exact (dedupFirstAux_mem.mp hc).2 (List.mem_cons_self _ _)

theorem dedupFirst_nodup (l : List String) : (dedupFirst l).Nodup :=
  dedupFirstAux_nodup [] l

/-! Stable-sort correctness for the JS comparator sorts. -/

theorem jsSortInsert_perm {α : Type} (cmp : α → α → Int) (x : α) (l : List α) :
    List.Perm (jsSortInsert cmp x l) (x :: l) := by
  induction l with
  | nil => exact List.Perm.refl _
  | cons y ys ih =>
      simp only [jsSortInsert]
      by_cases h : cmp x y ≤ 0
      · rw [if_pos h]
      · rw [if_neg h]
        exact (ih.cons y).trans (List.Perm.swap x y ys)

theorem jsSortBy_perm {α : Type} (cmp : α → α → Int) (l : List α) :
    List.Perm (jsSortBy cmp l) l := by
  induction l with
  | nil => exact List.Perm.refl _
  | cons x xs ih =>
      exact (jsSortInsert_perm cmp x (jsSortBy cmp xs)).trans (ih.cons x)

theorem jsSortInsert_pairwise {α : Type} {cmp : α → α → Int}
    (hasym : ∀ a b, 0 < cmp a b → cmp b a ≤ 0)
    (htrans : ∀ a b c, cmp a b ≤ 0 → cmp b c ≤ 0 → cmp a c ≤ 0)
    {l : List α} (x : α) (hl : l.Pairwise (fun a b => cmp a b ≤ 0)) :
    (jsSortInsert cmp x l).Pairwise (fun a b => cmp a b ≤ 0) := by
  induction l with
  | nil => simp [jsSortInsert]
  | cons y ys ih =>
      rcases List.pairwise_cons.mp hl with ⟨hy, hys⟩
      simp only [jsSortInsert]
      by_cases h : cmp x y ≤ 0
      · rw [if_pos h]
        refine List.pairwise_cons.mpr ⟨?_, hl⟩
        intro z hz
        rcases List.mem_cons.mp hz with rfl | hz
        · exact h
        · exact htrans x y z h (hy z hz)
      · rw [if_neg h]
        refine List.pairwise_cons.mpr ⟨?_, ih hys⟩
        intro z hz
        have hz2 := (jsSortInsert_perm cmp x ys).mem_iff.mp hz
        rcases List.mem_cons.mp hz2 with rfl | hz'
        · exact hasym z y (lt_of_not_le h)
        · exact hy z hz'

theorem jsSortBy_pairwise {α : Type} {cmp : α → α → Int}
    (hasym : ∀ a b, 0 < cmp a b → cmp b a ≤ 0)
    (htrans : ∀ a b c, cmp a b ≤ 0 → cmp b c ≤ 0 → cmp a c ≤ 0)
    (l : List α) :
    (jsSortBy cmp l).Pairwise (fun a b => cmp a b ≤ 0) := by
  induction l with
  | nil => simp [jsSortBy]
  | cons x xs ih => exact jsSortInsert_pairwise hasym htrans x ih

/-! ## Claim C9 — SQL rendering of the scenario-5 Update -/

/-- C9, counterexample: the emitter does not produce exactly the claimed
statement text `UPDATE "User" SET "name" = $1, "email" = $2 WHERE "id" = $3`
for the scenario-5 Update — the emitted text carries a trailing semicolon
(the generator appends `;`, as its own test snapshots record). -/
theorem generateSql_scenario5_text_differs :
    ¬ ((generateSql [exUpdateChange]).map SqlStatement.sql = [exClaimedUpdateSql]) := by
  decide

/-- C9, amended: on the scenario-5 Update the emitter produces the claimed
statement followed by a trailing semicolon, with exactly the claimed
parameter list (SET parameters `$1`,`$2` before the WHERE parameter `$3`). -/
theorem generateSql_scenario5_update :
    generateSql [exUpdateChange] =
      [{ sql := exClaimedUpdateSql ++ ";",
         params := [.str "Alice Updated", .str "new@example.com", .str "u1"] }] := by
  decide

/-! ## Claim C5 — diff on tables with an empty primary key -/

/-- `getLast?` of a nonempty list, with the head as the fallback. -/
theorem getLast?_cons_eq {α : Type} (xs : List α) (x : α) :
    (x :: xs).getLast? = some (xs.getLast?.getD x) := by
  induction xs generalizing x with
  | nil => rfl
  | cons y ys ih =>
      rw [List.getLast?_cons_cons, ih y]
      simp [ih y]

/-- Folding rows into a single-key JS map keeps exactly the last row. -/
theorem foldl_jsSet_empty_key (rows : List FlatRow) (r : FlatRow) :
    rows.foldl (fun m row => jsSet m "" row) [("", r)]
      = [("", (rows.getLast?.getD r))] := by
  induction rows generalizing r with
  | nil => rfl
  | cons x xs ih =>
      simp only [List.foldl_cons]
      rw [show jsSet [("", r)] "" x = [("", x)] from rfl, ih]
      rw [getLast?_cons_eq]
      rfl

/-- With an empty primary-key list every row gets the index key `""`, so the
index retains only the last row of the sequence. -/
theorem indexByPrimaryKey_empty_pk (rows : List FlatRow) :
    indexByPrimaryKey rows [] =
      match rows.getLast? with
      | none => []
      | some r => [("", r)] := by
  cases rows with
  | nil => rfl
  | cons x xs =>
      show (xs.foldl (fun m row => jsSet m (pkKeyOf [] row) row) (jsSet [] "" x)) = _
      have hkey : ∀ row : FlatRow, pkKeyOf ([] : List String) row = "" := fun _ => rfl
      simp only [hkey]
      rw [show jsSet ([] : List (String × FlatRow)) "" x = [("", x)] from rfl]
      rw [foldl_jsSet_empty_key, getLast?_cons_eq]

/-- C5, counterexample: for the no-primary-key table `T`, diff does emit a
change (an Update comparing the collapsed rows), so such tables are not
skipped. -/
theorem diff_no_pk_not_skipped :
    ¬ (diff exNoPkSchema [("T", [[("x", .num 1)]])] [("T", [[("x", .num 2)]])] = []) := by
  decide

/-- C5, amended: a table with an empty primary-key column list is diffed,
with every row collapsing onto the index key `""`: the diff of the table
equals the diff of just the last rows of the two sequences (at most one
change, if they differ). -/
theorem diffTable_empty_pk_last_rows (name : String)
    (currentRows desiredRows : List FlatRow) :
    diffTable name [] currentRows desiredRows
      = diffTable name [] currentRows.getLast?.toList desiredRows.getLast?.toList := by
  have hidx : ∀ rows : List FlatRow,
      indexByPrimaryKey rows.getLast?.toList [] = indexByPrimaryKey rows [] := by
    intro rows
    rw [indexByPrimaryKey_empty_pk rows]
    cases rows.getLast? with
    | none => rfl
    | some r => rfl
  show (let currentByPk := indexByPrimaryKey currentRows []
        let desiredByPk := indexByPrimaryKey desiredRows []
        _) = _
  unfold diffTable
  rw [hidx currentRows, hidx desiredRows]

/-! ## Claim C4 — three-way merge preserves concurrent inserts -/

/-- C4: with base `User=[u1]`, edited file `User=[u1,u3]`, and live state
`User=[u1,u2]`, preview emits exactly one change — `Insert User u3` — and
applying it leaves `u2` untouched, final state `{u1, u2, u3}`.  (The
three-way helper `diffAgainstBase` and the database-side statement effect
are modelled from the spec; parsing, diff, ordering, and SQL generation are
the embedded source.) -/
theorem preview_three_way_scenario6 :
    previewOp exUserSchema exEditedFile (some exBase) exDb
        = .changes [.insert "User" (exUserRow "u3" "Charlie")] ∧
    syncOp exUserSchema exEditedFile (some exBase)
        = .changes [.insert "User" (exUserRow "u3" "Charlie")] ∧
    applyChangesToDb exDb [.insert "User" (exUserRow "u3" "Charlie")]
        = [("User", [exUserRow "u1" "Alice", exUserRow "u2" "Bob",
                     exUserRow "u3" "Charlie"])] := by
  refine ⟨by decide, by decide, by decide⟩

/-! ## Claim C1 — truncation markers must be refused -/

/-- C1: the code does not refuse truncated input.  For a flat-layout file
containing a `PartialMarker`, `parseFlatDataset` silently filters the marker
and returns no `isPartial` flag (so the orchestrator's destructured
`isPartial` is undefined/false), and `preview`, `sync` and `reset` proceed:
here preview (two-way fallback) emits a `Delete` — SQL is generated — and
sync completes.  For a nested-layout file the scan covers only top-level
arrays, so a marker inside a child sequence is also missed.  This
contradicts the operations' own documentation ("@throws if the file
contains partial/truncated data") and the repository TODO ("files exported
with --limit ... cannot be synced back"). -/
theorem truncated_input_not_refused :
    (parseFile exUserSchema exPartialFlatFile).isPartial = false ∧
    previewOp exUserSchema exPartialFlatFile none exDb
        = .changes [.delete "User" [("id", .str "u2")] (exUserRow "u2" "Bob")] ∧
    generateSql [.delete "User" [("id", .str "u2")] (exUserRow "u2" "Bob")] ≠ [] ∧
    resetOp exUserSchema exPartialFlatFile exDb
        = .changes [.delete "User" [("id", .str "u2")] (exUserRow "u2" "Bob")] ∧
    syncOp exUserSchema exPartialFlatFile (some exBase) = .changes [] ∧
    (parseFile exOrgProjSchema exPartialNestedFile).isPartial = false := by
  refine ⟨by decide, by decide, by decide, by decide, by decide, by decide⟩

/-! ## Claim C7 — transaction discipline of `SyncEngine.apply` -/

/-- Data statements inside a transaction accumulate on the pending state. -/
theorem runTraceAux_stmts (cs : List Change) (rest : List TraceItem)
    (committed pending : FlatDataset) :
    runTraceAux (cs.map TraceItem.stmt ++ rest) committed (some pending)
      = runTraceAux rest committed (some (applyChangesToDb pending cs)) := by
  induction cs generalizing pending with
  | nil => simp [applyChangesToDb]
  | cons c cs ih =>
      simp only [List.map_cons, List.cons_append, runTraceAux, List.append_eq]
      rw [ih]
      rfl

/-- C7: whenever `apply` executes statements (a nonempty change set), it
issues `BEGIN` first, then the generated statements in input order (all of
them on success, a prefix through the failing one otherwise), and closes
with `COMMIT` exactly on success and `ROLLBACK` exactly on failure
(rethrowing).  Against the transactional driver model, a successful apply
publishes the effect of every statement and a failed apply leaves the
committed database state unchanged — no statement ever takes effect outside
the transaction. -/
theorem apply_transaction_discipline (changes : List Change) (failAt : Option Nat)
    (db : FlatDataset) (hne : changes ≠ []) :
    (∃ n endq, n ≤ changes.length ∧
        applyTrace changes failAt
          = .txnBegin :: (changes.take n).map TraceItem.stmt ++ [endq] ∧
        ((applyOk changes failAt = true ∧ endq = .txnCommit ∧ n = changes.length) ∨
         (applyOk changes failAt = false ∧ endq = .txnRollback))) ∧
    (applyOk changes failAt = true →
        runTrace db (applyTrace changes failAt) = applyChangesToDb db changes) ∧
    (applyOk changes failAt = false →
        runTrace db (applyTrace changes failAt) = db) := by
  have hempty : changes.isEmpty = false := by
    cases changes with
    | nil => exact absurd rfl hne
    | cons c cs => rfl
  have hcommit : ∀ cs : List Change,
      runTrace db (.txnBegin :: cs.map TraceItem.stmt ++ [.txnCommit])
        = applyChangesToDb db cs := by
    intro cs
    show runTraceAux _ _ _ = _
    simp only [runTraceAux, List.append_eq]
    rw [runTraceAux_stmts cs [TraceItem.txnCommit] db db]
    rfl
  have hrollback : ∀ cs : List Change,
      runTrace db (.txnBegin :: cs.map TraceItem.stmt ++ [.txnRollback]) = db := by
    intro cs
    show runTraceAux _ _ _ = _
    simp only [runTraceAux, List.append_eq]
    rw [runTraceAux_stmts cs [TraceItem.txnRollback] db db]
    rfl
  rcases failAt with _ | k
  · have htr : applyTrace changes none
        = .txnBegin :: changes.map TraceItem.stmt ++ [.txnCommit] := by
      simp [applyTrace, hempty]
    have hok : applyOk changes none = true := by
      simp [applyOk]
    refine ⟨⟨changes.length, .txnCommit, le_refl _, ?_, Or.inl ⟨hok, rfl, rfl⟩⟩, ?_, ?_⟩
    · rw [htr, List.take_length]
    · intro _
      rw [htr]
      exact hcommit changes
    · intro h
      rw [hok] at h
      exact absurd h (by simp)
  · by_cases hk : k < changes.length
    · have htr : applyTrace changes (some k)
          = .txnBegin :: (changes.take (k + 1)).map TraceItem.stmt ++ [.txnRollback] := by
        simp [applyTrace, hempty, hk]
      have hok : applyOk changes (some k) = false := by
        simp [applyOk, hempty, hk]
      refine ⟨⟨k + 1, .txnRollback, by omega, htr, Or.inr ⟨hok, rfl⟩⟩, ?_, ?_⟩
      · intro h
        rw [hok] at h
        exact absurd h (by simp)
      · intro _
        rw [htr]
        exact hrollback (changes.take (k + 1))
    · have htr : applyTrace changes (some k)
          = .txnBegin :: changes.map TraceItem.stmt ++ [.txnCommit] := by
        simp [applyTrace, hempty, hk]
      have hok : applyOk changes (some k) = true := by
        simp [applyOk, hempty, hk]
      refine ⟨⟨changes.length, .txnCommit, le_refl _, ?_, Or.inl ⟨hok, rfl, rfl⟩⟩, ?_, ?_⟩
      · rw [htr, List.take_length]
      · intro _
        rw [htr]
        exact hcommit changes
      · intro h
        rw [hok] at h
        exact absurd h (by simp)

/-- C7 witness: a concrete one-change apply with a driver failure at
statement 0 — `BEGIN`, the statement, `ROLLBACK`, and the state unchanged. -/
theorem apply_transaction_discipline_witness :
    runTrace exDb (applyTrace [.insert "User" (exUserRow "u3" "Charlie")] (some 0)) = exDb :=
  (apply_transaction_discipline [.insert "User" (exUserRow "u3" "Charlie")] (some 0) exDb
      (by decide)).2.2 (by decide)

/-! ## Claim C10 — absent columns in the diff -/

/-- `valuesEqual` never equates a real value with `undefined`. -/
theorem valuesEqual_undef_right {v : JVal} (h : v ≠ .undef) :
    valuesEqual v .undef = false := by
  cases v <;> first | exact absurd rfl h | rfl

theorem valuesEqual_undef_left {v : JVal} (h : v ≠ .undef) :
    valuesEqual .undef v = false := by
  cases v <;> first | exact absurd rfl h | rfl

/-- Looking up a key of a nodup key-list tabulation. -/
theorem jsGet_map_tabulate {l : List String} {col : String} (f : String → JVal)
    (hmem : col ∈ l) :
    jsGet (l.map (fun c => (c, f c))) col = some (f col) := by
  induction l with
  | nil => simp at hmem
  | cons x xs ih =>
      rcases List.mem_cons.mp hmem with rfl | hmem
      · simp [jsGet]
      · by_cases hx : x = col
        · subst hx; simp [jsGet]
        · simp only [List.map_cons, jsGet]
          rw [if_neg hx]
          exact ih hmem

/-- Membership in `findChangedColumns`. -/
theorem mem_findChangedColumns {current desired : FlatRow} {pk : List String}
    {col : String} (hpk : ¬ col ∈ pk)
    (hmem : col ∈ rowKeys current ∨ col ∈ rowKeys desired)
    (hneq : valuesEqual (readCol current col) (readCol desired col) = false) :
    col ∈ findChangedColumns current desired pk := by
  refine List.mem_filter.mpr ⟨?_, ?_⟩
  · exact dedupFirst_mem.mpr (by
      rcases hmem with h | h
      · exact List.mem_append.mpr (Or.inl h)
      · exact List.mem_append.mpr (Or.inr h))
  · simp [hpk, hneq]

/-- C10: a non-PK column present (with a value) in one row and absent in the
other is reported as changed — absence is not equated with an explicit
`null` or any other value; a column absent from both rows contributes no
change; and consequently, for two single-row tables with matching index
keys, omitting such a column from the desired row produces an `Update`
whose old values carry exactly the database's value for that column. -/
theorem diff_absent_column_changed :
    (∀ (current desired : FlatRow) (pk : List String) (col : String),
        ¬ col ∈ pk →
        ((readCol current col ≠ .undef ∧ jsGet desired col = none) ∨
         (jsGet current col = none ∧ readCol desired col ≠ .undef)) →
        col ∈ findChangedColumns current desired pk) ∧
    (∀ (current desired : FlatRow) (pk : List String) (col : String),
        jsGet current col = none → jsGet desired col = none →
        ¬ col ∈ findChangedColumns current desired pk) ∧
    (∀ (t : String) (pk : List String) (cur des : FlatRow) (col : String),
        pkKeyOf pk cur = pkKeyOf pk des →
        ¬ col ∈ pk → readCol cur col ≠ .undef → jsGet des col = none →
        ∃ old new, diffTable t pk [cur] [des]
            = [.update t (extractPrimaryKey cur pk) old new] ∧
          jsGet old col = some (readCol cur col)) := by
  have hpart1 : ∀ (current desired : FlatRow) (pk : List String) (col : String),
      ¬ col ∈ pk →
      ((readCol current col ≠ .undef ∧ jsGet desired col = none) ∨
       (jsGet current col = none ∧ readCol desired col ≠ .undef)) →
      col ∈ findChangedColumns current desired pk := by
    intro current desired pk col hpk hcase
    rcases hcase with ⟨hval, habs⟩ | ⟨habs, hval⟩
    · have hsome : (jsGet current col).isSome := by
        cases hg : jsGet current col with
        | none => exact absurd (by simp [readCol, hg]) hval
        | some v => simp
      refine mem_findChangedColumns hpk (Or.inl ?_) ?_
      · exact jsGet_isSome_iff_mem.mp hsome
      · have : readCol desired col = .undef := by simp [readCol, habs]
        rw [this]
        exact valuesEqual_undef_right hval
    · have hsome : (jsGet desired col).isSome := by
        cases hg : jsGet desired col with
        | none => exact absurd (by simp [readCol, hg]) hval
        | some v => simp
      refine mem_findChangedColumns hpk (Or.inr ?_) ?_
      · exact jsGet_isSome_iff_mem.mp hsome
      · have : readCol current col = .undef := by simp [readCol, habs]
        rw [this]
        exact valuesEqual_undef_left hval
  refine ⟨hpart1, ?_, ?_⟩
  · intro current desired pk col hc hd hmem
    have := (List.mem_filter.mp hmem).1
    have hin := dedupFirst_mem.mp this
    rcases List.mem_append.mp hin with h | h
    · exact jsGet_eq_none_not_mem hc h
    · exact jsGet_eq_none_not_mem hd h
  · intro t pk cur des col hkey hpk hval habs
    have hcol : col ∈ findChangedColumns cur des pk :=
      hpart1 cur des pk col hpk (Or.inl ⟨hval, habs⟩)
    have hnodup : (findChangedColumns cur des pk).Nodup :=
      (dedupFirst_nodup _).filter _
    have hne : findChangedColumns cur des pk ≠ [] := by
      intro h
      rw [h] at hcol
      simp at hcol
    refine ⟨(findChangedColumns cur des pk).map (fun c => (c, readCol cur c)),
        (findChangedColumns cur des pk).map (fun c => (c, readCol des c)), ?_, ?_⟩
    · show diffTable t pk [cur] [des] = _
      unfold diffTable
      have hidxc : indexByPrimaryKey [cur] pk = [(pkKeyOf pk cur, cur)] := rfl
      have hidxd : indexByPrimaryKey [des] pk = [(pkKeyOf pk des, des)] := rfl
      rw [hidxc, hidxd]
      simp only [List.flatMap_cons, List.flatMap_nil, jsGet]
      rw [if_pos hkey.symm, if_pos hkey]
      have hie : (findChangedColumns cur des pk).isEmpty = false := by
        cases hfc : findChangedColumns cur des pk with
        | nil => exact absurd hfc hne
        | cons a as => rfl
      simp [hie]
    · exact jsGet_map_tabulate (fun c => readCol cur c) hcol

/-- C10 witness: the database row carries `a = null`, the edited row omits
`a`; the diff reports column `a` changed and emits the Update carrying
`old.a = null`. -/
theorem diff_absent_column_changed_witness :
    ("a" ∈ findChangedColumns [("id", .str "u1"), ("a", .null)] [("id", .str "u1")] ["id"]) ∧
    (∃ old new,
        diffTable "User" ["id"] [[("id", .str "u1"), ("a", .null)]] [[("id", .str "u1")]]
          = [.update "User" (extractPrimaryKey [("id", .str "u1"), ("a", .null)] ["id"]) old new] ∧
        jsGet old "a" = some (readCol [("id", .str "u1"), ("a", .null)] "a")) := by
  refine ⟨?_, ?_⟩
  · exact diff_absent_column_changed.1 [("id", .str "u1"), ("a", .null)] [("id", .str "u1")]
      ["id"] "a" (by decide) (Or.inl ⟨by decide, by decide⟩)
  · exact diff_absent_column_changed.2.2 "User" ["id"] [("id", .str "u1"), ("a", .null)]
      [("id", .str "u1")] "a" (by decide) (by decide) (by decide) (by decide)

/-! ## Claim C8 — dominant-parent tie-break -/

theorem string_ext_data {a b : String} (h : a.data = b.data) : a = b := by
  cases a
  cases b
  simp_all

theorem strLe_refl (a : String) : strLe a a := Or.inr rfl

theorem strLe_trans {a b c : String} (h1 : strLe a b) (h2 : strLe b c) : strLe a c := by
  rcases h1 with h1 | rfl
  · rcases h2 with h2 | rfl
    · exact Or.inl (lt_trans h1 h2)
    · exact Or.inl h1
  · exact h2

theorem strLe_of_not_strLe {a b : String} (h : ¬ strLe a b) : strLe b a := by
  rcases lt_trichotomy a.data b.data with hl | he | hg
  · exact absurd (Or.inl hl) h
  · exact absurd (Or.inr (string_ext_data he)) h
  · exact Or.inl hg

theorem strCmpInt_le_zero_iff {a b : String} : strCmpInt a b ≤ 0 ↔ strLe a b := by
  unfold strCmpInt strLe
  split_ifs with h1 h2
  · simp [h1]
  · simp [h2]
  · constructor
    · intro h
      omega
    · rintro (h | h)
      · exact absurd h h1
      · exact absurd h h2

theorem dominantCmp_le_zero_iff {a b : Relationship} :
    dominantCmp a b ≤ 0 ↔
      (a.fromColumns.length < b.fromColumns.length ∨
       (a.fromColumns.length = b.fromColumns.length ∧ strLe a.toTable b.toTable)) := by
  unfold dominantCmp
  split_ifs with h
  · constructor
    · intro hle
      left
      omega
    · rintro (hlt | ⟨heq, _⟩)
      · omega
      · exact absurd heq h
  · rw [not_not] at h
    rw [strCmpInt_le_zero_iff]
    constructor
    · intro hle
      exact Or.inr ⟨h, hle⟩
    · rintro (hlt | ⟨_, hle⟩)
      · omega
      · exact hle

theorem dominantCmp_asym (a b : Relationship) (h : 0 < dominantCmp a b) :
    dominantCmp b a ≤ 0 := by
  have hnot : ¬ dominantCmp a b ≤ 0 := by omega
  rw [dominantCmp_le_zero_iff] at hnot
  push_neg at hnot
  obtain ⟨hge, himp⟩ := hnot
  rw [dominantCmp_le_zero_iff]
  rcases Nat.lt_or_ge b.fromColumns.length a.fromColumns.length with hl | hl
  · exact Or.inl hl
  · have heq : a.fromColumns.length = b.fromColumns.length := by omega
    exact Or.inr ⟨heq.symm, strLe_of_not_strLe (himp heq)⟩

theorem dominantCmp_trans (a b c : Relationship)
    (hab : dominantCmp a b ≤ 0) (hbc : dominantCmp b c ≤ 0) :
    dominantCmp a c ≤ 0 := by
  rw [dominantCmp_le_zero_iff] at hab hbc ⊢
  rcases hab with h1 | ⟨h1, h1'⟩ <;> rcases hbc with h2 | ⟨h2, h2'⟩
  · exact Or.inl (h1.trans h2)
  · exact Or.inl (h2 ▸ h1)
  · exact Or.inl (h1 ▸ h2)
  · exact Or.inr ⟨h1.trans h2, strLe_trans h1' h2'⟩

theorem dominantCmp_self (a : Relationship) : dominantCmp a a ≤ 0 := by
  rw [dominantCmp_le_zero_iff]
  exact Or.inr ⟨rfl, strLe_refl _⟩

/-- C8: `selectDominant` returns a member of the candidate list that is
minimal for the tie-break order — lowest FK arity first, then
alphabetically earliest parent-table name; and in scenario 3 the dominant
parent of `Membership` is `Project`, the membership row nests under
`project` in the nested output with `userId` kept as a reference column
(and `projectId` omitted as implicit). -/
theorem selectDominant_tie_break :
    (∀ (comps : List Relationship) (r : Relationship),
        selectDominant comps = some r →
        r ∈ comps ∧ ∀ c ∈ comps, dominantCmp r c ≤ 0) ∧
    ((buildOwnershipTree exMemSchema).getDominantParent "Membership").map
        OwnershipEdge.parentTable = some "Project" ∧
    (toNested exMemFlat exMemSchema (buildOwnershipTree exMemSchema)).data =
      [("project", [.obj [("id", .str "p1"),
          ("membership", .arr [.obj [("id", .str "m1"), ("userId", .str "u1")]])]]),
       ("user", [.obj [("id", .str "u1")]])] := by
  refine ⟨?_, by decide, by decide⟩
  intro comps r h
  have hsorted := jsSortBy_pairwise dominantCmp_asym
    (fun a b c => dominantCmp_trans a b c) comps
  have hperm := jsSortBy_perm dominantCmp comps
  cases hs : jsSortBy dominantCmp comps with
  | nil =>
      unfold selectDominant at h
      rw [hs] at h
      exact absurd h (by simp)
  | cons x rest =>
      unfold selectDominant at h
      rw [hs] at h
      have hx : x = r := by
        simp [List.head?] at h
        exact h
      subst hx
      rw [hs] at hperm hsorted
      constructor
      · exact hperm.mem_iff.mp (List.mem_cons_self _ _)
      · intro c hc
        have hc' : c ∈ x :: rest := hperm.symm.mem_iff.mp hc
        rcases List.mem_cons.mp hc' with rfl | hc''
        · exact dominantCmp_self c
        · exact (List.pairwise_cons.mp hsorted).1 c hc''

/-- C8 witness: the theorem applied to the two Membership compositions —
`Membership→Project` is selected and is tie-break-minimal. -/
theorem selectDominant_tie_break_witness :
    exRelMembershipProject ∈ [exRelMembershipUser, exRelMembershipProject] ∧
    ∀ c ∈ [exRelMembershipUser, exRelMembershipProject],
      dominantCmp exRelMembershipProject c ≤ 0 :=
  selectDominant_tie_break.1 [exRelMembershipUser, exRelMembershipProject]
    exRelMembershipProject (by decide)

/-! ## Claim C6 — ordering of deletes, updates, inserts -/

/-- C6: `orderChangesByDependency` lists the deletes first, then the
updates, then the inserts; the updates keep their relative input order
exactly, the deletes are a permutation of the input deletes arranged in
non-increasing topological position (children first), the inserts a
permutation of the input inserts in non-decreasing position (parents
first); and the shuffled scenario-4 change set orders as Delete Task,
Delete Project, Delete Organization, Update, Insert Organization, Insert
Project, Insert Task. -/
theorem order_changes_partition :
    (∀ (schema : Schema) (changes : List Change),
      ∃ A C,
        orderChangesByDependency schema changes
            = A ++ changes.filter Change.isUpdate ++ C ∧
        List.Perm A (changes.filter Change.isDelete) ∧
        List.Perm C (changes.filter Change.isInsert) ∧
        A.Pairwise (fun a b =>
          posOf (changeOrderMap schema) b.table ≤ posOf (changeOrderMap schema) a.table) ∧
        C.Pairwise (fun a b =>
          posOf (changeOrderMap schema) a.table ≤ posOf (changeOrderMap schema) b.table)) ∧
    orderChangesByDependency exOptSchema exShuffledChanges =
      [ .delete "Task" [("id", .str "t1")] [("id", .str "t1")],
        .delete "Project" [("id", .str "p1")] [("id", .str "p1")],
        .delete "Organization" [("id", .str "o1")] [("id", .str "o1")],
        .update "Project" [("id", .str "p2")] [("name", .str "a")] [("name", .str "b")],
        .insert "Organization" [("id", .str "o2")],
        .insert "Project" [("id", .str "p3")],
        .insert "Task" [("id", .str "t2")] ] := by
  constructor
  · intro schema changes
    refine ⟨jsSortBy (fun a b =>
        posOf (changeOrderMap schema) b.table - posOf (changeOrderMap schema) a.table)
        (changes.filter Change.isDelete),
      jsSortBy (fun a b =>
        posOf (changeOrderMap schema) a.table - posOf (changeOrderMap schema) b.table)
        (changes.filter Change.isInsert), rfl, ?_, ?_, ?_, ?_⟩
    · exact jsSortBy_perm _ _
    · exact jsSortBy_perm _ _
    · have := @jsSortBy_pairwise Change (fun a b =>
          posOf (changeOrderMap schema) b.table - posOf (changeOrderMap schema) a.table)
        (by intro a b h; dsimp only at h ⊢; omega)
        (by intro a b c h1 h2; dsimp only at h1 h2 ⊢; omega)
        (changes.filter Change.isDelete)
      exact this.imp (by intro h; omega)
    · have := @jsSortBy_pairwise Change (fun a b =>
          posOf (changeOrderMap schema) a.table - posOf (changeOrderMap schema) b.table)
        (by intro a b h; dsimp only at h ⊢; omega)
        (by intro a b c h1 h2; dsimp only at h1 h2 ⊢; omega)
        (changes.filter Change.isInsert)
      exact this.imp (by intro h; omega)
  · decide

/-! ## Claim C3 — the dominant edges and (absent) cycle handling -/

theorem jsSet_map_fst {α : Type} (m : List (String × α)) (k : String) (v : α) :
    (jsSet m k v).map Prod.fst =
      if k ∈ m.map Prod.fst then m.map Prod.fst else m.map Prod.fst ++ [k] := by
  induction m with
  | nil => simp [jsSet]
  | cons p rest ih =>
      by_cases hk : p.1 = k
      · subst hk
        simp [jsSet]
      · simp only [jsSet]
        rw [if_neg hk]
        simp only [List.map_cons, ih]
        by_cases hmem : k ∈ rest.map Prod.fst
        · rw [if_pos hmem, if_pos (by simp [hmem])]
        · rw [if_neg hmem, if_neg (by
            simp only [List.mem_cons]
            rintro (h | h)
            · exact hk h.symm
            · exact hmem h)]
          simp

theorem jsSet_keys_nodup {α : Type} {m : List (String × α)} {k : String} {v : α}
    (h : (m.map Prod.fst).Nodup) : ((jsSet m k v).map Prod.fst).Nodup := by
  rw [jsSet_map_fst]
  split_ifs with hk
  · exact h
  · refine List.Nodup.append h (List.nodup_singleton k) ?_
    intro a ha hb
    simp only [List.mem_singleton] at hb
    subst hb
    exact hk ha

/-- The second component of the dominant-selection fold has nodup keys. -/
theorem dominant_fold_keys_nodup
    (l : List (String × List Relationship))
    (acc : List ClassifiedRelationship × List (String × Relationship))
    (h : (acc.2.map Prod.fst).Nodup) :
    (((l.foldl dominantStep acc).2).map Prod.fst).Nodup := by
  induction l generalizing acc with
  | nil => exact h
  | cons p rest ih =>
      simp only [List.foldl_cons]
      unfold dominantStep
      cases hd : selectDominant p.2 with
      | none => exact ih acc h
      | some dominant => exact ih _ (jsSet_keys_nodup h)

/-- Moving a mid-list element to the end is a permutation. -/
theorem perm_append_middle {α : Type} (l R : List α) (e : α) :
    List.Perm ((l ++ [e]) ++ R) ((l ++ R) ++ [e]) := by
  rw [List.append_assoc, List.append_assoc]
  exact List.Perm.append_left l List.perm_append_comm

/-- Replacing a group's list by an extension permutes the flattened map by
appending the new element. -/
theorem jsSet_flatMap_perm {α : Type} {m : List (String × List α)} {k : String}
    {l : List α} (e : α) (h : jsGet m k = some l) :
    List.Perm ((jsSet m k (l ++ [e])).flatMap Prod.snd) (m.flatMap Prod.snd ++ [e]) := by
  induction m with
  | nil => simp [jsGet] at h
  | cons p rest ih =>
      simp only [jsGet] at h
      by_cases hk : p.1 = k
      · rw [if_pos hk] at h
        have hl : p.2 = l := by injection h
        subst hl
        simp only [jsSet]
        rw [if_pos hk]
        simp only [List.flatMap_cons]
        exact perm_append_middle p.2 (rest.flatMap Prod.snd) e
      · rw [if_neg hk] at h
        simp only [jsSet]
        rw [if_neg hk]
        simp only [List.flatMap_cons]
        rw [List.append_assoc]
        exact List.Perm.append_left p.2 (ih h)

/-- `pushEdge` appends its edge to the flattened children map, up to
permutation. -/
theorem pushEdge_flatMap_perm (m : List (String × List OwnershipEdge))
    (e : OwnershipEdge) :
    List.Perm ((pushEdge m e).flatMap Prod.snd) (m.flatMap Prod.snd ++ [e]) := by
  unfold pushEdge
  cases h : jsGet m e.parentTable with
  | none => simp
  | some l => exact jsSet_flatMap_perm e h

/-- The children-map fold flattens to the recorded dominant edges, up to
permutation. -/
theorem childrenMap_flatMap_perm (dp : List (String × Relationship))
    (m : List (String × List OwnershipEdge)) :
    List.Perm ((dp.foldl (fun m p => pushEdge m (edgeOfDominant p)) m).flatMap Prod.snd)
      (m.flatMap Prod.snd ++ dp.map edgeOfDominant) := by
  induction dp generalizing m with
  | nil => simp
  | cons p rest ih =>
      simp only [List.foldl_cons, List.map_cons]
      refine (ih (pushEdge m (edgeOfDominant p))).trans ?_
      have h1 := (pushEdge_flatMap_perm m (edgeOfDominant p)).append_right
        (rest.map edgeOfDominant)
      refine h1.trans ?_
      rw [List.append_assoc]
      exact List.Perm.refl _

/-- The dominant-parent map computed by `buildOwnershipTree`, exposed. -/
theorem buildOwnershipTree_dominantParentMap (schema : Schema) :
    (buildOwnershipTree schema).dominantParentMap =
      (((schema.relationships.foldl classifyStep ([], [])).2).foldl dominantStep
        ((schema.relationships.foldl classifyStep ([], [])).1, [])).2 := rfl

/-- The children map computed by `buildOwnershipTree`, exposed. -/
theorem buildOwnershipTree_childrenMap (schema : Schema) :
    (buildOwnershipTree schema).childrenMap =
      ((buildOwnershipTree schema).dominantParentMap).foldl
        (fun m p => pushEdge m (edgeOfDominant p)) [] := rfl

/-- C3, amended: each table has at most one incoming dominant edge (the
builder keys its dominant-parent map by child table), but the builder
performs no acyclicity check: on mutual CASCADE foreign keys between two
tables it returns a structure whose dominant edges form a cycle
(`A`'s dominant parent is `B` and `B`'s is `A`, with no root), and it never
fails with `CyclicOwnership` — no error channel exists. -/
theorem buildOwnershipTree_amended :
    (∀ (schema : Schema) (t : String),
        (dominantEdges (buildOwnershipTree schema)).countP
            (fun e => e.childTable = t) ≤ 1) ∧
    ((buildOwnershipTree exMutualSchema).getDominantParent "A").map
        OwnershipEdge.parentTable = some "B" ∧
    ((buildOwnershipTree exMutualSchema).getDominantParent "B").map
        OwnershipEdge.parentTable = some "A" ∧
    (buildOwnershipTree exMutualSchema).roots = [] := by
  refine ⟨?_, by decide, by decide, by decide⟩
  intro schema t
  have hkeys : (((buildOwnershipTree schema).dominantParentMap).map Prod.fst).Nodup := by
    rw [buildOwnershipTree_dominantParentMap]
    exact dominant_fold_keys_nodup _ _ (by simp)
  unfold dominantEdges
  rw [buildOwnershipTree_childrenMap]
  set dp := (buildOwnershipTree schema).dominantParentMap with hdp
  have hperm := childrenMap_flatMap_perm dp []
  simp only [List.flatMap_nil, List.nil_append] at hperm
  rw [hperm.countP_eq]
  rw [List.countP_map]
  calc dp.countP ((fun e : OwnershipEdge => decide (e.childTable = t)) ∘ edgeOfDominant)
      = dp.countP (fun p => decide (p.1 = t)) :=
        List.countP_congr (fun p _ => Iff.rfl)
    _ = (dp.map Prod.fst).countP (fun k => decide (k = t)) := by
        rw [List.countP_map]
        exact List.countP_congr (fun p _ => Iff.rfl)
    _ ≤ 1 := by
        have hcount := List.nodup_iff_count_le_one.mp hkeys t
        calc (dp.map Prod.fst).countP (fun k => decide (k = t))
            = (dp.map Prod.fst).count t := by
              rw [List.count]
              refine List.countP_congr ?_
              intro k _
              simp only [decide_eq_true_eq, beq_iff_eq]
          _ ≤ 1 := hcount

/-- C3, counterexample: on the two-table schema with mutual CASCADE foreign
keys, the builder returns a structure in which `A` is reachable from itself
by following dominant edges (`A → B → A`), instead of selecting an acyclic
candidate or failing with `CyclicOwnership`. -/
theorem buildOwnershipTree_mutual_cascade_cycle :
    ((buildOwnershipTree exMutualSchema).getDominantParent "A").map
        OwnershipEdge.parentTable = some "B" ∧
    ((buildOwnershipTree exMutualSchema).getDominantParent "B").map
        OwnershipEdge.parentTable = some "A" ∧
    (buildOwnershipTree exMutualSchema).roots = [] ∧
    (buildOwnershipTree exMutualSchema).getChildren "A" ≠ [] := by
  refine ⟨by decide, by decide, by decide, by decide⟩

/-! ## Claim C2 — the flat → nested → flat round-trip

The development follows the traversals themselves: `nestRowF` produces an
object holding the original row's entries followed by the camelCase child
arrays; `flattenRowF` recovers each original row up to moving the stripped
FK columns to the end (`reconRow`), pushing rows in pre-order; and counting
the pushed rows per table against the consistency invariants shows every
table's multiset of rows is preserved. -/

theorem jsGet_jsSet_self {α : Type} (m : List (String × α)) (k : String) (v : α) :
    jsGet (jsSet m k v) k = some v := by
  induction m with
  | nil => simp [jsSet, jsGet]
  | cons p rest ih =>
      simp only [jsSet]
      by_cases hk : p.1 = k
      · rw [if_pos hk]; simp [jsGet]
      · rw [if_neg hk]
        simp only [jsGet]
        rw [if_neg hk]
        exact ih

theorem jsGet_jsSet_ne {α : Type} {m : List (String × α)} {k u : String} (v : α)
    (h : k ≠ u) : jsGet (jsSet m k v) u = jsGet m u := by
  induction m with
  | nil => simp [jsSet, jsGet, h]
  | cons p rest ih =>
      simp only [jsSet]
      by_cases hk : p.1 = k
      · rw [if_pos hk]
        simp only [jsGet]
        rw [if_neg h, if_neg (by rw [hk]; exact h)]
      · rw [if_neg hk]
        simp only [jsGet]
        by_cases hu : p.1 = u
        · rw [if_pos hu, if_pos hu]
        · rw [if_neg hu, if_neg hu]
          exact ih

theorem jsSet_fresh {α : Type} {m : List (String × α)} {k : String} (v : α)
    (h : ¬ k ∈ m.map Prod.fst) : jsSet m k v = m ++ [(k, v)] := by
  induction m with
  | nil => simp [jsSet]
  | cons p rest ih =>
      simp only [List.map_cons, List.mem_cons] at h
      push_neg at h
      simp only [jsSet]
      rw [if_neg (fun hc => h.1 hc.symm)]
      rw [ih h.2]
      simp

theorem jsGet_append {α : Type} (l1 l2 : List (String × α)) (k : String) :
    jsGet (l1 ++ l2) k =
      match jsGet l1 k with
      | some v => some v
      | none => jsGet l2 k := by
  induction l1 with
  | nil => simp [jsGet]
  | cons p rest ih =>
      simp only [List.cons_append, jsGet]
      by_cases hk : p.1 = k
      · rw [if_pos hk, if_pos hk]
      · rw [if_neg hk, if_neg hk]
        exact ih

theorem jsGet_eq_some_imp_mem {α : Type} {m : List (String × α)} {k : String} {v : α}
    (h : jsGet m k = some v) : (k, v) ∈ m := by
  induction m with
  | nil => simp [jsGet] at h
  | cons p rest ih =>
      simp only [jsGet] at h
      by_cases hk : p.1 = k
      · rw [if_pos hk] at h
        injection h with h
        subst hk
        subst h
        exact List.mem_cons_self _ _
      · rw [if_neg hk] at h
        exact List.mem_cons_of_mem p (ih h)

theorem jsGet_of_mem_nodup {α : Type} {m : List (String × α)}
    (hnd : (m.map Prod.fst).Nodup) {k : String} {v : α} (hmem : (k, v) ∈ m) :
    jsGet m k = some v := by
  induction m with
  | nil => simp at hmem
  | cons p rest ih =>
      simp only [List.map_cons, List.nodup_cons] at hnd
      rcases List.mem_cons.mp hmem with rfl | hm
      · simp [jsGet]
      · have hk : p.1 ≠ k := by
          intro hc
          exact hnd.1 (hc ▸ (List.mem_map.mpr ⟨(k, v), hm, rfl⟩))
        simp only [jsGet]
        rw [if_neg hk]
        exact ih hnd.2 hm

theorem jsGet_map_of_nodup {α β : Type} (g : β → String) (f : β → α) {items : List β}
    {b : β} (hnd : (items.map g).Nodup) (hb : b ∈ items) :
    jsGet (items.map (fun b => (g b, f b))) (g b) = some (f b) := by
  induction items with
  | nil => simp at hb
  | cons b0 rest ih =>
      simp only [List.map_cons, List.nodup_cons] at hnd
      rcases List.mem_cons.mp hb with rfl | hm
      · simp [jsGet]
      · have hk : g b0 ≠ g b := by
          intro hc
          exact hnd.1 (hc ▸ (List.mem_map.mpr ⟨b, hm, rfl⟩))
        simp only [List.map_cons, jsGet]
        rw [if_neg hk]
        exact ih hnd.2 hm

theorem foldl_jsSet_fresh {α β : Type} (g : β → String) (f : β → α) :
    ∀ (items : List β) (acc : List (String × α)),
      (items.map g).Nodup →
      (∀ b ∈ items, ¬ g b ∈ acc.map Prod.fst) →
      items.foldl (fun r b => jsSet r (g b) (f b)) acc
        = acc ++ items.map (fun b => (g b, f b)) := by
  intro items
  induction items with
  | nil => intro acc _ _; simp
  | cons b rest ih =>
      intro acc hnd hfresh
      simp only [List.map_cons, List.nodup_cons] at hnd
      simp only [List.foldl_cons]
      rw [jsSet_fresh (f b) (hfresh b (List.mem_cons_self b rest))]
      rw [ih (acc ++ [(g b, f b)]) hnd.2 ?_]
      · simp
      · intro b' hb'
        simp only [List.map_append, List.mem_append, List.map_cons, List.map_nil,
          List.mem_singleton]
        rintro (hc | hc)
        · exact hfresh b' (List.mem_cons_of_mem b hb') hc
        · exact hnd.1 (hc ▸ (List.mem_map.mpr ⟨b', hb', rfl⟩))

theorem removeFk_nil (row : FlatRow) : removeFkColumns row [] = row := by
  simp [removeFkColumns]

theorem reconRow_nil (row : FlatRow) : reconRow row [] = row := by
  simp [reconRow, removeFk_nil]

theorem rowKeys_removeFk_sublist (row : FlatRow) (fks : List String) :
    (rowKeys (removeFkColumns row fks)).Sublist (rowKeys row) :=
  (List.filter_sublist row).map Prod.fst

theorem jsGet_removeFk_not_mem {row : FlatRow} {fks : List String} {k : String}
    (h : ¬ k ∈ fks) : jsGet (removeFkColumns row fks) k = jsGet row k := by
  induction row with
  | nil => simp [removeFkColumns]
  | cons p rest ih =>
      simp only [removeFkColumns, List.filter_cons] at ih ⊢
      by_cases hp : p.1 ∈ fks
      · rw [if_neg (by simpa using hp)]
        have hk : p.1 ≠ k := fun hc => h (hc ▸ hp)
        simp only [jsGet]
        rw [if_neg hk]
        exact ih
      · rw [if_pos (by simpa using hp)]
        simp only [jsGet]
        by_cases hk : p.1 = k
        · rw [if_pos hk, if_pos hk]
        · rw [if_neg hk, if_neg hk]
          exact ih

theorem jsGet_removeFk_mem {row : FlatRow} {fks : List String} {k : String}
    (h : k ∈ fks) : jsGet (removeFkColumns row fks) k = none := by
  apply jsGet_eq_none_of_not_mem
  intro hc
  rcases List.mem_map.mp hc with ⟨p, hp, hfst⟩
  have := List.of_mem_filter hp
  rw [hfst] at this
  simp only [decide_eq_true_eq] at this
  exact this h

theorem readCol_reconRow (x : FlatRow) (fks : List String) (k : String) :
    readCol (reconRow x fks) k = readCol x k := by
  unfold readCol reconRow
  rw [jsGet_append]
  by_cases hk : k ∈ fks
  · rw [jsGet_removeFk_mem hk]
    have : jsGet (fks.map (fun fk => (fk, readCol x fk))) k = some (readCol x k) := by
      induction fks with
      | nil => simp at hk
      | cons f fs ih =>
          simp only [List.map_cons, jsGet]
          by_cases hf : f = k
          · rw [if_pos hf, hf]
          · rw [if_neg hf]
            exact ih (by rcases List.mem_cons.mp hk with h | h; exact absurd h.symm hf; exact h)
    rw [this]
    rfl
  · rw [jsGet_removeFk_not_mem hk]
    cases hg : jsGet x k with
    | some v => rfl
    | none =>
        have : jsGet (fks.map (fun fk => (fk, readCol x fk))) k = none := by
          apply jsGet_eq_none_of_not_mem
          intro hc
          rcases List.mem_map.mp hc with ⟨p, hp, hfst⟩
          rcases List.mem_map.mp hp with ⟨f, hf, rfl⟩
          exact hk (by simpa [hfst] using (hfst ▸ hf))
        rw [this]

theorem rowKeys_reconRow (x : FlatRow) (fks : List String) :
    rowKeys (reconRow x fks) = (rowKeys x).filter (fun k => ¬ k ∈ fks) ++ fks := by
  unfold reconRow rowKeys removeFkColumns
  rw [List.map_append]
  congr 1
  · induction x with
    | nil => simp
    | cons p rest ih =>
        simp only [List.filter_cons, List.map_cons]
        by_cases hp : p.1 ∈ fks
        · rw [if_neg (by simpa using hp), if_neg (by simpa using hp)]
          exact ih
        · rw [if_pos (by simpa using hp), if_pos (by simpa using hp)]
          simp only [List.map_cons]
          rw [ih]
  · induction fks with
    | nil => rfl
    | cons f fs ih => simp only [List.map_cons, ih]

theorem rowKeys_reconRow_nodup {x : FlatRow} {fks : List String}
    (hnd : (rowKeys x).Nodup) (hfnd : fks.Nodup) :
    (rowKeys (reconRow x fks)).Nodup := by
  rw [rowKeys_reconRow]
  refine List.Nodup.append (hnd.filter _) hfnd ?_
  intro a ha hb
  have := List.of_mem_filter ha
  simp only [decide_eq_true_eq] at this
  exact this hb

theorem mem_rowKeys_reconRow {x : FlatRow} {fks : List String}
    (hsub : ∀ fk ∈ fks, fk ∈ rowKeys x) (k : String) :
    k ∈ rowKeys (reconRow x fks) ↔ k ∈ rowKeys x := by
  rw [rowKeys_reconRow]
  simp only [List.mem_append, List.mem_filter, decide_eq_true_eq]
  constructor
  · rintro (⟨h, _⟩ | h)
    · exact h
    · exact hsub k h
  · intro h
    by_cases hk : k ∈ fks
    · exact Or.inr hk
    · exact Or.inl ⟨h, by simpa using hk⟩

theorem canonRow_eq_of_equiv {r1 r2 : FlatRow} (h1 : (rowKeys r1).Nodup)
    (h2 : (rowKeys r2).Nodup) (hm : ∀ k, k ∈ rowKeys r1 ↔ k ∈ rowKeys r2)
    (hv : ∀ k, readCol r1 k = readCol r2 k) : canonRow r1 = canonRow r2 := by
  unfold canonRow
  have hperm : (rowKeys r1).Perm (rowKeys r2) := (List.perm_ext_iff_of_nodup h1 h2).mpr hm
  have hs1 : List.Sorted (fun a b : String => a ≤ b)
      (List.insertionSort (fun a b : String => a ≤ b) (rowKeys r1)) :=
    List.sorted_insertionSort _ _
  have hs2 : List.Sorted (fun a b : String => a ≤ b)
      (List.insertionSort (fun a b : String => a ≤ b) (rowKeys r2)) :=
    List.sorted_insertionSort _ _
  have hsorted :
      List.insertionSort (fun a b : String => a ≤ b) (rowKeys r1)
        = List.insertionSort (fun a b : String => a ≤ b) (rowKeys r2) :=
    List.eq_of_perm_of_sorted
      (((List.perm_insertionSort _ _).trans hperm).trans
        (List.perm_insertionSort _ _).symm) hs1 hs2
  rw [hsorted]
  exact List.map_congr_left (fun k _ => by rw [hv k])

theorem canonRow_reconRow {x : FlatRow} {fks : List String}
    (hnd : (rowKeys x).Nodup) (hfnd : fks.Nodup)
    (hsub : ∀ fk ∈ fks, fk ∈ rowKeys x) :
    canonRow (reconRow x fks) = canonRow x :=
  canonRow_eq_of_equiv (rowKeys_reconRow_nodup hnd hfnd) hnd
    (mem_rowKeys_reconRow hsub) (fun k => readCol_reconRow x fks k)

theorem pushPairs_append (tb : FlatDataset) (l1 l2 : List (String × FlatRow)) :
    pushPairs tb (l1 ++ l2) = pushPairs (pushPairs tb l1) l2 := by
  unfold pushPairs
  exact List.foldl_append _ _ l1 l2

theorem pushPairs_cons (tb : FlatDataset) (q : String × FlatRow)
    (l : List (String × FlatRow)) :
    pushPairs tb (q :: l) = pushPairs (pushPairs tb [q]) l := rfl

theorem jsGet_pushPairs_one (tb : FlatDataset) (q : String × FlatRow) (u : String) :
    jsGet (pushPairs tb [q]) u =
      (jsGet tb u).map (fun rows => rows ++ if q.1 = u then [q.2] else []) := by
  show jsGet (match jsGet tb q.1 with
    | none => tb
    | some rows => jsSet tb q.1 (rows ++ [q.2])) u = _
  cases hq : jsGet tb q.1 with
  | none =>
      by_cases hu : q.1 = u
      · rw [← hu, hq]; rfl
      · rw [if_neg hu]
        cases hgu : jsGet tb u <;> simp [hgu]
  | some rows0 =>
      by_cases hu : q.1 = u
      · subst hu
        rw [jsGet_jsSet_self, hq]
        simp
      · rw [jsGet_jsSet_ne _ hu, if_neg hu]
        cases hgu : jsGet tb u <;> simp [hgu]

theorem jsGet_pushPairs (l : List (String × FlatRow)) :
    ∀ (tb : FlatDataset) (u : String),
      jsGet (pushPairs tb l) u =
        (jsGet tb u).map
          (fun rows => rows ++ (l.filter (fun q => q.1 = u)).map Prod.snd) := by
  induction l with
  | nil =>
      intro tb u
      cases hgu : jsGet tb u <;> simp [pushPairs, hgu]
  | cons q l ih =>
      intro tb u
      rw [pushPairs_cons, ih, jsGet_pushPairs_one]
      rw [Option.map_map]
      cases hgu : jsGet tb u with
      | none => rfl
      | some rows =>
          simp only [Option.map, Function.comp]
          congr 1
          rw [List.append_assoc]
          congr 1
          by_cases hu : q.1 = u
          · rw [if_pos hu, List.filter_cons, if_pos (by simpa using hu)]
            simp
          · rw [if_neg hu, List.filter_cons, if_neg (by simpa using hu)]
            simp

theorem pushPairs_isSome {tb : FlatDataset} {u : String}
    (h : (jsGet tb u).isSome = true) (l : List (String × FlatRow)) :
    (jsGet (pushPairs tb l) u).isSome = true := by
  rw [jsGet_pushPairs]
  cases hgu : jsGet tb u with
  | none => rw [hgu] at h; simp at h
  | some rows => simp

theorem foldl_pushPairs_of_pointwise {α : Type} (Inv : FlatDataset → Prop)
    (G : FlatDataset → α → FlatDataset) (F : α → List (String × FlatRow))
    (hInv : ∀ (tb : FlatDataset) (l : List (String × FlatRow)), Inv tb → Inv (pushPairs tb l)) :
    ∀ (l : List α),
      (∀ a ∈ l, ∀ tb, Inv tb → G tb a = pushPairs tb (F a)) →
      ∀ tb, Inv tb → l.foldl G tb = pushPairs tb (l.flatMap F) := by
  intro l
  induction l with
  | nil => intro _ tb _; simp [pushPairs]
  | cons a l ih =>
      intro hpt tb hinv
      simp only [List.foldl_cons, List.flatMap_cons]
      rw [hpt a (List.mem_cons_self a l) tb hinv]
      rw [ih (fun a' ha' => hpt a' (List.mem_cons_of_mem a ha')) _ (hInv tb (F a) hinv)]
      rw [pushPairs_append]

theorem cnt_cons {α : Type} [DecidableEq α] (a b : α) (l : List α) :
    cnt a (b :: l) = cnt a l + if b = a then 1 else 0 := by
  simp [cnt, List.countP_cons]

theorem cnt_nil {α : Type} [DecidableEq α] (a : α) : cnt a ([] : List α) = 0 := rfl

theorem cnt_append {α : Type} [DecidableEq α] (a : α) (l₁ l₂ : List α) :
    cnt a (l₁ ++ l₂) = cnt a l₁ + cnt a l₂ := by
  simp [cnt, List.countP_append]

theorem cnt_eq_zero {α : Type} [DecidableEq α] {a : α} {l : List α} :
    cnt a l = 0 ↔ ¬ a ∈ l := by
  unfold cnt
  rw [List.countP_eq_zero]
  constructor
  · intro h hmem
    have := h a hmem
    simp at this
  · intro h b hb
    simp only [decide_eq_true_eq]
    intro hc
    exact h (hc ▸ hb)

theorem cnt_pos {α : Type} [DecidableEq α] {a : α} {l : List α} :
    0 < cnt a l ↔ a ∈ l := by
  unfold cnt
  rw [List.countP_pos_iff]
  constructor
  · rintro ⟨b, hb, hba⟩
    simp only [decide_eq_true_eq] at hba
    exact hba ▸ hb
  · intro h
    exact ⟨a, h, by simp⟩

theorem cnt_eq_count {α : Type} [DecidableEq α] (a : α) (l : List α) :
    cnt a l = l.count a := by
  induction l with
  | nil => rfl
  | cons b bs ih =>
      rw [cnt_cons, ih, List.count_cons]
      by_cases hb : b = a
      · simp [hb]
      · simp [hb]

theorem count_flatMap {α β : Type} [DecidableEq β] (f : α → List β) (c : β) :
    ∀ (P : List α),
      cnt c (P.flatMap f) = (P.map (fun q => cnt c (f q))).sum := by
  intro P
  induction P with
  | nil => simp [cnt_nil]
  | cons q P ih =>
      simp only [List.flatMap_cons, cnt_append, List.map_cons, List.sum_cons, ih]

theorem count_pair_map {t c : String} {y : FlatRow} (l : List FlatRow) :
    cnt (t, y) (l.map (fun y2 => (c, y2)))
      = if c = t then cnt y l else 0 := by
  induction l with
  | nil => simp [cnt_nil]
  | cons z l ih =>
      by_cases hc : c = t
      · subst hc
        by_cases hz : z = y <;>
          simp [List.map_cons, cnt_cons, hz, ih]
      · by_cases hz : z = y <;>
          simp [List.map_cons, cnt_cons, hc, hz, ih]

theorem count_filter_fst_map_snd {p : String} {x : FlatRow}
    (P : List (String × FlatRow)) :
    cnt x ((P.filter (fun q => q.1 = p)).map Prod.snd)
      = cnt (p, x) P := by
  induction P with
  | nil => simp [cnt_nil]
  | cons q P ih =>
      obtain ⟨a, b⟩ := q
      rw [List.filter_cons]
      by_cases ha : a = p
      · subst ha
        rw [if_pos (by simp)]
        simp only [List.map_cons, cnt_cons, ih]
        by_cases hb : b = x
        · subst hb; simp
        · simp [hb]
      · rw [if_neg (by simpa using ha)]
        rw [ih, cnt_cons]
        have hne : ¬ ((a, b) = (p, x)) := fun hc => ha (congrArg Prod.fst hc)
        simp [hne]

theorem sum_map_ite_fst {p : String} (h : FlatRow → Nat)
    (P : List (String × FlatRow)) :
    (P.map (fun q => if q.1 = p then h q.2 else 0)).sum
      = (((P.filter (fun q => q.1 = p)).map Prod.snd).map h).sum := by
  induction P with
  | nil => simp
  | cons q P ih =>
      rw [List.filter_cons]
      by_cases hq : q.1 = p
      · rw [if_pos (by simpa using hq)]
        simp only [List.map_cons, List.sum_cons, ih, if_pos hq]
      · rw [if_neg (by simpa using hq)]
        simp only [List.map_cons, List.sum_cons, ih, if_neg hq, Nat.zero_add]

theorem sum_map_ite_count {α : Type} {c : Nat} (P : α → Prop) [DecidablePred P]
    (s : List α) :
    (s.map (fun x => if P x then c else 0)).sum
      = c * s.countP (fun x => decide (P x)) := by
  induction s with
  | nil => simp
  | cons x xs ih =>
      by_cases hx : P x
      · simp [hx, ih, List.countP_cons, Nat.mul_add, Nat.mul_one, Nat.add_comm]
      · simp [hx, ih, List.countP_cons]

theorem count_filter_if {α : Type} [DecidableEq α] (p : α → Bool) (l : List α) (a : α) :
    cnt a (l.filter p) = if p a then cnt a l else 0 := by
  induction l with
  | nil => simp [cnt_nil]
  | cons b bs ih =>
      by_cases hb : p b
      · by_cases hab : b = a
        · subst hab
          simp [List.filter_cons, hb, cnt_cons, ih]
        · simp [List.filter_cons, hb, cnt_cons, ih, hab]
      · by_cases hab : b = a
        · subst hab
          simp [List.filter_cons, hb, cnt_cons, ih]
        · simp [List.filter_cons, hb, cnt_cons, ih, hab]

theorem sum_range_ite (c : Nat) (d : Nat) : ∀ (F : Nat),
    ((List.range F).map (fun l => if l = d then c else 0)).sum
      = if d < F then c else 0 := by
  intro F
  induction F with
  | zero => simp
  | succ F ih =>
      rw [List.range_succ, List.map_append, List.sum_append]
      simp only [List.map_cons, List.map_nil, List.sum_cons, List.sum_nil, ih]
      by_cases hd : d < F
      · rw [if_pos hd, if_neg (by omega), if_pos (by omega)]
        simp
      · by_cases hdF : F = d
        · subst hdF
          rw [if_neg hd, if_pos rfl, if_pos (by omega)]
          simp
        · rw [if_neg hd, if_neg hdF, if_neg (by omega)]
          simp

theorem countP_one_mem_unique {α : Type} {l : List α} {P : α → Bool}
    (h : l.countP P = 1) {a b : α} (ha : a ∈ l) (hpa : P a = true)
    (hb : b ∈ l) (hpb : P b = true) : a = b := by
  rw [List.countP_eq_length_filter] at h
  rcases List.length_eq_one.mp h with ⟨x, hx⟩
  have hax : a ∈ l.filter P := List.mem_filter.mpr ⟨ha, hpa⟩
  have hbx : b ∈ l.filter P := List.mem_filter.mpr ⟨hb, hpb⟩
  rw [hx] at hax hbx
  simp only [List.mem_singleton] at hax hbx
  rw [hax, hbx]

theorem parentEdgeOf_eq {tree : OwnershipTree} {e : OwnershipEdge}
    (hcount : (dominantEdges tree).countP (fun e' => e'.childTable = e.childTable) = 1)
    (he : e ∈ dominantEdges tree) : parentEdgeOf tree e.childTable = some e := by
  unfold parentEdgeOf
  have hsome : ((dominantEdges tree).find? (fun e' => e'.childTable = e.childTable)).isSome :=
    List.find?_isSome.mpr ⟨e, he, by simp⟩
  cases hf : (dominantEdges tree).find? (fun e' => e'.childTable = e.childTable) with
  | none => rw [hf] at hsome; simp at hsome
  | some e0 =>
      have he0 : e0 ∈ dominantEdges tree := List.mem_of_find?_eq_some hf
      have hpe0 := List.find?_some hf
      have := countP_one_mem_unique hcount he0 hpe0 he (by simp)
      rw [this]

theorem parentEdgeOf_none {tree : OwnershipTree} {t : String}
    (hcount : (dominantEdges tree).countP (fun e' => e'.childTable = t) = 0) :
    parentEdgeOf tree t = none := by
  unfold parentEdgeOf
  apply List.find?_eq_none.mpr
  intro e he hc
  have : 0 < (dominantEdges tree).countP (fun e' => e'.childTable = t) :=
    List.countP_pos_iff.mpr ⟨e, he, hc⟩
  omega

theorem mem_getChildren_mem_dominantEdges {tree : OwnershipTree} {t : String}
    {e : OwnershipEdge} (h : e ∈ tree.getChildren t) : e ∈ dominantEdges tree := by
  unfold OwnershipTree.getChildren at h
  cases hg : jsGet tree.childrenMap t with
  | none => rw [hg] at h; simp at h
  | some l =>
      rw [hg] at h
      exact List.mem_flatMap.mpr ⟨(t, l), jsGet_eq_some_imp_mem hg, h⟩

theorem getChildren_group_mem {tree : OwnershipTree} {t : String}
    {e : OwnershipEdge} (h : e ∈ tree.getChildren t) :
    ∃ grp, (t, grp) ∈ tree.childrenMap ∧ e ∈ grp := by
  unfold OwnershipTree.getChildren at h
  cases hg : jsGet tree.childrenMap t with
  | none => rw [hg] at h; simp at h
  | some l =>
      rw [hg] at h
      exact ⟨l, jsGet_eq_some_imp_mem hg, h⟩

theorem mem_dominantEdges_getChildren {tree : OwnershipTree} {e : OwnershipEdge}
    (hnd : (tree.childrenMap.map Prod.fst).Nodup)
    (hpar : ∀ p ∈ tree.childrenMap, ∀ e' ∈ p.2, e'.parentTable = p.1)
    (he : e ∈ dominantEdges tree) : e ∈ tree.getChildren e.parentTable := by
  rcases List.mem_flatMap.mp he with ⟨p, hp, hep⟩
  have hpt : e.parentTable = p.1 := hpar p hp e hep
  unfold OwnershipTree.getChildren
  rw [hpt]
  have : jsGet tree.childrenMap p.1 = some p.2 :=
    jsGet_of_mem_nodup hnd (by cases p; exact hp)
  rw [this]
  exact hep

theorem depthOf_lt_fuel {tree : OwnershipTree} :
    ∀ {fuel : Nat} {t : String} {d : Nat}, depthOf tree fuel t = some d → d < fuel := by
  intro fuel
  induction fuel with
  | zero => intro t d h; simp [depthOf] at h
  | succ fuel ih =>
      intro t d h
      simp only [depthOf] at h
      by_cases hr : t ∈ tree.roots
      · rw [if_pos hr] at h
        injection h with h
        omega
      · rw [if_neg hr] at h
        cases hp : parentEdgeOf tree t with
        | none => simp only [hp] at h; simp at h
        | some e =>
            simp only [hp] at h
            cases hd : depthOf tree fuel e.parentTable with
            | none => rw [hd] at h; simp at h
            | some d' =>
                rw [hd] at h
                simp only [Option.map] at h
                injection h with h
                have := ih hd
                omega

theorem depthOf_mono {tree : OwnershipTree} :
    ∀ {fuel fuel' : Nat} {t : String} {d : Nat}, fuel ≤ fuel' →
      depthOf tree fuel t = some d → depthOf tree fuel' t = some d := by
  intro fuel
  induction fuel with
  | zero => intro fuel' t d _ h; simp [depthOf] at h
  | succ fuel ih =>
      intro fuel' t d hle h
      cases fuel' with
      | zero => omega
      | succ fuel'' =>
          simp only [depthOf] at h ⊢
          by_cases hr : t ∈ tree.roots
          · rw [if_pos hr] at h ⊢; exact h
          · rw [if_neg hr] at h ⊢
            cases hp : parentEdgeOf tree t with
            | none => simp only [hp] at h; simp at h
            | some e =>
                simp only [hp] at h ⊢
                cases hd : depthOf tree fuel e.parentTable with
                | none => rw [hd] at h; simp at h
                | some d' =>
                    rw [hd] at h
                    rw [ih (by omega) hd]
                    exact h

theorem pkGroups_aux (pk : List String) :
    ∀ (rows : List FlatRow) (acc : List (String × List FlatRow)),
      (acc.map Prod.fst ++ rows.map (pkKeyOf pk)).Nodup →
      rows.foldl
        (fun m row =>
          let pkKey := pkKeyOf pk row
          match jsGet m pkKey with
          | none => m ++ [(pkKey, [row])]
          | some existing => jsSet m pkKey (existing ++ [row]))
        acc
      = acc ++ rows.map (fun r => (pkKeyOf pk r, [r])) := by
  intro rows
  induction rows with
  | nil => intro acc _; simp
  | cons r rs ih =>
      intro acc hnd
      have hdisj := (List.nodup_append.mp hnd).2.2
      have hkey : jsGet acc (pkKeyOf pk r) = none := by
        apply jsGet_eq_none_of_not_mem
        intro hc
        exact hdisj hc (by simp)
      simp only [List.foldl_cons, hkey]
      rw [ih (acc ++ [(pkKeyOf pk r, [r])]) ?_]
      · simp
      · simp only [List.map_append, List.map_cons, List.map_nil]
        rw [List.append_assoc]
        simpa using hnd

theorem pkGroups_eq_of_nodup {pk : List String} {rows : List FlatRow}
    (hnd : (rows.map (pkKeyOf pk)).Nodup) :
    pkGroups pk rows = rows.map (fun r => (pkKeyOf pk r, [r])) := by
  have h := pkGroups_aux pk rows [] (by simpa using hnd)
  unfold pkGroups
  simpa using h

theorem keys_filterMap_graph_subset {α β : Type} (f : String → α → Option β)
    {m : List (String × α)} {a : String}
    (h : a ∈ (m.filterMap (fun p => (f p.1 p.2).map (fun b => (p.1, b)))).map Prod.fst) :
    a ∈ m.map Prod.fst := by
  rcases List.mem_map.mp h with ⟨q, hq, rfl⟩
  rcases List.mem_filterMap.mp hq with ⟨p, hp, heq⟩
  cases hf : f p.1 p.2 with
  | none => rw [hf] at heq; simp at heq
  | some b =>
      rw [hf] at heq
      simp only [Option.map] at heq
      injection heq with heq
      rw [← heq]
      exact List.mem_map.mpr ⟨p, hp, rfl⟩

theorem jsGet_filterMap_graph {α β : Type} (f : String → α → Option β)
    {m : List (String × α)} (hnd : (m.map Prod.fst).Nodup) (k : String) :
    jsGet (m.filterMap (fun p => (f p.1 p.2).map (fun b => (p.1, b)))) k
      = (jsGet m k).bind (f k) := by
  induction m with
  | nil => simp [jsGet]
  | cons p rest ih =>
      simp only [List.map_cons, List.nodup_cons] at hnd
      by_cases hk : p.1 = k
      · subst hk
        cases hf : f p.1 p.2 with
        | some b =>
            have hcons : List.filterMap (fun p => (f p.1 p.2).map (fun b => (p.1, b))) (p :: rest)
                = (p.1, b) :: List.filterMap (fun p => (f p.1 p.2).map (fun b => (p.1, b))) rest := by
              rw [List.filterMap_cons]
              simp [hf]
            rw [hcons]
            have h1 : jsGet ((p.1, b) ::
                rest.filterMap (fun p => (f p.1 p.2).map (fun b => (p.1, b)))) p.1
                = some b := by
              simp [jsGet]
            have h2 : jsGet (p :: rest) p.1 = some p.2 := by
              cases p
              simp [jsGet]
            rw [h1, h2, Option.some_bind, hf]
        | none =>
            have hcons : List.filterMap (fun p => (f p.1 p.2).map (fun b => (p.1, b))) (p :: rest)
                = List.filterMap (fun p => (f p.1 p.2).map (fun b => (p.1, b))) rest := by
              rw [List.filterMap_cons]
              simp [hf]
            rw [hcons]
            have hnone : jsGet (rest.filterMap
                (fun p => (f p.1 p.2).map (fun b => (p.1, b)))) p.1 = none := by
              apply jsGet_eq_none_of_not_mem
              intro hc
              exact hnd.1 (keys_filterMap_graph_subset f hc)
            have h2 : jsGet (p :: rest) p.1 = some p.2 := by
              cases p
              simp [jsGet]
            rw [hnone, h2, Option.some_bind, hf]
      · have h2 : jsGet (p :: rest) k = jsGet rest k := by
          simp only [jsGet]
          rw [if_neg hk]
        cases hf : f p.1 p.2 with
        | some b =>
            have hcons : List.filterMap (fun p => (f p.1 p.2).map (fun b => (p.1, b))) (p :: rest)
                = (p.1, b) :: List.filterMap (fun p => (f p.1 p.2).map (fun b => (p.1, b))) rest := by
              rw [List.filterMap_cons]
              simp [hf]
            rw [hcons]
            have h1 : jsGet ((p.1, b) ::
                rest.filterMap (fun p => (f p.1 p.2).map (fun b => (p.1, b)))) k
                = jsGet (rest.filterMap (fun p => (f p.1 p.2).map (fun b => (p.1, b)))) k := by
              simp only [jsGet]
              rw [if_neg hk]
            rw [h1, h2]
            exact ih hnd.2
        | none =>
            have hcons : List.filterMap (fun p => (f p.1 p.2).map (fun b => (p.1, b))) (p :: rest)
                = List.filterMap (fun p => (f p.1 p.2).map (fun b => (p.1, b))) rest := by
              rw [List.filterMap_cons]
              simp [hf]
            rw [hcons]
            rw [h2]
            exact ih hnd.2

theorem buildRowIndex_aux (schema : Schema) :
    ∀ (D : FlatDataset) (acc : List (String × List (String × List FlatRow))),
      (∀ p ∈ D, ¬ p.1 ∈ acc.map Prod.fst) → (D.map Prod.fst).Nodup →
      D.foldl
        (fun index p =>
          match jsGet schema.tables p.1 with
          | none => index
          | some table => jsSet index p.1 (pkGroups table.primaryKey p.2))
        acc
      = acc ++ D.filterMap
          (fun p => ((jsGet schema.tables p.1).map
            (fun table => pkGroups table.primaryKey p.2)).map (fun b => (p.1, b))) := by
  intro D
  induction D with
  | nil => intro acc _ _; simp
  | cons p D ih =>
      intro acc hfresh hnd
      simp only [List.map_cons, List.nodup_cons] at hnd
      simp only [List.foldl_cons, List.filterMap_cons]
      cases ht : jsGet schema.tables p.1 with
      | none =>
          simp only [Option.map_none]
          exact ih acc (fun q hq => hfresh q (List.mem_cons_of_mem p hq)) hnd.2
      | some table =>
          simp only [Option.map_some]
          rw [jsSet_fresh _ (hfresh p (List.mem_cons_self p D))]
          rw [ih (acc ++ [(p.1, pkGroups table.primaryKey p.2)]) ?_ hnd.2]
          · simp
          · intro q hq
            simp only [List.map_append, List.mem_append, List.map_cons, List.map_nil,
              List.mem_singleton]
            rintro (hc | hc)
            · exact hfresh q (List.mem_cons_of_mem p hq) hc
            · exact hnd.1 (hc ▸ (List.mem_map.mpr ⟨q, hq, rfl⟩))

theorem jsGet_buildRowIndex (schema : Schema) {D : FlatDataset}
    (hnd : (D.map Prod.fst).Nodup) (c : String) :
    jsGet (buildRowIndex D schema) c
      = (jsGet D c).bind
          (fun rows => (jsGet schema.tables c).map
            (fun table => pkGroups table.primaryKey rows)) := by
  unfold buildRowIndex
  rw [buildRowIndex_aux schema D [] (by simp) hnd, List.nil_append]
  exact jsGet_filterMap_graph
    (fun k rows => (jsGet schema.tables k).map (fun table => pkGroups table.primaryKey rows))
    hnd c

theorem findChildRows_eq_childRowsD {schema : Schema} {D : FlatDataset}
    (hnd : (D.map Prod.fst).Nodup)
    (hsub : ∀ t ∈ D.map Prod.fst, (jsGet schema.tables t).isSome = true)
    {e : OwnershipEdge}
    (hpk : ((rowsOf D e.childTable).map (pkKeyOf (tablePk schema e.childTable))).Nodup)
    (x : FlatRow) :
    findChildRows x e (buildRowIndex D schema) = childRowsD D e x := by
  unfold findChildRows childRowsD rowsOf
  rw [jsGet_buildRowIndex schema hnd]
  cases hgc : jsGet D e.childTable with
  | none => simp
  | some rows =>
      have hmem : e.childTable ∈ D.map Prod.fst := jsGet_eq_some_mem hgc
      have hsome := hsub _ hmem
      cases ht : jsGet schema.tables e.childTable with
      | none => rw [ht] at hsome; simp at hsome
      | some table =>
          simp only [Option.some_bind, Option.map, Option.getD_some]
          have hpk' : (rows.map (pkKeyOf table.primaryKey)).Nodup := by
            unfold tablePk rowsOf at hpk
            rw [ht, hgc] at hpk
            simpa using hpk
          rw [pkGroups_eq_of_nodup hpk']
          rw [List.flatMap_map]
          simp only []
          rw [List.flatMap_singleton']

theorem nestRowF_succ (schema : Schema) (tree : OwnershipTree)
    (rowIndex : List (String × List (String × List FlatRow)))
    (fuel : Nat) (xs : FlatRow) (t : String) :
    nestRowF schema tree rowIndex {} (fuel + 1) xs t =
      .obj ((tree.getChildren t).foldl
        (fun result edge =>
          jsSet result (toCamelCase edge.childTable)
            (JVal.arr ((findChildRows xs edge rowIndex).map (fun y =>
              nestRowF schema tree rowIndex {} fuel
                (removeFkColumns y edge.foreignKeyColumns) edge.childTable))))
        xs) := rfl

theorem nestRowF_entries (schema : Schema) (tree : OwnershipTree)
    (rowIndex : List (String × List (String × List FlatRow)))
    (fuel : Nat) (xs : FlatRow) (t : String)
    (hnd : ((tree.getChildren t).map (fun e => toCamelCase e.childTable)).Nodup)
    (hfresh : ∀ e ∈ tree.getChildren t, ¬ toCamelCase e.childTable ∈ rowKeys xs) :
    nestRowF schema tree rowIndex {} (fuel + 1) xs t =
      .obj (xs ++ (tree.getChildren t).map (fun e =>
        (toCamelCase e.childTable,
         JVal.arr ((findChildRows xs e rowIndex).map (fun y =>
           nestRowF schema tree rowIndex {} fuel
             (removeFkColumns y e.foreignKeyColumns) e.childTable))))) := by
  rw [nestRowF_succ]
  congr 1
  exact foldl_jsSet_fresh (fun e => toCamelCase e.childTable)
    (fun e => JVal.arr ((findChildRows xs e rowIndex).map (fun y =>
      nestRowF schema tree rowIndex {} fuel
        (removeFkColumns y e.foreignKeyColumns) e.childTable)))
    (tree.getChildren t) xs hnd hfresh

theorem foldl_jsSet_keys_subset {α β : Type} (g : β → String) (f : β → α) :
    ∀ (items : List β) (acc : List (String × α)) (k : String),
      k ∈ (items.foldl (fun r b => jsSet r (g b) (f b)) acc).map Prod.fst →
      k ∈ acc.map Prod.fst ∨ ∃ b ∈ items, k = g b := by
  intro items
  induction items with
  | nil => intro acc k hk; exact Or.inl hk
  | cons b bs ih =>
      intro acc k hk
      simp only [List.foldl_cons] at hk
      rcases ih (jsSet acc (g b) (f b)) k hk with hin | ⟨b', hb', rfl⟩
      · rw [jsSet_map_fst] at hin
        by_cases hgb : g b ∈ acc.map Prod.fst
        · rw [if_pos hgb] at hin
          exact Or.inl hin
        · rw [if_neg hgb] at hin
          rcases List.mem_append.mp hin with hin | hin
          · exact Or.inl hin
          · simp only [List.mem_singleton] at hin
            exact Or.inr ⟨b, List.mem_cons_self b bs, hin⟩
      · exact Or.inr ⟨b', List.mem_cons_of_mem b hb', rfl⟩

theorem nestRowF_keys (schema : Schema) (tree : OwnershipTree)
    (rowIndex : List (String × List (String × List FlatRow))) :
    ∀ (fuel : Nat) (xs : FlatRow) (t : String),
      ∃ es, nestRowF schema tree rowIndex {} fuel xs t = .obj es ∧
        ∀ k ∈ rowKeys es,
          k ∈ rowKeys xs ∨ ∃ e ∈ tree.getChildren t, k = toCamelCase e.childTable := by
  intro fuel
  cases fuel with
  | zero => exact fun xs t => ⟨xs, rfl, fun k hk => Or.inl hk⟩
  | succ fuel =>
      intro xs t
      rw [nestRowF_succ]
      refine ⟨_, rfl, ?_⟩
      intro k hk
      simp only [rowKeys] at hk
      exact foldl_jsSet_keys_subset _ _ (tree.getChildren t) xs k hk

theorem nestRowF_no_marker (schema : Schema) (tree : OwnershipTree)
    (rowIndex : List (String × List (String × List FlatRow)))
    {fuel : Nat} {xs : FlatRow} {t : String}
    (hp : ¬ "$partial" ∈ rowKeys xs) (hr : ¬ "$ref" ∈ rowKeys xs)
    (hcam : ∀ e ∈ tree.getChildren t,
      toCamelCase e.childTable ≠ "$partial" ∧ toCamelCase e.childTable ≠ "$ref") :
    isPartialMarker (nestRowF schema tree rowIndex {} fuel xs t) = false ∧
    isRefMarker (nestRowF schema tree rowIndex {} fuel xs t) = false := by
  obtain ⟨es, hes, hkeys⟩ := nestRowF_keys schema tree rowIndex fuel xs t
  rw [hes]
  have hgp : jsGet es "$partial" = none := by
    apply jsGet_eq_none_of_not_mem
    intro hc
    rcases hkeys _ hc with h | ⟨e, he, hk⟩
    · exact hp h
    · exact (hcam e he).1 hk.symm
  have hgr : jsGet es "$ref" = none := by
    apply jsGet_eq_none_of_not_mem
    intro hc
    rcases hkeys _ hc with h | ⟨e, he, hk⟩
    · exact hr h
    · exact (hcam e he).2 hk.symm
  constructor
  · show isPartialMarker (.obj es) = false
    simp only [isPartialMarker]
    rw [hgp]
  · show isRefMarker (.obj es) = false
    simp only [isRefMarker]
    rw [hgr]

theorem foldl_colfilter_in (cols : List String) :
    ∀ (xs : FlatRow) (acc : FlatRow),
      (∀ p ∈ xs, p.1 ∈ cols) → (rowKeys xs).Nodup →
      (∀ p ∈ xs, ¬ p.1 ∈ rowKeys acc) →
      xs.foldl (fun r p => if p.1 ∈ cols then jsSet r p.1 p.2 else r) acc
        = acc ++ xs := by
  intro xs
  induction xs with
  | nil => intro acc _ _ _; simp
  | cons p ps ih =>
      intro acc h1 h2 h3
      simp only [List.foldl_cons]
      rw [if_pos (h1 p (List.mem_cons_self p ps))]
      rw [jsSet_fresh p.2 (h3 p (List.mem_cons_self p ps))]
      simp only [rowKeys, List.map_cons, List.nodup_cons] at h2
      rw [ih (acc ++ [(p.1, p.2)]) (fun q hq => h1 q (List.mem_cons_of_mem p hq)) h2.2 ?_]
      · simp
      · intro q hq
        simp only [rowKeys, List.map_append, List.mem_append, List.map_cons, List.map_nil,
          List.mem_singleton]
        rintro (hc | hc)
        · exact h3 q (List.mem_cons_of_mem p hq) hc
        · exact h2.1 (hc ▸ (List.mem_map.mpr ⟨q, hq, rfl⟩))

theorem foldl_colfilter_out (cols : List String) :
    ∀ (rest : FlatRow) (acc : FlatRow),
      (∀ p ∈ rest, ¬ p.1 ∈ cols) →
      rest.foldl (fun r p => if p.1 ∈ cols then jsSet r p.1 p.2 else r) acc = acc := by
  intro rest
  induction rest with
  | nil => intro acc _; rfl
  | cons p ps ih =>
      intro acc h
      simp only [List.foldl_cons]
      rw [if_neg (h p (List.mem_cons_self p ps))]
      exact ih acc (fun q hq => h q (List.mem_cons_of_mem p hq))

theorem all_congr_mem {α : Type} (p q : α → Bool) (l : List α)
    (h : ∀ x ∈ l, p x = q x) : l.all p = l.all q := by
  induction l with
  | nil => rfl
  | cons b bs ih =>
      simp only [List.all_cons]
      rw [h b (List.mem_cons_self b bs), ih (fun x hx => h x (List.mem_cons_of_mem b hx))]

theorem matchEdge_strip {e : OwnershipEdge} {x : FlatRow} {fks : List String}
    (hdisj : ∀ tc ∈ e.relationship.toColumns, ¬ tc ∈ fks) (y : FlatRow) :
    matchEdge e (removeFkColumns x fks) y = matchEdge e x y := by
  unfold matchEdge
  apply all_congr_mem
  intro q hq
  have htc := (List.of_mem_zip hq).2
  unfold readCol
  rw [jsGet_removeFk_not_mem (hdisj _ htc)]

theorem findChildRows_strip (e : OwnershipEdge) (x : FlatRow) (fks : List String)
    (idx : List (String × List (String × List FlatRow)))
    (hdisj : ∀ tc ∈ e.relationship.toColumns, ¬ tc ∈ fks) :
    findChildRows (removeFkColumns x fks) e idx = findChildRows x e idx := by
  unfold findChildRows
  cases jsGet idx e.childTable with
  | none => rfl
  | some l =>
      exact List.filter_congr (fun y _ => matchEdge_strip hdisj y)

theorem mem_childRowsD {D : FlatDataset} {e : OwnershipEdge} {x y : FlatRow}
    (h : y ∈ childRowsD D e x) :
    y ∈ rowsOf D e.childTable ∧ matchEdge e x y = true :=
  ⟨List.mem_of_mem_filter h, (List.mem_filter.mp h).2⟩

theorem parentEdgeOf_mem {tree : OwnershipTree} {t : String} {e : OwnershipEdge}
    (h : parentEdgeOf tree t = some e) :
    e ∈ dominantEdges tree ∧ e.childTable = t := by
  unfold parentEdgeOf at h
  refine ⟨List.mem_of_find?_eq_some h, ?_⟩
  have := List.find?_some h
  simpa using this

theorem edge_props {schema : Schema} {tree : OwnershipTree} (hw : WfTree schema tree)
    {e : OwnershipEdge} (he : e ∈ dominantEdges tree) :
    e.childTable ∈ schema.tables.map Prod.fst ∧
    e.parentTable ∈ schema.tables.map Prod.fst ∧
    e.foreignKeyColumns.length = e.relationship.toColumns.length ∧
    e.foreignKeyColumns.Nodup ∧
    ¬ e.childTable ∈ tree.roots ∧
    (∀ fk ∈ e.foreignKeyColumns, fk ∈ tableColumns schema e.childTable) := by
  obtain ⟨_, _, _, _, _, hE, _⟩ := hw
  rcases List.mem_flatMap.mp he with ⟨p, hp, hep⟩
  have h := hE p hp e hep
  exact ⟨h.2.1, h.2.2.1, h.2.2.2.1, h.2.2.2.2.1, h.2.2.2.2.2.1, h.2.2.2.2.2.2⟩

theorem edge_parentTable {schema : Schema} {tree : OwnershipTree} (hw : WfTree schema tree)
    {t : String} {e : OwnershipEdge} (he : e ∈ tree.getChildren t) :
    e.parentTable = t := by
  obtain ⟨_, _, _, _, _, hE, _⟩ := hw
  rcases getChildren_group_mem he with ⟨grp, hg, hee⟩
  exact hE (t, grp) hg e hee |>.1

theorem parentEdge_unique {schema : Schema} {tree : OwnershipTree} (hw : WfTree schema tree)
    {t : String} (ht : t ∈ schema.tables.map Prod.fst) (hnr : ¬ t ∈ tree.roots)
    {e : OwnershipEdge} (he : e ∈ dominantEdges tree) (hc : e.childTable = t) :
    parentEdgeOf tree t = some e := by
  obtain ⟨_, _, _, _, _, _, hPart, _⟩ := hw
  rcases hPart t ht with ⟨hr, _⟩ | ⟨_, hcount⟩
  · exact absurd hr hnr
  · rw [← hc]
    exact parentEdgeOf_eq (by rw [hc]; exact hcount) he

theorem fkColsOf_eq {schema : Schema} {tree : OwnershipTree} (hw : WfTree schema tree)
    {t : String} (ht : t ∈ schema.tables.map Prod.fst)
    {e : OwnershipEdge} (he : e ∈ dominantEdges tree) (hc : e.childTable = t) :
    fkColsOfTable tree t = e.foreignKeyColumns := by
  unfold fkColsOfTable
  rw [parentEdge_unique hw ht ((edge_props hw he).2.2.2.2.1 |> fun h => hc ▸ h) he hc]

theorem fkColsOf_root {schema : Schema} {tree : OwnershipTree} (hw : WfTree schema tree)
    {t : String} (ht : t ∈ schema.tables.map Prod.fst) (hr : t ∈ tree.roots) :
    fkColsOfTable tree t = [] := by
  obtain ⟨_, _, _, _, _, _, hPart, _⟩ := hw
  rcases hPart t ht with ⟨_, hcount⟩ | ⟨hnr, _⟩
  · unfold fkColsOfTable
    rw [parentEdgeOf_none hcount]
  · exact absurd hr hnr

theorem toCols_disjoint_fkt {tree : OwnershipTree} (hs : StripSafe tree)
    {t : String} {e' : OwnershipEdge} (he' : e' ∈ tree.getChildren t) :
    ∀ tc ∈ e'.relationship.toColumns, ¬ tc ∈ fkColsOfTable tree t := by
  intro tc htc hmem
  have hDisj := hs
  unfold fkColsOfTable at hmem
  cases hp : parentEdgeOf tree t with
  | none => rw [hp] at hmem; simp at hmem
  | some e0 =>
      rw [hp] at hmem
      obtain ⟨he0mem, he0c⟩ := parentEdgeOf_mem hp
      rcases List.mem_flatMap.mp he0mem with ⟨p, hpgrp, hin⟩
      exact hDisj p hpgrp e0 hin e' (by rw [he0c]; exact he') tc htc hmem

theorem row_props {schema : Schema} {tree : OwnershipTree} {D : FlatDataset}
    (hc : Consistent schema tree D) {t : String}
    (ht : t ∈ schema.tables.map Prod.fst) {y : FlatRow} (hy : y ∈ rowsOf D t) :
    (rowKeys y).Nodup ∧ (∀ p ∈ y, p.1 ∈ tableColumns schema t ∧ p.2 ≠ JVal.undef) :=
  hc.2.2.1 t ht |>.1 y hy

theorem row_keys_sub {schema : Schema} {tree : OwnershipTree} {D : FlatDataset}
    (hc : Consistent schema tree D) {t : String}
    (ht : t ∈ schema.tables.map Prod.fst) {y : FlatRow} (hy : y ∈ rowsOf D t) :
    ∀ k ∈ rowKeys y, k ∈ tableColumns schema t := by
  intro k hk
  rcases List.mem_map.mp hk with ⟨p, hp, rfl⟩
  exact ((row_props hc ht hy).2 p hp).1

theorem ref_props {schema : Schema} {tree : OwnershipTree} {D : FlatDataset}
    (hc : Consistent schema tree D) {e : OwnershipEdge} (he : e ∈ dominantEdges tree) :
    (∀ y ∈ rowsOf D e.childTable,
       (∀ fk ∈ e.foreignKeyColumns,
          (jsGet y fk).isSome = true ∧ isPrimitive (readCol y fk) = true) ∧
       (rowsOf D e.parentTable).countP (fun x => matchEdge e x y) = 1) ∧
    (∀ x ∈ rowsOf D e.parentTable, ∀ tc ∈ e.relationship.toColumns,
       (jsGet x tc).isSome = true ∧ isPrimitive (readCol x tc) = true) := by
  rcases List.mem_flatMap.mp he with ⟨p, hp, hep⟩
  exact hc.2.2.2 p hp e hep

theorem mem_rowKeys_removeFk {x : FlatRow} {fks : List String} {k : String}
    (h : k ∈ rowKeys (removeFkColumns x fks)) : k ∈ rowKeys x ∧ ¬ k ∈ fks := by
  rcases List.mem_map.mp h with ⟨p, hp, rfl⟩
  have hf := List.of_mem_filter hp
  simp only [decide_eq_true_eq] at hf
  exact ⟨List.mem_map.mpr ⟨p, List.mem_of_mem_filter hp, rfl⟩, hf⟩

theorem zip_fk_map : ∀ {fks tcs : List String} {pRow x : FlatRow},
    fks.length = tcs.length →
    (∀ q ∈ fks.zip tcs, readCol pRow q.2 = readCol x q.1) →
    (fks.zip tcs).map (fun q => (q.1, readCol pRow q.2))
      = fks.map (fun fk => (fk, readCol x fk)) := by
  intro fks
  induction fks with
  | nil => intro tcs pRow x _ _; simp
  | cons f fs ih =>
      intro tcs pRow x hlen hp
      cases tcs with
      | nil => simp at hlen
      | cons tc tcs =>
          simp only [List.zip_cons_cons, List.map_cons]
          congr 1
          · rw [hp (f, tc) (by simp)]
          · exact ih (by simpa using hlen) (fun q hq => hp q (List.mem_cons_of_mem _ hq))

/-- Processing the child arrays of a nested row: each child node flattens,
by the fuel induction hypothesis, to pushing its subtree's reconstructed
rows; the whole children fold therefore pushes the flattened subtree
pre-order traversal. -/
theorem flatten_nest_children {schema : Schema} {tree : OwnershipTree} {D : FlatDataset}
    (hw : WfTree schema tree) (hc : Consistent schema tree D) (fuel : Nat)
    (ih : ∀ (t : String) (x : FlatRow) (ctx : Option (OwnershipEdge × FlatRow))
        (tables : FlatDataset),
      t ∈ schema.tables.map Prod.fst → x ∈ rowsOf D t →
      (∀ u ∈ schema.tables.map Prod.fst, (jsGet tables u).isSome = true) →
      (match ctx with
       | none => t ∈ tree.roots
       | some (e, pRow) =>
           e ∈ dominantEdges tree ∧ e.childTable = t ∧
           (∀ q ∈ e.foreignKeyColumns.zip e.relationship.toColumns,
              readCol pRow q.2 = readCol x q.1)) →
      flattenRowF schema tree fuel
          (nestRowF schema tree (buildRowIndex D schema) {} fuel
            (removeFkColumns x (fkColsOfTable tree t)) t)
          t ctx tables
        = pushPairs tables
            ((origPairsF tree D fuel x t).map
              (fun q => (q.1, reconRow q.2 (fkColsOfTable tree q.1)))))
    (t : String) (x : FlatRow)
    (ht : t ∈ schema.tables.map Prod.fst) (hx : x ∈ rowsOf D t)
    (entries : List (String × JVal))
    (hget : ∀ e ∈ tree.getChildren t,
      jsGet entries (toCamelCase e.childTable)
        = some (JVal.arr ((childRowsD D e x).map (fun y =>
            nestRowF schema tree (buildRowIndex D schema) {} fuel
              (removeFkColumns y e.foreignKeyColumns) e.childTable))))
    (fr : FlatRow) (hfr : fr = reconRow x (fkColsOfTable tree t))
    (tables : FlatDataset)
    (hinv : ∀ u ∈ schema.tables.map Prod.fst, (jsGet tables u).isSome = true) :
    (tree.getChildren t).foldl
      (fun tbs edge =>
        match jsGet entries (toCamelCase edge.childTable) with
        | some (.arr childNodes) =>
            childNodes.foldl
              (fun tbs childNode =>
                if isPartialMarker childNode then tbs
                else if isRefMarker childNode then
                  handleRefMarker childNode edge fr schema tbs
                else
                  flattenRowF schema tree fuel childNode edge.childTable
                    (some (edge, fr)) tbs)
              tbs
        | _ => tbs)
      (match jsGet tables t with
       | none => tables
       | some l => jsSet tables t (l ++ [fr]))
    = pushPairs tables
        ((origPairsF tree D (fuel + 1) x t).map
          (fun q => (q.1, reconRow q.2 (fkColsOfTable tree q.1)))) := by
  have hMark := hw.2.2.2.2.2.2.2.2.1
  have hCam := hw.2.2.2.2.2.2.2.2.2.1
  have hInvPres : ∀ (tb : FlatDataset) (l : List (String × FlatRow)),
      (∀ u ∈ schema.tables.map Prod.fst, (jsGet tb u).isSome = true) →
      (∀ u ∈ schema.tables.map Prod.fst, (jsGet (pushPairs tb l) u).isSome = true) :=
    fun tb l h u hu => pushPairs_isSome (h u hu) l
  have hstart : (match jsGet tables t with
      | none => tables
      | some l => jsSet tables t (l ++ [fr])) = pushPairs tables [(t, fr)] := by
    have hts := hinv t ht
    cases hjt : jsGet tables t with
    | none => rw [hjt] at hts; simp at hts
    | some l => simp only [pushPairs, List.foldl_cons, List.foldl_nil, hjt]
  rw [hstart]
  have hinv1 : ∀ u ∈ schema.tables.map Prod.fst,
      (jsGet (pushPairs tables [(t, fr)]) u).isSome = true := hInvPres tables _ hinv
  refine Eq.trans
    (foldl_pushPairs_of_pointwise _ _
      (fun e => (childRowsD D e x).flatMap (fun y =>
        (origPairsF tree D fuel y e.childTable).map
          (fun q => (q.1, reconRow q.2 (fkColsOfTable tree q.1)))))
      hInvPres (tree.getChildren t) ?_ (pushPairs tables [(t, fr)]) hinv1) ?_
  · intro e he tb hinvtb
    simp only [hget e he]
    rw [List.foldl_map]
    have hce : e ∈ dominantEdges tree := mem_getChildren_mem_dominantEdges he
    obtain ⟨hcN, hpN, hlen, hfknd, hnre, hfkcols⟩ := edge_props hw hce
    have hfkc : fkColsOfTable tree e.childTable = e.foreignKeyColumns :=
      fkColsOf_eq hw hcN hce rfl
    refine foldl_pushPairs_of_pointwise _ _
      (fun y => (origPairsF tree D fuel y e.childTable).map
        (fun q => (q.1, reconRow q.2 (fkColsOfTable tree q.1))))
      hInvPres (childRowsD D e x) ?_ tb hinvtb
    intro y hy tb2 hinv2
    obtain ⟨hyrows, hymatch⟩ := mem_childRowsD hy
    have hykeys : ∀ k ∈ rowKeys (removeFkColumns y e.foreignKeyColumns),
        k ∈ tableColumns schema e.childTable :=
      fun k hk => row_keys_sub hc hcN hyrows k (mem_rowKeys_removeFk hk).1
    have hmarkers := @nestRowF_no_marker schema tree (buildRowIndex D schema)
      fuel (removeFkColumns y e.foreignKeyColumns) e.childTable
      (fun hmem => (hMark e.childTable hcN).1 (hykeys _ hmem))
      (fun hmem => (hMark e.childTable hcN).2 (hykeys _ hmem))
      (fun e' he' => ⟨(hCam e.childTable hcN e' he').2.1, (hCam e.childTable hcN e' he').2.2⟩)
    simp only []
    rw [if_neg (by simp [hmarkers.1]), if_neg (by simp [hmarkers.2])]
    rw [← hfkc]
    refine ih e.childTable y (some (e, fr)) tb2 hcN hyrows hinv2 ⟨hce, rfl, ?_⟩
    intro q hq
    rw [hfr, readCol_reconRow]
    have hq1 : q.1 ∈ e.foreignKeyColumns := (List.of_mem_zip hq).1
    have hprim := (((ref_props hc hce).1 y hyrows).1 q.1 hq1).2
    unfold matchEdge at hymatch
    have hstr := List.all_eq_true.mp hymatch q hq
    simp only [decide_eq_true_eq] at hstr
    exact (jsStrictEq_eq_of_isPrimitive hprim hstr).symm
  · rw [← pushPairs_cons]
    have horig : (origPairsF tree D (fuel + 1) x t).map
        (fun q => (q.1, reconRow q.2 (fkColsOfTable tree q.1)))
        = (t, reconRow x (fkColsOfTable tree t)) ::
          (tree.getChildren t).flatMap (fun e => (childRowsD D e x).flatMap (fun y =>
            (origPairsF tree D fuel y e.childTable).map
              (fun q => (q.1, reconRow q.2 (fkColsOfTable tree q.1))))) := by
      simp only [origPairsF, List.map_cons, List.map_flatMap]
    rw [horig, hfr]

/-- Core round-trip lemma: flattening the nested form of a consistent row's
subtree pushes exactly the reconstructed rows of that subtree, in pre-order. -/
theorem flatten_nest {schema : Schema} {tree : OwnershipTree} {D : FlatDataset}
    (hw : WfTree schema tree) (hc : Consistent schema tree D)
    (hs : StripSafe tree) :
    ∀ (fuel : Nat) (t : String) (x : FlatRow) (ctx : Option (OwnershipEdge × FlatRow))
      (tables : FlatDataset),
      t ∈ schema.tables.map Prod.fst →
      x ∈ rowsOf D t →
      (∀ u ∈ schema.tables.map Prod.fst, (jsGet tables u).isSome = true) →
      (match ctx with
       | none => t ∈ tree.roots
       | some (e, pRow) =>
           e ∈ dominantEdges tree ∧ e.childTable = t ∧
           (∀ q ∈ e.foreignKeyColumns.zip e.relationship.toColumns,
              readCol pRow q.2 = readCol x q.1)) →
      flattenRowF schema tree fuel
          (nestRowF schema tree (buildRowIndex D schema) {} fuel
            (removeFkColumns x (fkColsOfTable tree t)) t)
          t ctx tables
        = pushPairs tables
            ((origPairsF tree D fuel x t).map
              (fun q => (q.1, reconRow q.2 (fkColsOfTable tree q.1)))) := by
  intro fuel
  induction fuel with
  | zero =>
      intro t x ctx tables _ _ _ _
      simp [flattenRowF, origPairsF, pushPairs]
  | succ fuel ih =>
      intro t x ctx tables ht hx hinv hctx
      have hCamNd := hw.2.2.2.2.2.2.2.2.2.2
      have hCam := hw.2.2.2.2.2.2.2.2.2.1
      obtain ⟨tbl, htbl⟩ : ∃ tbl, jsGet schema.tables t = some tbl := by
        have hs := jsGet_isSome_iff_mem.mpr ht
        cases hg : jsGet schema.tables t with
        | none => rw [hg] at hs; simp at hs
        | some tbl => exact ⟨tbl, rfl⟩
      have hcols : tableColumns schema t = tbl.columns.map Column.name := by
        unfold tableColumns
        rw [htbl]
      have hxnd : (rowKeys x).Nodup := (row_props hc ht hx).1
      have hxsnd : (rowKeys (removeFkColumns x (fkColsOfTable tree t))).Nodup :=
        (rowKeys_removeFk_sublist x (fkColsOfTable tree t)).nodup hxnd
      have hxscols : ∀ p ∈ removeFkColumns x (fkColsOfTable tree t),
          p.1 ∈ tbl.columns.map Column.name := by
        intro p hp
        rw [← hcols]
        exact row_keys_sub hc ht hx _
          (mem_rowKeys_removeFk (List.mem_map.mpr ⟨p, hp, rfl⟩)).1
      have hcamfresh : ∀ e ∈ tree.getChildren t,
          ¬ toCamelCase e.childTable ∈ rowKeys (removeFkColumns x (fkColsOfTable tree t)) := by
        intro e he hcmem
        exact (hCam t ht e he).1
          (row_keys_sub hc ht hx _ (mem_rowKeys_removeFk hcmem).1)
      have hnest := nestRowF_entries schema tree (buildRowIndex D schema) fuel
        (removeFkColumns x (fkColsOfTable tree t)) t (hCamNd t ht) hcamfresh
      have hsub : ∀ u ∈ D.map Prod.fst, (jsGet schema.tables u).isSome = true :=
        fun u hu => jsGet_isSome_iff_mem.mpr (hc.2.1 u hu)
      have hstripFind : ∀ e ∈ tree.getChildren t,
          findChildRows (removeFkColumns x (fkColsOfTable tree t)) e (buildRowIndex D schema)
            = childRowsD D e x := by
        intro e he
        rw [findChildRows_strip e x (fkColsOfTable tree t) _ (toCols_disjoint_fkt hs he)]
        exact findChildRows_eq_childRowsD hc.1 hsub
          ((hc.2.2.1 e.childTable (edge_props hw (mem_getChildren_mem_dominantEdges he)).1).2) x
      have hget : ∀ e ∈ tree.getChildren t,
          jsGet (removeFkColumns x (fkColsOfTable tree t) ++ (tree.getChildren t).map (fun e =>
            (toCamelCase e.childTable,
             JVal.arr ((findChildRows (removeFkColumns x (fkColsOfTable tree t)) e
                 (buildRowIndex D schema)).map (fun y =>
               nestRowF schema tree (buildRowIndex D schema) {} fuel
                 (removeFkColumns y e.foreignKeyColumns) e.childTable)))))
            (toCamelCase e.childTable)
          = some (JVal.arr ((childRowsD D e x).map (fun y =>
              nestRowF schema tree (buildRowIndex D schema) {} fuel
                (removeFkColumns y e.foreignKeyColumns) e.childTable))) := by
        intro e he
        rw [jsGet_append]
        rw [jsGet_eq_none_of_not_mem (fun hcm => hcamfresh e he hcm)]
        have hmap := jsGet_map_of_nodup (fun e => toCamelCase e.childTable)
          (fun e => JVal.arr ((findChildRows (removeFkColumns x (fkColsOfTable tree t)) e
              (buildRowIndex D schema)).map (fun y =>
            nestRowF schema tree (buildRowIndex D schema) {} fuel
              (removeFkColumns y e.foreignKeyColumns) e.childTable)))
          (hCamNd t ht) he
        simp only [hmap, hstripFind e he]
      have hflat : (removeFkColumns x (fkColsOfTable tree t) ++ (tree.getChildren t).map (fun e =>
            (toCamelCase e.childTable,
             JVal.arr ((findChildRows (removeFkColumns x (fkColsOfTable tree t)) e
                 (buildRowIndex D schema)).map (fun y =>
               nestRowF schema tree (buildRowIndex D schema) {} fuel
                 (removeFkColumns y e.foreignKeyColumns) e.childTable))))).foldl
            (fun r p => if p.1 ∈ tbl.columns.map Column.name then jsSet r p.1 p.2 else r) []
          = removeFkColumns x (fkColsOfTable tree t) := by
        rw [List.foldl_append]
        rw [foldl_colfilter_in (tbl.columns.map Column.name) _ [] hxscols hxsnd
          (by intro p _ hcm; simp [rowKeys] at hcm)]
        rw [List.nil_append]
        apply foldl_colfilter_out
        intro p hp
        rcases List.mem_map.mp hp with ⟨e, he, rfl⟩
        rw [← hcols]
        exact (hCam t ht e he).1
      rw [hnest]
      cases ctx with
      | none =>
          have hroot : t ∈ tree.roots := hctx
          simp only [flattenRowF, htbl]
          have hfr : (removeFkColumns x (fkColsOfTable tree t) ++ (tree.getChildren t).map (fun e =>
                (toCamelCase e.childTable,
                 JVal.arr ((findChildRows (removeFkColumns x (fkColsOfTable tree t)) e
                     (buildRowIndex D schema)).map (fun y =>
                   nestRowF schema tree (buildRowIndex D schema) {} fuel
                     (removeFkColumns y e.foreignKeyColumns) e.childTable))))).foldl
                (fun r p => if p.1 ∈ tbl.columns.map Column.name then jsSet r p.1 p.2 else r) []
              = reconRow x (fkColsOfTable tree t) := by
            rw [hflat, fkColsOf_root hw ht hroot, removeFk_nil, reconRow_nil]
          exact flatten_nest_children hw hc fuel ih t x ht hx _ hget _ hfr tables hinv
      | some ctxp =>
          obtain ⟨e0, pRow⟩ := ctxp
          obtain ⟨he0, he0c, hHP⟩ := hctx
          obtain ⟨ptbl, hptbl⟩ : ∃ p, jsGet schema.tables e0.parentTable = some p := by
            have hs := jsGet_isSome_iff_mem.mpr (edge_props hw he0).2.1
            cases hg : jsGet schema.tables e0.parentTable with
            | none => rw [hg] at hs; simp at hs
            | some p => exact ⟨p, rfl⟩
          simp only [flattenRowF, htbl, hptbl]
          have hfkteq : fkColsOfTable tree t = e0.foreignKeyColumns :=
            fkColsOf_eq hw ht he0 he0c
          have hfr : (e0.foreignKeyColumns.zip e0.relationship.toColumns).foldl
                (fun r q => jsSet r q.1 (readCol pRow q.2))
                ((removeFkColumns x (fkColsOfTable tree t) ++ (tree.getChildren t).map (fun e =>
                  (toCamelCase e.childTable,
                   JVal.arr ((findChildRows (removeFkColumns x (fkColsOfTable tree t)) e
                       (buildRowIndex D schema)).map (fun y =>
                     nestRowF schema tree (buildRowIndex D schema) {} fuel
                       (removeFkColumns y e.foreignKeyColumns) e.childTable))))).foldl
                  (fun r p => if p.1 ∈ tbl.columns.map Column.name then jsSet r p.1 p.2 else r) [])
              = reconRow x (fkColsOfTable tree t) := by
            rw [hflat]
            have hlen := (edge_props hw he0).2.2.1
            have hfknd := (edge_props hw he0).2.2.2.1
            have hzfresh : ∀ q ∈ e0.foreignKeyColumns.zip e0.relationship.toColumns,
                ¬ q.1 ∈ (removeFkColumns x (fkColsOfTable tree t)).map Prod.fst := by
              intro q hq hcmem
              have := (mem_rowKeys_removeFk hcmem).2
              rw [hfkteq] at this
              exact this (List.of_mem_zip hq).1
            have hznd : ((e0.foreignKeyColumns.zip e0.relationship.toColumns).map
                Prod.fst).Nodup := by
              rw [List.map_fst_zip _ _ hlen.le]
              exact hfknd
            rw [foldl_jsSet_fresh Prod.fst (fun q => readCol pRow q.2)
              (e0.foreignKeyColumns.zip e0.relationship.toColumns)
              (removeFkColumns x (fkColsOfTable tree t)) hznd hzfresh]
            rw [zip_fk_map hlen hHP]
            rw [hfkteq]
            rfl
          exact flatten_nest_children hw hc fuel ih t x ht hx _ hget _ hfr tables hinv

theorem countP_eq_count {α : Type} [DecidableEq α] (l : List α) (a : α) :
    l.countP (fun x => x = a) = l.count a := by
  induction l with
  | nil => simp
  | cons b bs ih =>
      by_cases hb : b = a
      · simp [List.countP_cons, List.count_cons, hb, ih]
      · simp [List.countP_cons, List.count_cons, hb, ih]

theorem sublist_flatMap_of_mem {α β : Type} (f : α → List β) {l : List α} {a : α}
    (h : a ∈ l) : (f a).Sublist (l.flatMap f) := by
  induction l with
  | nil => simp at h
  | cons b bs ih =>
      rw [List.flatMap_cons]
      rcases List.mem_cons.mp h with rfl | hm
      · exact List.sublist_append_left _ _
      · exact (ih hm).trans (List.sublist_append_right _ _)

theorem count_cons_flatMap_self {α : Type} [DecidableEq α] (h : α → List α) (c : α) :
    ∀ (P : List α),
      cnt c (P.flatMap (fun q => q :: h q))
        = cnt c P + cnt c (P.flatMap h) := by
  intro P
  induction P with
  | nil => simp [cnt_nil]
  | cons q P ih =>
      simp only [List.flatMap_cons, List.cons_append, cnt_cons, cnt_append, ih]
      omega

theorem origPairsF_succ (tree : OwnershipTree) (D : FlatDataset) (F : Nat)
    (q : String × FlatRow) :
    origPairsF tree D (F + 1) q.2 q.1
      = q :: (nextPairs tree D q).flatMap (fun q' => origPairsF tree D F q'.2 q'.1) := by
  simp only [origPairsF, nextPairs]
  congr 1
  rw [List.flatMap_assoc]
  simp only [List.flatMap_map]

theorem levelFrom_succ_out (tree : OwnershipTree) (D : FlatDataset) :
    ∀ (l : Nat) (P : List (String × FlatRow)),
      levelFrom tree D (l + 1) P = stepPairs tree D (levelFrom tree D l P) := by
  intro l
  induction l with
  | zero => intro P; rfl
  | succ l ih =>
      intro P
      exact ih (stepPairs tree D P)

theorem count_flatMap_orig (tree : OwnershipTree) (D : FlatDataset)
    (c : String × FlatRow) :
    ∀ (F : Nat) (P : List (String × FlatRow)),
      cnt c (P.flatMap (fun q => origPairsF tree D F q.2 q.1))
        = ((List.range F).map (fun l => cnt c (levelFrom tree D l P))).sum := by
  intro F
  induction F with
  | zero =>
      intro P
      simp only [List.range_zero, List.map_nil, List.sum_nil]
      rw [cnt_eq_zero]
      intro hmem
      rcases List.mem_flatMap.mp hmem with ⟨q, _, hq⟩
      simp [origPairsF] at hq
  | succ F ihF =>
      intro P
      have hcongr : P.flatMap (fun q => origPairsF tree D (F + 1) q.2 q.1)
          = P.flatMap (fun q => q :: (nextPairs tree D q).flatMap
              (fun q' => origPairsF tree D F q'.2 q'.1)) :=
        List.flatMap_congr (fun q _ => origPairsF_succ tree D F q)
      rw [hcongr]
      refine Eq.trans (count_cons_flatMap_self
        (fun q => (nextPairs tree D q).flatMap (fun q' => origPairsF tree D F q'.2 q'.1))
        c P) ?_
      have hassoc : P.flatMap (fun q => (nextPairs tree D q).flatMap
            (fun q' => origPairsF tree D F q'.2 q'.1))
          = (stepPairs tree D P).flatMap (fun q' => origPairsF tree D F q'.2 q'.1) := by
        unfold stepPairs
        rw [List.flatMap_assoc]
      rw [hassoc, ihF (stepPairs tree D P)]
      rw [List.range_succ_eq_map]
      simp only [List.map_cons, List.sum_cons, List.map_map]
      congr 1

theorem count_nextPairs_root {schema : Schema} {tree : OwnershipTree} {D : FlatDataset}
    (hw : WfTree schema tree) {t : String} {y : FlatRow}
    (ht : t ∈ schema.tables.map Prod.fst) (hroot : t ∈ tree.roots)
    (q : String × FlatRow) :
    cnt (t, y) (nextPairs tree D q) = 0 := by
  rw [cnt_eq_zero]
  intro hmem
  unfold nextPairs at hmem
  rcases List.mem_flatMap.mp hmem with ⟨e, he, hpair⟩
  rcases List.mem_map.mp hpair with ⟨y2, _, heq⟩
  have hct : e.childTable = t := congrArg Prod.fst heq
  have hce := mem_getChildren_mem_dominantEdges he
  have hPart := hw.2.2.2.2.2.2.1
  rcases hPart t ht with ⟨_, hcount⟩ | ⟨hnr, _⟩
  · have hpos : 0 < (dominantEdges tree).countP (fun e2 => e2.childTable = t) :=
      List.countP_pos_iff.mpr ⟨e, hce, by simp [hct]⟩
    omega
  · exact hnr hroot

theorem count_nextPairs_nonroot {schema : Schema} {tree : OwnershipTree} {D : FlatDataset}
    (hw : WfTree schema tree) {t : String}
    (ht : t ∈ schema.tables.map Prod.fst) (hnr : ¬ t ∈ tree.roots)
    {e0 : OwnershipEdge} (hp : parentEdgeOf tree t = some e0) (y : FlatRow)
    (q : String × FlatRow) :
    cnt (t, y) (nextPairs tree D q)
      = if q.1 = e0.parentTable then cnt y (childRowsD D e0 q.2) else 0 := by
  obtain ⟨he0mem, he0c⟩ := parentEdgeOf_mem hp
  have hE := hw.2.2.2.2.2.1
  have hCn := hw.2.2.2.2.1
  have hpar : ∀ p ∈ tree.childrenMap, ∀ e2 ∈ p.2, e2.parentTable = p.1 :=
    fun p hpp e2 he2 => (hE p hpp e2 he2).1
  have hPart := hw.2.2.2.2.2.2.1
  have hcount1 : (dominantEdges tree).countP (fun e2 => e2.childTable = t) = 1 := by
    rcases hPart t ht with ⟨hr, _⟩ | ⟨_, h1⟩
    · exact absurd hr hnr
    · exact h1
  unfold nextPairs
  rw [count_flatMap]
  by_cases hq : q.1 = e0.parentTable
  · rw [if_pos hq, hq]
    rw [List.map_congr_left (fun e _ => count_pair_map (childRowsD D e q.2))]
    have hpt : (tree.getChildren e0.parentTable).map
        (fun e => if e.childTable = t then cnt y (childRowsD D e q.2) else 0)
        = (tree.getChildren e0.parentTable).map
            (fun e => if e.childTable = t then cnt y (childRowsD D e0 q.2) else 0) := by
      apply List.map_congr_left
      intro e he
      by_cases hct : e.childTable = t
      · have heq : e = e0 := countP_one_mem_unique hcount1
          (mem_getChildren_mem_dominantEdges he) (by simp [hct]) he0mem (by simp [he0c])
        rw [heq]
      · rw [if_neg hct, if_neg hct]
    rw [hpt, sum_map_ite_count]
    have hin : e0 ∈ tree.getChildren e0.parentTable :=
      mem_dominantEdges_getChildren hCn hpar he0mem
    obtain ⟨grp, hgrp, hingrp⟩ := getChildren_group_mem hin
    have hsubl : (tree.getChildren e0.parentTable).Sublist (dominantEdges tree) := by
      have h1 : tree.getChildren e0.parentTable = grp := by
        unfold OwnershipTree.getChildren
        rw [jsGet_of_mem_nodup hCn (by exact hgrp)]
        rfl
      rw [h1]
      exact sublist_flatMap_of_mem Prod.snd hgrp
    have hle := hsubl.countP_le (fun e2 => decide (e2.childTable = t))
    have hge : 0 < (tree.getChildren e0.parentTable).countP (fun e2 => e2.childTable = t) :=
      List.countP_pos_iff.mpr ⟨e0, hin, by simp [he0c]⟩
    have h1 : (tree.getChildren e0.parentTable).countP (fun e2 => e2.childTable = t) = 1 := by
      omega
    rw [h1, Nat.mul_one]
  · rw [if_neg hq]
    apply List.sum_eq_zero
    intro n hn
    rcases List.mem_map.mp hn with ⟨e, he, rfl⟩
    rw [count_pair_map]
    by_cases hct : e.childTable = t
    · have heq : e = e0 := countP_one_mem_unique hcount1
        (mem_getChildren_mem_dominantEdges he) (by simp [hct]) he0mem (by simp [he0c])
      have hptbl := edge_parentTable hw he
      rw [heq] at hptbl
      exact absurd hptbl.symm hq
    · rw [if_neg hct]

theorem depthOf_root_zero {tree : OwnershipTree} {t : String} {d : Nat} {fuel : Nat}
    (hroot : t ∈ tree.roots) (hd : depthOf tree (fuel + 1) t = some d) : d = 0 := by
  simp only [depthOf, if_pos hroot] at hd
  injection hd with hd
  omega

theorem depthOf_nonroot_pos {tree : OwnershipTree} {t : String} {d : Nat} {fuel : Nat}
    (hnr : ¬ t ∈ tree.roots) (hd : depthOf tree (fuel + 1) t = some d) :
    ∃ e0 d', parentEdgeOf tree t = some e0 ∧
      depthOf tree fuel e0.parentTable = some d' ∧ d = d' + 1 := by
  simp only [depthOf, if_neg hnr] at hd
  cases hp : parentEdgeOf tree t with
  | none => simp only [hp] at hd; exact absurd hd (by simp)
  | some e0 =>
      simp only [hp] at hd
      cases hdp : depthOf tree fuel e0.parentTable with
      | none => rw [hdp] at hd; simp at hd
      | some d' =>
          rw [hdp] at hd
          simp only [Option.map] at hd
          injection hd with hd
          exact ⟨e0, d', rfl, hdp, hd.symm⟩

theorem count_levelFrom {schema : Schema} {tree : OwnershipTree} {D : FlatDataset}
    (hw : WfTree schema tree) (hc : Consistent schema tree D) :
    ∀ (l : Nat) (t : String) (d : Nat) (y : FlatRow),
      t ∈ schema.tables.map Prod.fst →
      depthOf tree (schema.tables.length + 1) t = some d →
      cnt (t, y) (levelFrom tree D l (rootPairs tree D))
        = if l = d then cnt y (rowsOf D t) else 0 := by
  intro l
  induction l with
  | zero =>
      intro t d y ht hd
      show cnt (t, y) (rootPairs tree D) = _
      unfold rootPairs
      rw [count_flatMap]
      by_cases hroot : t ∈ tree.roots
      · have hd0 : d = 0 := depthOf_root_zero hroot hd
        subst hd0
        rw [if_pos rfl]
        have hRn := hw.2.1
        rw [List.map_congr_left (fun r hr => ?_)]
        · rw [sum_map_ite_count (fun r => r = t)]
          rw [countP_eq_count]
          rw [List.count_eq_one_of_mem hRn hroot, Nat.mul_one]
        · show cnt (t, y) ((rowsOf D r).map (fun x => (r, x)))
            = if r = t then cnt y (rowsOf D t) else 0
          rw [count_pair_map]
          by_cases hrt : r = t
          · rw [if_pos hrt, if_pos hrt, hrt]
          · rw [if_neg hrt, if_neg hrt]
      · have hdpos := depthOf_nonroot_pos hroot hd
        rcases hdpos with ⟨e0, d', _, _, rfl⟩
        rw [if_neg (by omega)]
        apply List.sum_eq_zero
        intro n hn
        rcases List.mem_map.mp hn with ⟨r, hr, rfl⟩
        rw [count_pair_map]
        rw [if_neg (show ¬ r = t from fun hrt => hroot (hrt ▸ hr))]
  | succ l ihl =>
      intro t d y ht hd
      rw [levelFrom_succ_out]
      unfold stepPairs
      rw [count_flatMap]
      by_cases hroot : t ∈ tree.roots
      · have hd0 : d = 0 := depthOf_root_zero hroot hd
        rw [if_neg (by omega)]
        apply List.sum_eq_zero
        intro n hn
        rcases List.mem_map.mp hn with ⟨q, hq, rfl⟩
        rw [count_nextPairs_root hw ht hroot q]
      · rcases depthOf_nonroot_pos hroot hd with ⟨e0, d', hp, hdp, rfl⟩
        obtain ⟨he0mem, he0c⟩ := parentEdgeOf_mem hp
        have hpN : e0.parentTable ∈ schema.tables.map Prod.fst :=
          (edge_props hw he0mem).2.1
        have hdp' : depthOf tree (schema.tables.length + 1) e0.parentTable = some d' :=
          depthOf_mono (by omega) hdp
        rw [List.map_congr_left (fun q _ => count_nextPairs_nonroot hw ht hroot hp y q)]
        rw [sum_map_ite_fst (fun x => cnt y (childRowsD D e0 x))]
        by_cases hld : l = d'
        · subst hld
          have hQperm : List.Perm
              (((levelFrom tree D l (rootPairs tree D)).filter
                (fun q => q.1 = e0.parentTable)).map Prod.snd)
              (rowsOf D e0.parentTable) := by
            rw [List.perm_iff_count]
            intro x
            rw [← cnt_eq_count, ← cnt_eq_count]
            rw [count_filter_fst_map_snd]
            rw [ihl e0.parentTable l x hpN hdp']
            rw [if_pos rfl]
          rw [List.Perm.sum_eq (hQperm.map (fun x => cnt y (childRowsD D e0 x)))]
          have hpoint : ∀ x ∈ rowsOf D e0.parentTable,
              cnt y (childRowsD D e0 x)
                = if matchEdge e0 x y = true then cnt y (rowsOf D e0.childTable) else 0 := by
            intro x _
            unfold childRowsD
            exact count_filter_if _ _ y
          rw [List.map_congr_left hpoint]
          rw [sum_map_ite_count (fun x => matchEdge e0 x y = true)]
          have hcp : (rowsOf D e0.parentTable).countP
                (fun x => decide (matchEdge e0 x y = true))
              = (rowsOf D e0.parentTable).countP (fun x => matchEdge e0 x y) := by
            apply List.countP_congr
            intro x _
            simp
          rw [hcp]
          by_cases hy : y ∈ rowsOf D e0.childTable
          · rw [((ref_props hc he0mem).1 y hy).2, Nat.mul_one]
            rw [he0c, if_pos rfl]
          · have h0 : cnt y (rowsOf D e0.childTable) = 0 := cnt_eq_zero.mpr hy
            have h0' : cnt y (rowsOf D t) = 0 := by rw [← he0c]; exact h0
            rw [h0, Nat.zero_mul, if_pos rfl, h0']
        · have hQnil : ((levelFrom tree D l (rootPairs tree D)).filter
              (fun q => q.1 = e0.parentTable)).map Prod.snd = [] := by
            rw [List.eq_nil_iff_forall_not_mem]
            intro x hx
            have hpos : 0 < cnt x (((levelFrom tree D l (rootPairs tree D)).filter
                (fun q => q.1 = e0.parentTable)).map Prod.snd) := cnt_pos.mpr hx
            rw [count_filter_fst_map_snd, ihl e0.parentTable d' x hpN hdp',
              if_neg hld] at hpos
            omega
          rw [hQnil]
          simp only [List.map_nil, List.sum_nil]
          rw [if_neg (by omega)]

theorem toNested_data (schema : Schema) (tree : OwnershipTree) (D : FlatDataset)
    (hcam : (tree.roots.map toCamelCase).Nodup) :
    (toNested D schema tree {}).data
      = tree.roots.map (fun r => (toCamelCase r,
          (rowsOf D r).map (fun x => nestRowF schema tree (buildRowIndex D schema) {}
            (schema.tables.length + 1) x r))) := by
  show (tree.roots.foldl
      (fun acc rootTable =>
        (NestedResult.mk
          (jsSet acc.data (toCamelCase rootTable)
            ((rowsOf D rootTable).map (fun row =>
              nestRowF schema tree (buildRowIndex D schema) {}
                (schema.tables.length + 1) row rootTable)))
          acc.truncated))
      (NestedResult.mk [] [])).data = _
  have haux : ∀ (roots : List String) (acc : NestedResult),
      (roots.map toCamelCase).Nodup →
      (∀ r ∈ roots, ¬ toCamelCase r ∈ acc.data.map Prod.fst) →
      (roots.foldl
        (fun acc rootTable =>
          (NestedResult.mk
            (jsSet acc.data (toCamelCase rootTable)
              ((rowsOf D rootTable).map (fun row =>
                nestRowF schema tree (buildRowIndex D schema) {}
                  (schema.tables.length + 1) row rootTable)))
            acc.truncated))
        acc).data
      = acc.data ++ roots.map (fun r => (toCamelCase r,
          (rowsOf D r).map (fun x => nestRowF schema tree (buildRowIndex D schema) {}
            (schema.tables.length + 1) x r))) := by
    intro roots
    induction roots with
    | nil => intro acc _ _; simp
    | cons r rs ih =>
        intro acc hnd hfresh
        simp only [List.map_cons, List.nodup_cons] at hnd
        simp only [List.foldl_cons]
        rw [ih _ hnd.2 ?_]
        · show jsSet acc.data (toCamelCase r) _ ++ _ = _
          rw [jsSet_fresh _ (hfresh r (List.mem_cons_self r rs))]
          simp
        · intro r2 hr2
          show ¬ toCamelCase r2 ∈ (jsSet acc.data (toCamelCase r) _).map Prod.fst
          rw [jsSet_fresh _ (hfresh r (List.mem_cons_self r rs))]
          simp only [List.map_append, List.mem_append, List.map_cons, List.map_nil,
            List.mem_singleton]
          rintro (hcm | hcm)
          · exact hfresh r2 (List.mem_cons_of_mem r hr2) hcm
          · exact hnd.1 (hcm ▸ (List.mem_map.mpr ⟨r2, hr2, rfl⟩))
  rw [haux tree.roots _ hcam (by simp)]
  simp

theorem tables0_eq (schema : Schema)
    (hTn : (schema.tables.map Prod.fst).Nodup) :
    schema.tables.foldl (fun m p => jsSet m p.1 ([] : List FlatRow)) []
      = schema.tables.map (fun p => (p.1, ([] : List FlatRow))) := by
  refine Eq.trans (foldl_jsSet_fresh Prod.fst (fun _ => ([] : List FlatRow))
    schema.tables [] hTn (by simp)) ?_
  simp

theorem jsGet_tables0 (schema : Schema)
    (hTn : (schema.tables.map Prod.fst).Nodup) {t : String}
    (ht : t ∈ schema.tables.map Prod.fst) :
    jsGet (schema.tables.map (fun p => (p.1, ([] : List FlatRow)))) t = some [] := by
  rcases List.mem_map.mp ht with ⟨p, hp, rfl⟩
  exact jsGet_map_of_nodup Prod.fst (fun _ => ([] : List FlatRow)) hTn hp

theorem fromNested_toNested {schema : Schema} {tree : OwnershipTree} {D : FlatDataset}
    (hw : WfTree schema tree) (hc : Consistent schema tree D)
    (hs : StripSafe tree) :
    fromNested (toNested D schema tree {}).data schema tree
      = pushPairs (schema.tables.map (fun p => (p.1, ([] : List FlatRow))))
          ((rootPairs tree D).flatMap (fun q =>
            (origPairsF tree D (schema.tables.length + 1) q.2 q.1).map
              (fun q2 => (q2.1, reconRow q2.2 (fkColsOfTable tree q2.1))))) := by
  have hTn := hw.1
  have hRn := hw.2.1
  have hRcam := hw.2.2.1
  have hRt := hw.2.2.2.1
  have hMark := hw.2.2.2.2.2.2.2.2.1
  have hCam := hw.2.2.2.2.2.2.2.2.2.1
  show (tree.roots.foldl
      (fun tables rootTable =>
        (((jsGet (toNested D schema tree {}).data (toCamelCase rootTable)).getD []).foldl
          (fun tables row =>
            if isPartialMarker row then tables
            else if isRefMarker row then tables
            else flattenRowF schema tree (schema.tables.length + 1) row rootTable none tables)
          tables))
      (schema.tables.foldl (fun m p => jsSet m p.1 ([] : List FlatRow)) [])) = _
  rw [tables0_eq schema hTn]
  have hInvPres : ∀ (tb : FlatDataset) (l : List (String × FlatRow)),
      (∀ u ∈ schema.tables.map Prod.fst, (jsGet tb u).isSome = true) →
      (∀ u ∈ schema.tables.map Prod.fst, (jsGet (pushPairs tb l) u).isSome = true) :=
    fun tb l h u hu => pushPairs_isSome (h u hu) l
  have hinv0 : ∀ u ∈ schema.tables.map Prod.fst,
      (jsGet (schema.tables.map (fun p => (p.1, ([] : List FlatRow)))) u).isSome = true := by
    intro u hu
    rw [jsGet_tables0 schema hTn hu]
    rfl
  refine Eq.trans
    (foldl_pushPairs_of_pointwise _ _
      (fun r => (rowsOf D r).flatMap (fun x =>
        (origPairsF tree D (schema.tables.length + 1) x r).map
          (fun q2 => (q2.1, reconRow q2.2 (fkColsOfTable tree q2.1)))))
      hInvPres tree.roots ?_ _ hinv0) ?_
  · intro r hr tb hinvtb
    have hrt : r ∈ schema.tables.map Prod.fst := hRt r hr
    have hnodes : jsGet (toNested D schema tree {}).data (toCamelCase r)
        = some ((rowsOf D r).map (fun x => nestRowF schema tree (buildRowIndex D schema) {}
            (schema.tables.length + 1) x r)) := by
      rw [toNested_data schema tree D hRcam]
      exact jsGet_map_of_nodup toCamelCase
        (fun r => (rowsOf D r).map (fun x => nestRowF schema tree (buildRowIndex D schema) {}
          (schema.tables.length + 1) x r)) hRcam hr
    simp only [hnodes, Option.getD_some]
    rw [List.foldl_map]
    refine foldl_pushPairs_of_pointwise _ _
      (fun x => (origPairsF tree D (schema.tables.length + 1) x r).map
        (fun q2 => (q2.1, reconRow q2.2 (fkColsOfTable tree q2.1))))
      hInvPres (rowsOf D r) ?_ tb hinvtb
    intro x hx tb2 hinv2
    have hxkeys : ∀ k ∈ rowKeys x, k ∈ tableColumns schema r := row_keys_sub hc hrt hx
    have hmarkers := @nestRowF_no_marker schema tree (buildRowIndex D schema)
      (schema.tables.length + 1) x r
      (fun hmem => (hMark r hrt).1 (hxkeys _ hmem))
      (fun hmem => (hMark r hrt).2 (hxkeys _ hmem))
      (fun e2 he2 => ⟨(hCam r hrt e2 he2).2.1, (hCam r hrt e2 he2).2.2⟩)
    simp only []
    rw [if_neg (by simp [hmarkers.1]), if_neg (by simp [hmarkers.2])]
    have hxr : removeFkColumns x (fkColsOfTable tree r) = x := by
      rw [fkColsOf_root hw hrt hr, removeFk_nil]
    rw [show (nestRowF schema tree (buildRowIndex D schema) {}
        (schema.tables.length + 1) x r)
      = (nestRowF schema tree (buildRowIndex D schema) {}
        (schema.tables.length + 1) (removeFkColumns x (fkColsOfTable tree r)) r) by rw [hxr]]
    exact flatten_nest hw hc hs (schema.tables.length + 1) r x none tb2 hrt hx hinv2 hr
  · congr 1
    unfold rootPairs
    rw [List.flatMap_assoc]
    apply List.flatMap_congr
    intro r _
    rw [List.flatMap_map]

theorem roundtrip_count {schema : Schema} {tree : OwnershipTree} {D : FlatDataset}
    (hw : WfTree schema tree) (hc : Consistent schema tree D) (t : String)
    (ht : t ∈ schema.tables.map Prod.fst) (x : FlatRow) :
    cnt (t, x) ((rootPairs tree D).flatMap
        (fun q => origPairsF tree D (schema.tables.length + 1) q.2 q.1))
      = cnt x (rowsOf D t) := by
  rw [count_flatMap_orig]
  have hDepth := hw.2.2.2.2.2.2.2.1
  obtain ⟨d, hd⟩ : ∃ d, depthOf tree (schema.tables.length + 1) t = some d := by
    have hs := hDepth t ht
    cases hg : depthOf tree (schema.tables.length + 1) t with
    | none => rw [hg] at hs; simp at hs
    | some d => exact ⟨d, rfl⟩
  have hdlt : d < schema.tables.length + 1 := depthOf_lt_fuel hd
  rw [List.map_congr_left (fun l _ => count_levelFrom hw hc l t d x ht hd)]
  rw [sum_range_ite]
  rw [if_pos hdlt]

theorem filter_fst_map_recon (tree : OwnershipTree) (t : String)
    (l : List (String × FlatRow)) :
    ((l.map (fun q => (q.1, reconRow q.2 (fkColsOfTable tree q.1)))).filter
        (fun q => q.1 = t)).map Prod.snd
      = (l.filter (fun q => q.1 = t)).map
          (fun q => reconRow q.2 (fkColsOfTable tree q.1)) := by
  induction l with
  | nil => rfl
  | cons q l ih =>
      by_cases hq : q.1 = t
      · simp only [List.map_cons, List.filter_cons, hq]
        simp [ih]
        rw [hq]
      · simp only [List.map_cons, List.filter_cons]
        rw [if_neg (by simpa using hq), if_neg (by simpa using hq)]
        exact ih

/-- Delimitation of the C2 defect: for every flat dataset consistent with a
schema and ownership tree (the spec-§3 side conditions `WfTree` and
`Consistent`), and **additionally assuming the extra-spec `StripSafe`
condition** — without which the round trip provably loses rows, see
`roundtrip_drops_composite_key_grandchildren` — converting to nested form
and back with no `limit`/`nestedLimit` options is the identity setwise per
table: for each schema table, the rows of `fromNested (toNested D).data`
are a permutation of the rows of `D`, with rows compared canonically (as
key–value maps, since `fromNested` re-appends the stripped FK columns at
the end of each reconstructed row). -/
theorem toNested_fromNested_roundtrip (schema : Schema) (tree : OwnershipTree)
    (D : FlatDataset) (hw : WfTree schema tree) (hc : Consistent schema tree D)
    (hs : StripSafe tree) :
    ∀ t ∈ schema.tables.map Prod.fst,
      List.Perm
        ((rowsOf (fromNested (toNested D schema tree {}).data schema tree) t).map canonRow)
        ((rowsOf D t).map canonRow) := by
  intro t ht
  rw [fromNested_toNested hw hc hs]
  unfold rowsOf
  rw [jsGet_pushPairs]
  rw [jsGet_tables0 schema hw.1 ht]
  simp only [Option.map, Option.getD_some, List.nil_append]
  have hALL : (rootPairs tree D).flatMap
      (fun q => (origPairsF tree D (schema.tables.length + 1) q.2 q.1).map
        (fun q2 => (q2.1, reconRow q2.2 (fkColsOfTable tree q2.1))))
      = ((rootPairs tree D).flatMap
          (fun q => origPairsF tree D (schema.tables.length + 1) q.2 q.1)).map
          (fun q2 => (q2.1, reconRow q2.2 (fkColsOfTable tree q2.1))) :=
    (List.map_flatMap _ _ _).symm
  rw [hALL, filter_fst_map_recon, List.map_map]
  have hperm : List.Perm
      ((((rootPairs tree D).flatMap
          (fun q => origPairsF tree D (schema.tables.length + 1) q.2 q.1)).filter
          (fun q => q.1 = t)).map Prod.snd)
      (rowsOf D t) := by
    rw [List.perm_iff_count]
    intro x
    rw [← cnt_eq_count, ← cnt_eq_count, count_filter_fst_map_snd]
    exact roundtrip_count hw hc t ht x
  have hmapeq : (((rootPairs tree D).flatMap
        (fun q => origPairsF tree D (schema.tables.length + 1) q.2 q.1)).filter
        (fun q => q.1 = t)).map
        (canonRow ∘ (fun q => reconRow q.2 (fkColsOfTable tree q.1)))
      = (((rootPairs tree D).flatMap
          (fun q => origPairsF tree D (schema.tables.length + 1) q.2 q.1)).filter
          (fun q => q.1 = t)).map (fun q => canonRow q.2) := by
    apply List.map_congr_left
    intro q hq
    have hq1 : q.1 = t := by simpa using (List.mem_filter.mp hq).2
    have hq2mem : q.2 ∈ rowsOf D t := by
      have hm : q.2 ∈ (((rootPairs tree D).flatMap
          (fun q => origPairsF tree D (schema.tables.length + 1) q.2 q.1)).filter
          (fun q => q.1 = t)).map Prod.snd := List.mem_map.mpr ⟨q, hq, rfl⟩
      exact hperm.mem_iff.mp hm
    show canonRow (reconRow q.2 (fkColsOfTable tree q.1)) = canonRow q.2
    rw [hq1]
    have hynd : (rowKeys q.2).Nodup := (row_props hc ht hq2mem).1
    by_cases hroot : t ∈ tree.roots
    · rw [fkColsOf_root hw ht hroot, reconRow_nil]
    · have hPart := hw.2.2.2.2.2.2.1
      rcases hPart t ht with ⟨hr, _⟩ | ⟨_, hcount⟩
      · exact absurd hr hroot
      · have hpos : 0 < (dominantEdges tree).countP (fun e2 => e2.childTable = t) := by
          omega
        rcases List.countP_pos_iff.mp hpos with ⟨e0, he0mem, he0c⟩
        simp only [decide_eq_true_eq] at he0c
        have hp : parentEdgeOf tree t = some e0 :=
          parentEdge_unique hw ht hroot he0mem he0c
        have hfkt : fkColsOfTable tree t = e0.foreignKeyColumns := by
          unfold fkColsOfTable
          rw [hp]
        rw [hfkt]
        apply canonRow_reconRow hynd (edge_props hw he0mem).2.2.2.1
        intro fk hfk
        have hy2 : q.2 ∈ rowsOf D e0.childTable := by
          rw [he0c]
          exact hq2mem
        have hs := (((ref_props hc he0mem).1 q.2 hy2).1 fk hfk).1
        exact jsGet_isSome_iff_mem.mp hs
  rw [hmapeq]
  rw [show (fun q : String × FlatRow => canonRow q.2) = canonRow ∘ Prod.snd from rfl,
    ← List.map_map]
  exact hperm.map canonRow

/-- Witness for the delimitation theorem: the scenario-1
Organization/Project dataset satisfies the consistency side conditions and
`StripSafe`, and the round trip preserves the `Project` table. -/
theorem toNested_fromNested_roundtrip_witness :
    WfTree exOrgProjSchema (buildOwnershipTree exOrgProjSchema) ∧
    Consistent exOrgProjSchema (buildOwnershipTree exOrgProjSchema) exOrgProjFlat ∧
    StripSafe (buildOwnershipTree exOrgProjSchema) ∧
    "Project" ∈ exOrgProjSchema.tables.map Prod.fst ∧
    List.Perm
      ((rowsOf (fromNested
          (toNested exOrgProjFlat exOrgProjSchema (buildOwnershipTree exOrgProjSchema) {}).data
          exOrgProjSchema (buildOwnershipTree exOrgProjSchema)) "Project").map canonRow)
      ((rowsOf exOrgProjFlat "Project").map canonRow) :=
  ⟨by decide, by decide, by decide, by decide,
   toNested_fromNested_roundtrip exOrgProjSchema (buildOwnershipTree exOrgProjSchema)
     exOrgProjFlat (by decide) (by decide) (by decide) "Project" (by decide)⟩

/-- **C2.** Refuted — code bug.  The claim states that for *every* flat
dataset `D` consistent with schema `S` and ownership tree `T`,
`fromNested (toNested D S T) S T` equals `D` setwise per table (no
`limit`/`nestedLimit` options).  On the spec-legal identifying
composite-key schema `A ← B ← C` — where `C` references `B`'s composite
primary key `(aId, bKey)` and `aId` is also `B`'s FK to `A` — the dataset
is `Consistent` and the tree built by `buildOwnershipTree` satisfies every
spec-derived well-formedness condition (`WfTree`), yet the round trip
returns an *empty* `C` table: `nestRow` strips `B`'s FK column `aId`
before `findChildRows` matches `C`'s rows, which then compare against
`undefined` and are silently dropped.  (`toNested_fromNested_roundtrip`
shows the law holds exactly when the extra-spec `StripSafe` condition is
added.) -/
theorem roundtrip_drops_composite_key_grandchildren :
    WfTree exCompSchema (buildOwnershipTree exCompSchema) ∧
    Consistent exCompSchema (buildOwnershipTree exCompSchema) exCompFlat ∧
    rowsOf exCompFlat "C"
      = [[("cId", .str "c1"), ("aId", .str "a1"), ("bKey", .str "k1")]] ∧
    rowsOf (fromNested
        (toNested exCompFlat exCompSchema (buildOwnershipTree exCompSchema) {}).data
        exCompSchema (buildOwnershipTree exCompSchema)) "C" = [] := by
  refine ⟨by decide, by decide, by decide, by decide⟩

end DbEditor
